import Mathlib

/-! # OSM-15 typed-data hashing, signing and keystore

A shallow embedding of `osm15.go` and `keystore.go`.

* Go `string` and `[]byte` values are byte sequences, written `Bytes`; a byte is a
  natural number.  Literals are given through `ascii`.
* Library primitives (SHA-256, Ed25519, base64, base58, JSON, scrypt, AES-GCM and the
  order in which `range` walks a map) are the fields of `Env`; the functions of the
  package take the environment as their first argument.
* `encodeValue` and `hashStruct` call each other along the declared types; the embedding
  bounds the nesting depth by a `fuel` argument and answers `none` when the bound is
  reached.  A call returns `r` when some fuel gives `some r`; a call that answers `none`
  for every fuel never returns (a Go panic is also rendered as `none`).
* In `HashTypedData` the source carries unresolved merge markers; the embedding follows
  the `HEAD` side, the only one under which the function body compiles.
-/

namespace OSM15

/-! ## Bytes, strings and formatting -/

/-- Byte sequences: Go `[]byte` and Go `string`. -/
abbrev Bytes := List Nat

/-- The bytes of an ASCII literal. -/
def ascii (s : String) : Bytes := s.toList.map Char.toNat

/-- Go `strings.HasSuffix`. -/
def hasSuffix (s suffix : Bytes) : Bool := suffix.isSuffixOf s

/-- Go `strings.TrimSuffix`. -/
def trimSuffix (s suffix : Bytes) : Bytes :=
  if hasSuffix s suffix then s.take (s.length - suffix.length) else s

/-- Decimal digits of `n` as ASCII bytes, least significant first. -/
def decimalRev : Nat → Nat → Bytes
  | 0, _ => []
  | fuel + 1, n => if n < 10 then [48 + n] else (48 + n % 10) :: decimalRev fuel (n / 10)

/-- Go `%d` of a non-negative integer. -/
def formatNat (n : Nat) : Bytes := (decimalRev (n + 1) n).reverse

/-- Go `%d` / `%v` of an `int`. -/
def formatInt (i : Int) : Bytes :=
  if i < 0 then 45 :: formatNat i.natAbs else formatNat i.natAbs

/-- A finite `float64`, given by the shortest decimal representation that round-trips:
the value is `0.d₁d₂… × 10 ^ dp`, negated when `neg`. -/
structure Float64 where
  neg : Bool
  digits : List Nat
  dp : Int
deriving DecidableEq, Repr

/-- Go `strconv` exponent form `d.ddde±dd` of a shortest representation. -/
def fmtE (f : Float64) : Bytes :=
  let first := match f.digits with
    | [] => 48
    | d :: _ => 48 + d
  let more := match f.digits with
    | _ :: d :: rest => 46 :: (d :: rest).map (48 + ·)
    | _ => []
  let exp : Int := if f.digits = [] then 0 else f.dp - 1
  let sign := if exp < 0 then 45 else 43
  let e := exp.natAbs
  let expDigits := if e < 10 then [48, 48 + e] else formatNat e
  first :: more ++ [101, sign] ++ expDigits

/-- Go `strconv` positional form of a shortest representation. -/
def fmtF (f : Float64) : Bytes :=
  let nd := f.digits.length
  let intPart :=
    if 0 < f.dp then
      (f.digits.take f.dp.toNat).map (48 + ·) ++ List.replicate (f.dp.toNat - nd) 48
    else [48]
  let prec := ((nd : Int) - f.dp).toNat
  let frac :=
    if 0 < prec then
      46 :: (List.range prec).map fun i =>
        let j : Int := f.dp + i
        if 0 ≤ j ∧ j < nd then 48 + f.digits.getD j.toNat 0 else 48
    else []
  intPart ++ frac

/-- Go `%v` of a `float64`: the `%g` form with the shortest precision, which switches to
the exponent form when the decimal exponent is below `-4` or at least `6`. -/
def formatFloat (f : Float64) : Bytes :=
  let exp := f.dp - 1
  (if f.neg then [45] else []) ++ (if exp < -4 ∨ 6 ≤ exp then fmtE f else fmtF f)

/-! ## Data model -/

/-- The dynamic values a Go `interface{}` of a message can hold: `nil`, a string, an
`int`, a `float64`, a `bool`, a `map[string]interface{}` and a slice (of any element
type, its elements seen as interface values). -/
inductive Value where
  | null
  | str (s : Bytes)
  | int (i : Int)
  | float (f : Float64)
  | bool (b : Bool)
  | map (kvs : List (Bytes × Value))
  | slice (xs : List Value)

/-- Go `TypedMember`; `Ty` is its field `Type`. -/
structure TypedMember where
  Name : Bytes
  Ty : Bytes
deriving DecidableEq, Repr

/-- Go `TypedDomain`. -/
structure TypedDomain where
  Name : Bytes
  Version : Bytes
  ChainID : Int
deriving DecidableEq, Repr

/-- Go `map[string][]TypedMember`, as an association list read by first match. -/
abbrev Dict := List (Bytes × List TypedMember)

/-- Go `map[string]interface{}`, as an association list read by first match; the nil
map is the empty list. -/
abbrev Object := List (Bytes × Value)

/-- Go `types[name]`: the member list, the nil slice for a missing key. -/
def Dict.members (types : Dict) (name : Bytes) : List TypedMember :=
  (types.lookup name).getD []

/-- Go `_, ok := types[name]`. -/
def Dict.has (types : Dict) (name : Bytes) : Bool := (types.lookup name).isSome

/-- Go `types[name] = members` on a map object. -/
def Dict.set (types : Dict) (name : Bytes) (members : List TypedMember) : Dict :=
  (name, members) :: types.filter fun entry => entry.1 != name

/-- Go `data[name]` on a `map[string]interface{}`: nil for a missing key. -/
def Object.get (data : Object) (name : Bytes) : Value :=
  (data.lookup name).getD Value.null

/-- Go `TypedData`.  `Types` is `none` for the nil map. -/
structure TypedData where
  Domain : TypedDomain
  Types : Option Dict
  PrimaryType : Bytes
  Message : Object

/-- Go `TypedDomain.ToMap`. -/
def TypedDomain.ToMap (d : TypedDomain) : Object :=
  [(ascii "name", Value.str d.Name),
   (ascii "version", Value.str d.Version),
   (ascii "chainId", Value.int d.ChainID)]

/-- Go `Crypto` of the keystore record, the nested `cipherparams` and `kdfparams`
flattened into `IV`, `N`, `R`, `P`, `Salt`. -/
structure CryptoParams where
  Cipher : Bytes
  CipherText : Bytes
  IV : Bytes
  Kdf : Bytes
  N : Int
  R : Int
  P : Int
  Salt : Bytes
deriving DecidableEq, Repr

/-- Go `Keystore`. -/
structure Keystore where
  Address : Bytes
  Crypto : CryptoParams
deriving DecidableEq, Repr

/-- The library primitives the package calls. -/
structure Env where
  /-- `sha256.Sum256`. -/
  sha256 : Bytes → Bytes
  /-- `json.Marshal` of a message value, its error dropped. -/
  jsonMarshal : Value → Bytes
  /-- `%v` of a map or of a slice. -/
  sprintComposite : Value → Bytes
  /-- The order in which `range` walks a set of map keys. -/
  mapRange : List Bytes → List Bytes
  /-- A `range` loop meets every key exactly once. -/
  mapRange_perm : ∀ keys, (mapRange keys).Perm keys
  /-- `base64.StdEncoding.EncodeToString`. -/
  b64enc : Bytes → Bytes
  /-- `base64.StdEncoding.DecodeString`, its error dropped. -/
  b64dec : Bytes → Bytes
  /-- `base58.Encode`. -/
  base58 : Bytes → Bytes
  /-- Public key of `ed25519.NewKeyFromSeed seed`. -/
  ed25519Public : Bytes → Bytes
  /-- `ed25519.Sign` under the key of a seed. -/
  ed25519Sign : Bytes → Bytes → Bytes
  /-- `ed25519.Verify publicKey message sig`. -/
  ed25519Verify : Bytes → Bytes → Bytes → Bool
  /-- `scrypt.Key password salt N r p 32`, `none` on a parameter error. -/
  scrypt : Bytes → Bytes → Int → Int → Int → Option Bytes
  /-- AES-GCM `Seal` under key, nonce, plaintext. -/
  gcmSeal : Bytes → Bytes → Bytes → Bytes
  /-- AES-GCM `Open` under key, nonce, ciphertext; `none` when authentication fails. -/
  gcmOpen : Bytes → Bytes → Bytes → Option Bytes
  /-- `json.MarshalIndent` of a keystore record. -/
  marshalKeystore : Keystore → Bytes
  /-- `json.Unmarshal` into a keystore record, with its error message. -/
  unmarshalKeystore : Bytes → Except Bytes Keystore

/-- Go `%v` of a message value. -/
def sprintV (E : Env) : Value → Bytes
  | .null => ascii "<nil>"
  | .str s => s
  | .int i => formatInt i
  | .float f => formatFloat f
  | .bool b => if b then ascii "true" else ascii "false"
  | v => E.sprintComposite v

/-! ## Type graph and canonical type string -/

/-- The recursion of `findDependencies`, `found` being the visited set; `fuel` bounds
the nesting depth. -/
def findDependenciesAux (types : Dict) : Nat → Bytes → List Bytes → List Bytes
  | 0, _, found => found
  | fuel + 1, primaryType, found =>
    if primaryType ∈ found then found
    else if types.has primaryType then
      (types.members primaryType).foldl
        (fun found member =>
          findDependenciesAux types fuel (trimSuffix member.Ty (ascii "[]")) found)
        (primaryType :: found)
    else found

/-- Go `findDependencies`.  Every nested call that does work adds a new key of `types`
to `found`, so the nesting depth never exceeds the number of entries plus one. -/
def findDependencies (primaryType : Bytes) (types : Dict) (found : List Bytes) : List Bytes :=
  findDependenciesAux types (types.length + 1) primaryType found

/-- Go `formatMainType`. -/
def formatMainType (name : Bytes) (types : Dict) : Bytes :=
  name ++ ascii "(" ++
    (ascii ",").intercalate
      ((types.members name).map fun member => member.Ty ++ ascii " " ++ member.Name) ++
    ascii ")"

/-- Go `sort.Strings`: ascending byte-wise lexicographic order. -/
def sortStrings (l : List Bytes) : List Bytes :=
  l.insertionSort fun a b => a ≤ b

/-- Go `encodeType`. -/
def encodeType (E : Env) (primaryType : Bytes) (types : Dict) : Bytes :=
  let unsortedDeps := findDependencies primaryType types []
  let deps := (E.mapRange unsortedDeps).filter fun dep => dep != primaryType
  let deps := sortStrings deps
  deps.foldl (fun sb dep => sb ++ formatMainType dep types) (formatMainType primaryType types)

/-! ## Value and struct hashing -/

deriving instance DecidableEq for Except

/-- Outcome of a call returning `([]byte, error)`: `none` when the call does not return
within the fuel, `error msg` for a non-nil error (the byte slice is then nil). -/
abbrev Res := Option (Except Bytes Bytes)

/-- The loop `for … { encoded, err := …; if err != nil { return nil, err }; buf.Write(encoded) }`
over the outcomes of the successive encodings, starting from buffer `buf`. -/
def writeAll : List Res → Bytes → Res
  | [], buf => some (.ok buf)
  | none :: _, _ => none
  | some (.error e) :: _, _ => some (.error e)
  | some (.ok encoded) :: rest, buf => writeAll rest (buf ++ encoded)

/-- Go `s, _ := value.(string)`. -/
def Value.asString : Value → Bytes
  | .str s => s
  | _ => []

/-- Go `mapVal, _ := value.(map[string]interface{})`. -/
def Value.asMap : Value → Object
  | .map kvs => kvs
  | _ => []

/-- The bytes that the `switch typeName` of `encodeValue` hashes. -/
def primitiveData (E : Env) (typeName : Bytes) (value : Value) : Bytes :=
  if typeName = ascii "string" then value.asString
  else if typeName = ascii "address" then value.asString
  else if typeName = ascii "uint256" ∨ typeName = ascii "int" ∨ typeName = ascii "chainId" then
    sprintV E value
  else E.jsonMarshal value

/-- Body of Go `hashStruct`, `enc` being its calls to `encodeValue`. -/
def hashStructWith (E : Env) (enc : Bytes → Value → Dict → Res)
    (typeName : Bytes) (data : Object) (types : Dict) : Res :=
  let typeString := encodeType E typeName types
  let typeHash := E.sha256 typeString
  let members := types.members typeName
  match writeAll (members.map fun member => enc member.Ty (data.get member.Name) types)
      typeHash with
  | none => none
  | some (.error err) => some (.error err)
  | some (.ok buf) => some (.ok (E.sha256 buf))

/-- Go `encodeValue`; `fuel` bounds the nesting depth of its calls. -/
def encodeValue (E : Env) : Nat → Bytes → Value → Dict → Res
  | 0, _, _, _ => none
  | fuel + 1, typeName, value, types =>
    if hasSuffix typeName (ascii "[]") then
      let baseType := typeName.take (typeName.length - 2)
      match value with
      | .slice xs =>
        match writeAll (xs.map fun x => encodeValue E fuel baseType x types) [] with
        | none => none
        | some (.error err) => some (.error err)
        | some (.ok buf) => some (.ok (E.sha256 buf))
      | _ => some (.error (ascii "expected slice for type " ++ typeName))
    else if types.has typeName then
      hashStructWith E (encodeValue E fuel) typeName value.asMap types
    else
      some (.ok (E.sha256 (primitiveData E typeName value)))

/-- Go `hashStruct`. -/
def hashStruct (E : Env) (fuel : Nat) (typeName : Bytes) (data : Object) (types : Dict) : Res :=
  hashStructWith E (encodeValue E fuel) typeName data types

/-! ## Digest, signing and verification -/

/-- The declaration that `HashTypedData` stores under `"TypedDomain"`. -/
def typedDomainMembers : List TypedMember :=
  [⟨ascii "name", ascii "string"⟩, ⟨ascii "version", ascii "string"⟩,
   ⟨ascii "chainId", ascii "uint256"⟩]

/-- The dictionary `HashTypedData` works on after its first statements: a fresh map for
a nil `Types`, else the map of the caller, with the `"TypedDomain"` entry stored. -/
def workingTypes (types : Option Dict) : Dict :=
  (types.getD []).set (ascii "TypedDomain") typedDomainMembers

/-- A nil byte slice for a call whose error was dropped with `_`. -/
def Except.bytes : Except Bytes Bytes → Bytes
  | .ok b => b
  | .error _ => []

/-- The constant `TypedPrefix` of `HashTypedData`. -/
def TypedPrefix : Bytes := 25 :: ascii "Octra Typed Data:"

/-- The `signingBody` of `HashTypedData`: format `"%s\n%d\n%s"`. -/
def signingBody (payloadBinary : Bytes) : Bytes :=
  TypedPrefix ++ [10] ++ formatNat payloadBinary.length ++ [10] ++ payloadBinary

/-- What a call of `HashTypedData` yields: the two return values and the contents of the
map object the caller passed as `Types` once the call is over (`none` for a nil map). -/
structure HashOutcome where
  digest : Bytes
  err : Option Bytes
  callerTypes : Option Dict
deriving DecidableEq

/-- Go `HashTypedData`. -/
def HashTypedData (E : Env) (fuel : Nat) (data : TypedData) : Option HashOutcome :=
  let types := workingTypes data.Types
  match hashStruct E fuel (ascii "TypedDomain") data.Domain.ToMap types with
  | none => none
  | some domainRes =>
    match hashStruct E fuel data.PrimaryType data.Message types with
    | none => none
    | some messageRes =>
      let payloadBinary := Except.bytes domainRes ++ Except.bytes messageRes
      some { digest := E.sha256 (signingBody payloadBinary)
             err := none
             callerTypes := data.Types.map fun _ => types }

/-- Go `SignTypedData`; `ed25519.NewKeyFromSeed` panics unless the seed has 32 bytes. -/
def SignTypedData (E : Env) (fuel : Nat) (data : TypedData) (privateKeyB64 : Bytes) :
    Option (Bytes × Option Bytes) :=
  match HashTypedData E fuel data with
  | none => none
  | some h =>
    match h.err with
    | some err => some ([], some err)
    | none =>
      let seed := E.b64dec privateKeyB64
      if seed.length = 32 then
        some (E.b64enc (E.ed25519Sign seed h.digest), none)
      else none

/-- Go `VerifyTypedData`; `ed25519.Verify` panics unless the public key has 32 bytes. -/
def VerifyTypedData (E : Env) (fuel : Nat) (data : TypedData) (signatureB64 publicKeyB64 : Bytes) :
    Option (Bool × Option Bytes) :=
  match HashTypedData E fuel data with
  | none => none
  | some h =>
    match h.err with
    | some err => some (false, some err)
    | none =>
      let sig := E.b64dec signatureB64
      let pk := E.b64dec publicKeyB64
      if pk.length = 32 then some (E.ed25519Verify pk h.digest sig, none) else none

/-- Go `PublicKeyToAddress`. -/
def PublicKeyToAddress (E : Env) (publicKey : Bytes) : Bytes :=
  ascii "oct" ++ E.base58 (E.sha256 publicKey)

/-- Go `GetSignerAddress`. -/
def GetSignerAddress (E : Env) (fuel : Nat) (data : TypedData) (signatureB64 publicKeyB64 : Bytes) :
    Option (Bytes × Option Bytes) :=
  match VerifyTypedData E fuel data signatureB64 publicKeyB64 with
  | none => none
  | some (_, some err) => some ([], some err)
  | some (false, none) => some ([], some (ascii "invalid signature"))
  | some (true, none) => some (PublicKeyToAddress E (E.b64dec publicKeyB64), none)

/-! ## Keystore -/

/-- Go `aes.NewCipher` followed by `cipher.NewGCM`: the cipher exists for a key of 16, 24
or 32 bytes; for any other key (and for the nil key of a failed `scrypt.Key`) the block
is nil and `NewGCM` panics. -/
def newGCM (derivedKey : Option Bytes) : Option Bytes :=
  match derivedKey with
  | none => none
  | some key => if key.length = 16 ∨ key.length = 24 ∨ key.length = 32 then some key else none

/-- Go `EncryptKey`; `salt` and `iv` are the contents of the 32-byte and 12-byte buffers
after the two reads from `rand.Reader`. -/
def EncryptKey (E : Env) (privateKeyB64 password salt iv : Bytes) :
    Option (Bytes × Option Bytes) :=
  let seed := E.b64dec privateKeyB64
  if seed.length = 32 then
    let address := PublicKeyToAddress E (E.ed25519Public seed)
    match newGCM (E.scrypt password salt 32768 8 1) with
    | none => none
    | some gcm =>
      let cipherText := E.gcmSeal gcm iv seed
      let ks : Keystore :=
        { Address := address
          Crypto :=
            { Cipher := ascii "aes-256-gcm"
              CipherText := E.b64enc cipherText
              IV := E.b64enc iv
              Kdf := ascii "scrypt"
              N := 32768
              R := 8
              P := 1
              Salt := E.b64enc salt } }
      some (E.marshalKeystore ks, none)
  else none

/-- Go `DecryptKey`; `gcm.Open` panics unless the nonce has 12 bytes. -/
def DecryptKey (E : Env) (keystoreJSON password : Bytes) : Option (Bytes × Option Bytes) :=
  match E.unmarshalKeystore keystoreJSON with
  | .error err => some ([], some err)
  | .ok ks =>
    let salt := E.b64dec ks.Crypto.Salt
    let iv := E.b64dec ks.Crypto.IV
    let rawCipher := E.b64dec ks.Crypto.CipherText
    match newGCM (E.scrypt password salt ks.Crypto.N ks.Crypto.R ks.Crypto.P) with
    | none => none
    | some gcm =>
      if iv.length = 12 then
        match E.gcmOpen gcm iv rawCipher with
        | none => some ([], some (ascii "invalid password"))
        | some seed => some (E.b64enc seed, none)
      else none

/-! ## Sample records and a sample environment -/

/-- A self-delimiting, injective stand-in for the hash: every byte is framed by a `1`
and the output ends with `0`. -/
def frameHash : Bytes → Bytes
  | [] => [0]
  | b :: bs => 1 :: b :: frameHash bs

/-- Flattening of a keystore record into a tuple of plain data. -/
def Keystore.toTuple (ks : Keystore) :
    Bytes × Bytes × Bytes × Bytes × Bytes × Int × Int × Int × Bytes :=
  (ks.Address, ks.Crypto.Cipher, ks.Crypto.CipherText, ks.Crypto.IV, ks.Crypto.Kdf,
    ks.Crypto.N, ks.Crypto.R, ks.Crypto.P, ks.Crypto.Salt)

/-- Inverse of `Keystore.toTuple`. -/
def Keystore.ofTuple (t : Bytes × Bytes × Bytes × Bytes × Bytes × Int × Int × Int × Bytes) :
    Keystore :=
  { Address := t.1
    Crypto :=
      { Cipher := t.2.1, CipherText := t.2.2.1, IV := t.2.2.2.1, Kdf := t.2.2.2.2.1,
        N := t.2.2.2.2.2.1, R := t.2.2.2.2.2.2.1, P := t.2.2.2.2.2.2.2.1,
        Salt := t.2.2.2.2.2.2.2.2 } }

/-- An environment with simple stand-ins for the primitives, on which the assumptions
made about the primitives hold: the hash is injective and self-delimiting, verification
accepts exactly the signatures made under the matching seed, opening inverts sealing,
and the encodings round-trip. -/
def sampleEnv : Env where
  sha256 := frameHash
  jsonMarshal := fun _ => ascii "null"
  sprintComposite := fun _ => ascii "[]"
  mapRange := List.reverse
  mapRange_perm := List.reverse_perm
  b64enc := id
  b64dec := id
  base58 := id
  ed25519Public := id
  ed25519Sign := fun seed message => seed ++ message
  ed25519Verify := fun publicKey message sig => sig == publicKey ++ message
  scrypt := fun password salt _ _ _ => some ((password ++ salt ++ List.replicate 32 0).take 32)
  gcmSeal := fun key nonce plaintext => key ++ nonce ++ plaintext
  gcmOpen := fun key nonce ciphertext =>
    if (key ++ nonce).isPrefixOf ciphertext then some (ciphertext.drop (key ++ nonce).length)
    else none
  marshalKeystore := fun ks => [Encodable.encode ks.toTuple]
  unmarshalKeystore := fun b =>
    match b with
    | [n] =>
      match (Encodable.decode n :
          Option (Bytes × Bytes × Bytes × Bytes × Bytes × Int × Int × Int × Bytes)) with
      | some t => .ok (Keystore.ofTuple t)
      | none => .error (ascii "invalid character")
    | _ => .error (ascii "unexpected end of JSON input")

/-- The dictionary of `TestOSM15_ArrayAndRecursiveDebug`. -/
def walletTypes : Dict :=
  [(ascii "Wallet", [⟨ascii "owner", ascii "address"⟩, ⟨ascii "assets", ascii "Asset[]"⟩]),
   (ascii "Asset", [⟨ascii "name", ascii "string"⟩, ⟨ascii "amount", ascii "uint256"⟩])]

/-- The message of `TestOSM15_ArrayAndRecursiveDebug`, with the amount of the first asset
left as a parameter. -/
def walletMessage (amount : Int) : Object :=
  [(ascii "owner", Value.str (ascii "oct123")),
   (ascii "assets", Value.slice
      [Value.map [(ascii "name", Value.str (ascii "OCT")), (ascii "amount", Value.int amount)],
       Value.map [(ascii "name", Value.str (ascii "GOLD")), (ascii "amount", Value.int 50)]])]

/-- The record of `TestOSM15_ArrayAndRecursiveDebug`. -/
def walletData (amount : Int) : TypedData :=
  { Domain := ⟨ascii "OctraVault", ascii "1", 1⟩
    Types := some walletTypes
    PrimaryType := ascii "Wallet"
    Message := walletMessage amount }

/-- The record of `TestOSM15_DomainIsolation` under the domain name `name`. -/
def mailData (name : Bytes) : TypedData :=
  { Domain := ⟨name, ascii "1", 1⟩
    Types := some [(ascii "Mail", [⟨ascii "content", ascii "string"⟩])]
    PrimaryType := ascii "Mail"
    Message := [(ascii "content", Value.str (ascii "Octra is awesome"))] }

/-- A record whose primary type refers to itself, with an empty message. -/
def nodeData : TypedData :=
  { Domain := ⟨ascii "OctraVault", ascii "1", 1⟩
    Types := some [(ascii "Node", [⟨ascii "next", ascii "Node"⟩])]
    PrimaryType := ascii "Node"
    Message := [] }

/-! ## Notions used in the statements and further sample records -/

/-- The seed of `TestOSM15_KeystoreFlow`, the bytes that its base64 string decodes to. -/
def testSeed : Bytes :=
  [57, 2, 82, 219, 94, 86, 203, 45, 15, 108, 202, 112, 212, 205, 225, 58, 46, 203, 185, 192,
   158, 36, 178, 58, 1, 127, 9, 199, 143, 56, 155, 23]

/-- A record whose only member is declared as an array and holds a string. -/
def mismatchData : TypedData :=
  { Domain := ⟨ascii "OctraVault", ascii "1", 1⟩
    Types := some [(ascii "Batch", [⟨ascii "items", ascii "string[]"⟩])]
    PrimaryType := ascii "Batch"
    Message := [(ascii "items", Value.str (ascii "oops"))] }

/-- The dictionary that declares the record type `A` with one string member. -/
def recordADict : Dict := [(ascii "A", [⟨ascii "name", ascii "string"⟩])]

/-- A record whose primary type the dictionary does not declare. -/
def ghostData : TypedData :=
  { Domain := ⟨ascii "OctraVault", ascii "1", 1⟩
    Types := some []
    PrimaryType := ascii "Ghost"
    Message := [(ascii "amount", Value.int 1)] }

/-- A record with a member whose type is neither a known primitive nor declared. -/
def flagData : TypedData :=
  { Domain := ⟨ascii "OctraVault", ascii "1", 1⟩
    Types := some [(ascii "Msg", [⟨ascii "flag", ascii "bool"⟩])]
    PrimaryType := ascii "Msg"
    Message := [(ascii "flag", Value.bool true)] }

/-- The assumption "SHA-256 is collision-free": the hash is injective, and its outputs
are self-delimiting, that is, an output followed by further bytes never coincides with
a different output followed by further bytes.  Every function whose outputs all have the
same length (32 bytes for SHA-256) has the second property. -/
structure CollisionFree (H : Bytes → Bytes) : Prop where
  inj : Function.Injective H
  sep : ∀ a b s t, H a ++ s = H b ++ t → H a = H b

/-- The mail record of the test under the domain name `name`, the dictionary declaring,
next to `Mail`, a record type under the name `shadow`. -/
def shadowData (shadow : Bytes) (members : List TypedMember) (name : Bytes) : TypedData :=
  { Domain := ⟨name, ascii "1", 1⟩
    Types := some [(ascii "Mail", [⟨ascii "content", ascii "string"⟩]), (shadow, members)]
    PrimaryType := ascii "Mail"
    Message := [(ascii "content", Value.str (ascii "Octra is awesome"))] }

/-- One step from a message value to one of its parts: the value under a key of a
mapping, or an element of a sequence. -/
inductive Step where
  | field (name : Bytes)
  | index (i : Nat)

/-- Go `data[name] = value` on a `map[string]interface{}`. -/
def Object.set (data : Object) (name : Bytes) (value : Value) : Object :=
  (name, value) :: data.filter fun entry => entry.1 != name

/-- The part of a value that a path leads to; an absent key of a mapping holds nil. -/
def Value.follow : Value → List Step → Option Value
  | v, [] => some v
  | .map kvs, .field name :: rest => (Object.get kvs name).follow rest
  | .slice xs, .index i :: rest =>
    match xs[i]? with
    | some x => x.follow rest
    | none => none
  | _, _ :: _ => none

/-- The value with the part at the end of a path replaced by `new`. -/
def Value.replace : Value → Value → List Step → Value
  | _, new, [] => new
  | .map kvs, new, .field name :: rest =>
    .map (Object.set kvs name (Value.replace (Object.get kvs name) new rest))
  | .slice xs, new, .index i :: rest =>
    .slice (xs.set i (Value.replace (xs.getD i Value.null) new rest))
  | v, _, _ :: _ => v

/-- The declared type that `encodeValue` applies at the end of a path, starting from
the declared type `typeName`: a key step goes to the first member of that name of a
record type, an index step to the base type of an array type. -/
def typeAt (types : Dict) : Bytes → List Step → Option Bytes
  | typeName, [] => some typeName
  | typeName, .field name :: rest =>
    if hasSuffix typeName (ascii "[]") then none
    else
      match (types.members typeName).find? fun member => member.Name == name with
      | some member => typeAt types member.Ty rest
      | none => none
  | typeName, .index _ :: rest =>
    if hasSuffix typeName (ascii "[]") then
      typeAt types (typeName.take (typeName.length - 2)) rest
    else none

/-- The call returned a hash and a nil error. -/
def Res.isOk : Res → Bool
  | some (.ok _) => true
  | _ => false

/-- The path from the value under `assets` to the amount of the first asset. -/
def amountPath : List Step := [Step.index 0, Step.field (ascii "amount")]

/-- The wallet record of the test with the amount of the first asset replaced. -/
def walletTampered (new : Value) : TypedData :=
  { walletData 1000 with
    Message := (walletMessage 1000).set (ascii "assets")
      (((walletMessage 1000).get (ascii "assets")).replace new amountPath) }

/-- The constant `TypedPrefix` of `GetSigningText`, which ends with the newline. -/
def signingTextPrefix : Bytes := 25 :: ascii "Octra Typed Data:\n"

/-- The text of `GetSigningText`: format `"%s%d\n%s"`. -/
def signingText (payloadBinary : Bytes) : Bytes :=
  signingTextPrefix ++ formatNat payloadBinary.length ++ [10] ++ payloadBinary

/-- Go `GetSigningText`.  The dictionary is used as the caller passed it; reading a nil
map finds no key. -/
def GetSigningText (E : Env) (fuel : Nat) (data : TypedData) : Option (Bytes × Option Bytes) :=
  let types := data.Types.getD []
  match hashStruct E fuel (ascii "TypedDomain") data.Domain.ToMap types with
  | none => none
  | some domainRes =>
    match hashStruct E fuel data.PrimaryType data.Message types with
    | none => none
    | some messageRes =>
      some (signingText (Except.bytes domainRes ++ Except.bytes messageRes), none)

/-- A keystore record as `EncryptKey` makes it under the sample environment for the
seed of the test, the password "octra-secure-123", the zero salt and the zero nonce. -/
def sampleKeystore : Keystore :=
  { Address := PublicKeyToAddress sampleEnv testSeed
    Crypto :=
      { Cipher := ascii "aes-256-gcm"
        CipherText :=
          (ascii "octra-secure-123" ++ List.replicate 16 0) ++ List.replicate 12 0 ++ testSeed
        IV := List.replicate 12 0
        Kdf := ascii "scrypt"
        N := 32768
        R := 8
        P := 1
        Salt := List.replicate 32 0 } }

/-- A dictionary with two record types of the same member list, named `A` and
`A(C[] x)A`, both reached from their member through the record type `C`. -/
def twinDict : Dict :=
  [(ascii "A", [⟨ascii "x", ascii "C[]"⟩]),
   (ascii "A(C[] x)A", [⟨ascii "x", ascii "C[]"⟩]),
   (ascii "C", [⟨ascii "y", ascii "A[]"⟩, ⟨ascii "z", ascii "A(C[] x)A[]"⟩])]

/-- The dictionary that declares the record type `Batch` with one array member. -/
def batchDict : Dict := [(ascii "Batch", [⟨ascii "items", ascii "string[]"⟩])]

/-- The type names that the members of a type refer to, the array suffix stripped. -/
def Dict.successors (types : Dict) (name : Bytes) : List Bytes :=
  (types.members name).map fun member => trimSuffix member.Ty (ascii "[]")

/-- Reachability in the words of the specification: the names reached from
`primaryType` by following members whose array-suffix-stripped type name is a key of
the dictionary, `primaryType` itself included; only keys are reached. -/
inductive Reachable (types : Dict) (primaryType : Bytes) : Bytes → Prop
  | start : types.has primaryType = true → Reachable types primaryType primaryType
  | step {name : Bytes} (member : TypedMember) :
      Reachable types primaryType name → member ∈ types.members name →
      types.has (trimSuffix member.Ty (ascii "[]")) = true →
      Reachable types primaryType (trimSuffix member.Ty (ascii "[]"))

/-- The recursion of `findDependencies` with the bound on the nesting depth made
visible: `none` when the bound is reached before the call is over. -/
def findDependenciesRun (types : Dict) : Nat → Bytes → List Bytes → Option (List Bytes)
  | 0, _, _ => none
  | fuel + 1, primaryType, found =>
    if primaryType ∈ found then some found
    else if types.has primaryType then
      (types.members primaryType).foldl
        (fun found member =>
          found.bind fun found =>
            findDependenciesRun types fuel (trimSuffix member.Ty (ascii "[]")) found)
        (some (primaryType :: found))
    else some found

/-- The number of keys of the dictionary that are not yet in the visited set. -/
def unvisited (types : Dict) (found : List Bytes) : Nat :=
  ((types.map Prod.fst).dedup.filter fun key => decide (key ∉ found)).length

/-- What a traversal from the names `roots` with visited set `found` has done when it
returns `result`: nothing visited is lost, every root that is a key is in the result,
and every name added is a key, has all its successor keys in the result, and is
reached from a root; no name is added twice. -/
structure Explored (types : Dict) (found roots result : List Bytes) : Prop where
  subset : ∀ x ∈ found, x ∈ result
  roots_mem : ∀ w ∈ roots, types.has w = true → w ∈ result
  fresh_key : ∀ u ∈ result, u ∉ found → types.has u = true
  fresh_closed : ∀ u ∈ result, u ∉ found →
    ∀ w ∈ types.successors u, types.has w = true → w ∈ result
  fresh_reach : ∀ u ∈ result, u ∉ found → ∃ w ∈ roots, Reachable types w u
  nodup : found.Nodup → result.Nodup

/-- The members of a record type in the words of the specification: each written as
its type, a blank and its name, in declared order, separated by commas, with no
separator after the last. -/
def renderMembers : List TypedMember → Bytes
  | [] => []
  | [member] => member.Ty ++ ascii " " ++ member.Name
  | member :: rest => member.Ty ++ ascii " " ++ member.Name ++ ascii "," ++ renderMembers rest

/-- The rendering of a record type in the words of the specification: the name, "(",
the members, ")". -/
def renderType (name : Bytes) (members : List TypedMember) : Bytes :=
  name ++ ascii "(" ++ renderMembers members ++ ascii ")"

/-! ## JSON export and import -/

/-- Go `float64(i)` as `encoding/json` reads the decimal text of an integer, for
integers of magnitude up to `2 ^ 53`, where the conversion is exact: the digits without
the trailing zeros, the decimal point after the last digit of the integer.  Above
`2 ^ 53` Go rounds to the nearest `float64` (9007199254740993 is read as
9007199254740992); that rounding is not modelled, the definition keeps the digits of
the integer there. -/
def Float64.ofInt (i : Int) : Float64 :=
  let digitsRev := (decimalRev (i.natAbs + 1) i.natAbs).map fun c => c - 48
  { neg := decide (i < 0)
    digits := (digitsRev.dropWhile fun d => d == 0).reverse
    dp := if i = 0 then 0 else digitsRev.length }

mutual
/-- The value that `json.Unmarshal` stores in an `interface{}` for the text that
`json.Marshal` writes for a value: a number comes back as a `float64`, a mapping as a
`map[string]interface{}`, a sequence as a `[]interface{}`.  Strings are taken to be
valid UTF-8 and integers to be of magnitude up to `2 ^ 53`: `json.Marshal` writes
U+FFFD for a byte that is not valid UTF-8 and large integers are rounded on reading,
neither of which is modelled (see `Float64.ofInt`). -/
def Value.viaJSON : Value → Value
  | .null => .null
  | .str s => .str s
  | .int i => .float (Float64.ofInt i)
  | .float f => .float f
  | .bool b => .bool b
  | .map kvs => .map (viaJSONFields kvs)
  | .slice xs => .slice (viaJSONItems xs)
/-- Applies `Value.viaJSON` to the values of a mapping. -/
def viaJSONFields : List (Bytes × Value) → List (Bytes × Value)
  | [] => []
  | (k, v) :: rest => (k, v.viaJSON) :: viaJSONFields rest
/-- Applies `Value.viaJSON` to the elements of a sequence. -/
def viaJSONItems : List Value → List Value
  | [] => []
  | v :: rest => v.viaJSON :: viaJSONItems rest
end

/-- The record that `json.Unmarshal` decodes from the text that `json.Marshal` writes
for a record: the typed fields come back as they were, the message as by
`Value.viaJSON`. -/
def TypedData.viaJSON (data : TypedData) : TypedData :=
  { data with Message := viaJSONFields data.Message }

/-- Go `SignedPayload`. -/
structure SignedPayload where
  Data : TypedData
  Signature : Bytes

/-- The two calls of `encoding/json` made by `ExportToJSON` and `VerifyFromJSON`. -/
structure JSONCodec where
  /-- `json.MarshalIndent(payload, "", "  ")`. -/
  marshalIndent : SignedPayload → Except Bytes Bytes
  /-- `json.Unmarshal(payloadJSON, &payload)` into a zero `SignedPayload`. -/
  unmarshal : Bytes → Except Bytes SignedPayload

/-- Go `ExportToJSON`. -/
def ExportToJSON (J : JSONCodec) (data : TypedData) (signature : Bytes) : Except Bytes Bytes :=
  J.marshalIndent { Data := data, Signature := signature }

/-- Go `VerifyFromJSON`. -/
def VerifyFromJSON (E : Env) (J : JSONCodec) (fuel : Nat) (payloadJSON publicKeyB64 : Bytes) :
    Option (Bool × Option Bytes) :=
  match J.unmarshal payloadJSON with
  | .error err => some (false, some err)
  | .ok payload => VerifyTypedData E fuel payload.Data payload.Signature publicKeyB64

/-- A transfer record with an integer amount of one million. -/
def millionData : TypedData :=
  { Domain := ⟨ascii "OctraNetwork", ascii "1", 1⟩
    Types := some [(ascii "Transfer", [⟨ascii "amount", ascii "uint256"⟩])]
    PrimaryType := ascii "Transfer"
    Message := [(ascii "amount", Value.int 1000000)] }

/-- The record of `TestOSM15_JSONFlowAndSigner`. -/
def helloData : TypedData :=
  { Domain := ⟨ascii "OctraNetwork", ascii "1", 1⟩
    Types := some [(ascii "Msg", [⟨ascii "text", ascii "string"⟩])]
    PrimaryType := ascii "Msg"
    Message := [(ascii "text", Value.str (ascii "Hello Octra"))] }

/-! ### A sample codec

A codec with the decoding behaviour of `encoding/json` over a tagged text: every part
is written with a tag or a length in front, integers and floats are written as the
same kind of number, and a number is read back as a `float64`. -/

/-- Reads `n` tokens. -/
def readN : Nat → List Nat → Option (Bytes × List Nat)
  | 0, tokens => some ([], tokens)
  | _ + 1, [] => none
  | n + 1, t :: tokens => (readN n tokens).map fun r => (t :: r.1, r.2)

/-- A string, its length in front. -/
def writeBytes (s : Bytes) : List Nat := s.length :: s

/-- Reads a string written by `writeBytes`. -/
def readBytes : List Nat → Option (Bytes × List Nat)
  | [] => none
  | n :: tokens => readN n tokens

/-- An integer: its sign and its magnitude. -/
def writeInt (i : Int) : List Nat := [if i < 0 then 1 else 0, i.natAbs]

/-- Reads an integer written by `writeInt`. -/
def readInt : List Nat → Option (Int × List Nat)
  | s :: n :: tokens => some (if s = 1 then -(n : Int) else (n : Int), tokens)
  | _ => none

/-- A number: its sign, the position of the decimal point, its digits. -/
def writeNumber (f : Float64) : List Nat :=
  (if f.neg then 1 else 0) :: (writeInt f.dp ++ writeBytes f.digits)

/-- Reads a number written by `writeNumber`. -/
def readNumber : List Nat → Option (Float64 × List Nat)
  | [] => none
  | s :: tokens =>
    (readInt tokens).bind fun dp =>
      (readBytes dp.2).map fun ds => ({ neg := s == 1, digits := ds.1, dp := dp.1 }, ds.2)

mutual
/-- A message value in the tagged text. -/
def Value.write : Value → List Nat
  | .null => [0]
  | .str s => 1 :: writeBytes s
  | .int i => 2 :: writeNumber (Float64.ofInt i)
  | .float f => 2 :: writeNumber f
  | .bool b => [3, if b then 1 else 0]
  | .map kvs => 4 :: writeFields kvs
  | .slice xs => 5 :: writeItems xs
/-- The entries of a mapping, each announced by `1`, the end by `0`. -/
def writeFields : List (Bytes × Value) → List Nat
  | [] => [0]
  | (k, v) :: rest => 1 :: (writeBytes k ++ (v.write ++ writeFields rest))
/-- The elements of a sequence, each announced by `1`, the end by `0`. -/
def writeItems : List Value → List Nat
  | [] => [0]
  | v :: rest => 1 :: (v.write ++ writeItems rest)
end

mutual
/-- Reads a value written by `Value.write`; `fuel` bounds the nesting. -/
def readValue : Nat → List Nat → Option (Value × List Nat)
  | 0, _ => none
  | _ + 1, [] => none
  | fuel + 1, tag :: tokens =>
    if tag = 0 then some (.null, tokens)
    else if tag = 1 then (readBytes tokens).map fun r => (.str r.1, r.2)
    else if tag = 2 then (readNumber tokens).map fun r => (.float r.1, r.2)
    else if tag = 3 then
      match tokens with
      | b :: tokens => some (.bool (b == 1), tokens)
      | [] => none
    else if tag = 4 then (readFields fuel tokens).map fun r => (.map r.1, r.2)
    else if tag = 5 then (readItems fuel tokens).map fun r => (.slice r.1, r.2)
    else none
/-- Reads the entries written by `writeFields`. -/
def readFields : Nat → List Nat → Option (List (Bytes × Value) × List Nat)
  | 0, _ => none
  | _ + 1, [] => none
  | fuel + 1, tag :: tokens =>
    if tag = 0 then some ([], tokens)
    else
      (readBytes tokens).bind fun k =>
        (readValue fuel k.2).bind fun v =>
          (readFields fuel v.2).map fun r => ((k.1, v.1) :: r.1, r.2)
/-- Reads the elements written by `writeItems`. -/
def readItems : Nat → List Nat → Option (List Value × List Nat)
  | 0, _ => none
  | _ + 1, [] => none
  | fuel + 1, tag :: tokens =>
    if tag = 0 then some ([], tokens)
    else
      (readValue fuel tokens).bind fun v =>
        (readItems fuel v.2).map fun r => (v.1 :: r.1, r.2)
end

/-- The members of a record type, each announced by `1`, the end by `0`. -/
def writeMembers : List TypedMember → List Nat
  | [] => [0]
  | member :: rest => 1 :: (writeBytes member.Name ++ (writeBytes member.Ty ++ writeMembers rest))

/-- Reads the members written by `writeMembers`. -/
def readMembers : Nat → List Nat → Option (List TypedMember × List Nat)
  | 0, _ => none
  | _ + 1, [] => none
  | fuel + 1, tag :: tokens =>
    if tag = 0 then some ([], tokens)
    else
      (readBytes tokens).bind fun name =>
        (readBytes name.2).bind fun ty =>
          (readMembers fuel ty.2).map fun r => (⟨name.1, ty.1⟩ :: r.1, r.2)

/-- The entries of a dictionary, each announced by `1`, the end by `0`. -/
def writeDict : Dict → List Nat
  | [] => [0]
  | (name, members) :: rest => 1 :: (writeBytes name ++ (writeMembers members ++ writeDict rest))

/-- Reads the entries written by `writeDict`. -/
def readDict : Nat → List Nat → Option (Dict × List Nat)
  | 0, _ => none
  | _ + 1, [] => none
  | fuel + 1, tag :: tokens =>
    if tag = 0 then some ([], tokens)
    else
      (readBytes tokens).bind fun name =>
        (readMembers fuel name.2).bind fun members =>
          (readDict fuel members.2).map fun r => ((name.1, members.1) :: r.1, r.2)

/-- A record in the tagged text: the domain, the dictionary (`0` for the nil map), the
primary type, the message. -/
def TypedData.write (data : TypedData) : List Nat :=
  writeBytes data.Domain.Name ++ (writeBytes data.Domain.Version ++
    (writeInt data.Domain.ChainID ++
      ((match data.Types with
        | none => [0]
        | some types => 1 :: writeDict types) ++
        (writeBytes data.PrimaryType ++ writeFields data.Message))))

/-- Reads the dictionary of a record. -/
def readTypes (fuel : Nat) : List Nat → Option (Option Dict × List Nat)
  | [] => none
  | tag :: tokens =>
    if tag = 0 then some (none, tokens)
    else (readDict fuel tokens).map fun r => (some r.1, r.2)

/-- Reads a record written by `TypedData.write`. -/
def readTypedData (fuel : Nat) (tokens : List Nat) : Option (TypedData × List Nat) :=
  (readBytes tokens).bind fun name =>
    (readBytes name.2).bind fun version =>
      (readInt version.2).bind fun chainId =>
        (readTypes fuel chainId.2).bind fun types =>
          (readBytes types.2).bind fun primaryType =>
            (readFields fuel primaryType.2).map fun message =>
              ({ Domain := ⟨name.1, version.1, chainId.1⟩
                 Types := types.1
                 PrimaryType := primaryType.1
                 Message := message.1 }, message.2)

/-- The sample codec: the signature, then the record; decoding rejects a text that
does not end where the record ends. -/
def sampleJSON : JSONCodec where
  marshalIndent := fun payload => .ok (writeBytes payload.Signature ++ payload.Data.write)
  unmarshal := fun payloadJSON =>
    match readBytes payloadJSON with
    | none => .error (ascii "unexpected end of JSON input")
    | some (signature, tokens) =>
      match readTypedData tokens.length tokens with
      | some (data, []) => .ok { Data := data, Signature := signature }
      | _ => .error (ascii "invalid character")

/-- The record `millionData` as `SignTypedData` leaves it with the caller: the same
map of types, now holding the `"TypedDomain"` entry. -/
def millionSigned : TypedData :=
  { millionData with Types := some (workingTypes millionData.Types) }

/-- The record `helloData` as `SignTypedData` leaves it with the caller. -/
def helloSigned : TypedData :=
  { helloData with Types := some (workingTypes helloData.Types) }

/-! ## Further notions for the message keys and the signing text -/

/-- The message of the mail record with a key that the type `Mail` does not declare. -/
def mailMessageWithMemo : Object :=
  [(ascii "content", Value.str (ascii "Octra is awesome")),
   (ascii "memo", Value.str (ascii "refund to oct999"))]

/-- The local `signingBody` of `HashTypedData`: the text whose hash is the digest. -/
def hashedBody (E : Env) (fuel : Nat) (data : TypedData) : Option Bytes :=
  let types := workingTypes data.Types
  match hashStruct E fuel (ascii "TypedDomain") data.Domain.ToMap types with
  | none => none
  | some domainRes =>
    match hashStruct E fuel data.PrimaryType data.Message types with
    | none => none
    | some messageRes =>
      some (signingBody (Except.bytes domainRes ++ Except.bytes messageRes))

/-- A record whose dictionary declares `TypedDomain` with a single member of type
`string`, and `string` as a record type with an array member. -/
def otherDomainData : TypedData :=
  { Domain := ⟨ascii "OctraVault", ascii "1", 1⟩
    Types := some [(ascii "TypedDomain", [⟨ascii "label", ascii "string"⟩]),
                   (ascii "string", [⟨ascii "items", ascii "bytes[]"⟩])]
    PrimaryType := ascii "Msg"
    Message := [] }

/-! ## Dictionaries -/

theorem lookup_filter_ne (types : Dict) (name k : Bytes) (h : k ≠ name) :
    (types.filter fun entry => entry.1 != name).lookup k = types.lookup k := by
  induction types with
  | nil => rfl
  | cons e rest ih =>
    obtain ⟨a, b⟩ := e
    by_cases ha : a = name
    · subst ha
      have hk : (k == a) = false := by simpa using h
      simp [List.filter_cons, List.lookup_cons, hk, ih]
    · have ha2 : (a != name) = true := by simpa using ha
      simp only [List.filter_cons, ha2, if_true, List.lookup_cons, ih]

theorem Dict.lookup_set (types : Dict) (name k : Bytes) (ms : List TypedMember) :
    (types.set name ms).lookup k = if k = name then some ms else types.lookup k := by
  unfold Dict.set
  by_cases h : k = name
  · subst h; simp [List.lookup_cons]
  · have hk : (k == name) = false := by simpa using h
    simp [List.lookup_cons, hk, h, lookup_filter_ne types name k h]

theorem Dict.has_set (types : Dict) (name k : Bytes) (ms : List TypedMember) :
    (types.set name ms).has k = if k = name then true else types.has k := by
  unfold Dict.has
  rw [Dict.lookup_set]
  split <;> simp

theorem Dict.members_set (types : Dict) (name k : Bytes) (ms : List TypedMember) :
    (types.set name ms).members k = if k = name then ms else types.members k := by
  unfold Dict.members
  rw [Dict.lookup_set]
  split <;> simp

/-! ## Shape of the outcome of `HashTypedData` -/

theorem HashTypedData_eq_some (E : Env) (fuel : Nat) (data : TypedData) (h : HashOutcome) :
    HashTypedData E fuel data = some h ↔
      ∃ domainRes messageRes,
        hashStruct E fuel (ascii "TypedDomain") data.Domain.ToMap (workingTypes data.Types)
          = some domainRes ∧
        hashStruct E fuel data.PrimaryType data.Message (workingTypes data.Types)
          = some messageRes ∧
        h = { digest := E.sha256 (signingBody (Except.bytes domainRes ++ Except.bytes messageRes))
              err := none
              callerTypes := data.Types.map fun _ => workingTypes data.Types } := by
  unfold HashTypedData
  dsimp only
  cases hashStruct E fuel (ascii "TypedDomain") data.Domain.ToMap (workingTypes data.Types) with
  | none => simp
  | some domainRes =>
    cases hashStruct E fuel data.PrimaryType data.Message (workingTypes data.Types) with
    | none => simp
    | some messageRes =>
      simp only [Option.some.injEq, exists_and_left, exists_eq_left']
      constructor
      · intro hh; exact hh.symm
      · intro hh; exact hh.symm

theorem HashTypedData_eq_none (E : Env) (fuel : Nat) (data : TypedData) :
    HashTypedData E fuel data = none ↔
      hashStruct E fuel (ascii "TypedDomain") data.Domain.ToMap (workingTypes data.Types) = none ∨
      hashStruct E fuel data.PrimaryType data.Message (workingTypes data.Types) = none := by
  unfold HashTypedData
  dsimp only
  cases hashStruct E fuel (ascii "TypedDomain") data.Domain.ToMap (workingTypes data.Types) with
  | none => simp
  | some domainRes =>
    cases hashStruct E fuel data.PrimaryType data.Message (workingTypes data.Types) with
    | none => simp
    | some messageRes => simp

theorem HashTypedData_err (E : Env) (fuel : Nat) (data : TypedData) (h : HashOutcome)
    (hret : HashTypedData E fuel data = some h) : h.err = none := by
  obtain ⟨_, _, _, _, rfl⟩ := (HashTypedData_eq_some E fuel data h).1 hret
  rfl

/-! ## Signer address -/

/-- C9: `GetSignerAddress` fails closed.  When `VerifyTypedData` returns `false`, it
returns the empty address and the error "invalid signature"; when `VerifyTypedData`
returns `true`, it returns the address of the decoded public key and no error; a
non-empty address is returned only for a signature that verifies. -/
theorem GetSignerAddress_fails_closed (E : Env) (fuel : Nat) (data : TypedData)
    (signatureB64 publicKeyB64 : Bytes) :
    (∀ err, VerifyTypedData E fuel data signatureB64 publicKeyB64 = some (false, err) →
      GetSignerAddress E fuel data signatureB64 publicKeyB64
        = some ([], some (ascii "invalid signature"))) ∧
    (∀ err, VerifyTypedData E fuel data signatureB64 publicKeyB64 = some (true, err) →
      GetSignerAddress E fuel data signatureB64 publicKeyB64
        = some (PublicKeyToAddress E (E.b64dec publicKeyB64), none)) ∧
    (∀ address err, GetSignerAddress E fuel data signatureB64 publicKeyB64 = some (address, err) →
      address ≠ [] →
      err = none ∧ VerifyTypedData E fuel data signatureB64 publicKeyB64 = some (true, none)) := by
  have hnoerr : ∀ valid err,
      VerifyTypedData E fuel data signatureB64 publicKeyB64 = some (valid, err) → err = none := by
    intro valid err hv
    unfold VerifyTypedData at hv
    cases hh : HashTypedData E fuel data with
    | none => rw [hh] at hv; cases hv
    | some h =>
      rw [hh] at hv
      have herr := HashTypedData_err E fuel data h hh
      simp only [herr] at hv
      split at hv
      · cases hv; rfl
      · cases hv
  refine ⟨?_, ?_, ?_⟩
  · intro err hv
    have := hnoerr _ _ hv
    subst this
    simp [GetSignerAddress, hv]
  · intro err hv
    have := hnoerr _ _ hv
    subst this
    simp [GetSignerAddress, hv]
  · intro address err hg hne
    unfold GetSignerAddress at hg
    cases hv : VerifyTypedData E fuel data signatureB64 publicKeyB64 with
    | none => rw [hv] at hg; cases hg
    | some r =>
      obtain ⟨valid, verr⟩ := r
      have := hnoerr _ _ hv
      subst this
      rw [hv] at hg
      cases valid with
      | false => simp at hg; exact absurd hg.1 hne
      | true => simp at hg; exact ⟨hg.2.symm, rfl⟩

/-! ## Keystore -/

/-- C10: keystore round trip.  For a 32-byte seed given as its base64 string, any
password, any salt and any 12-byte nonce, `EncryptKey` returns a record and no error
and `DecryptKey` of that record under the same password returns the same base64
string and no error, assuming that base64 decoding inverts encoding, that the JSON
decoding of a keystore record inverts its encoding, that AES-GCM `Open` inverts
`Seal` under the same key and nonce, and that scrypt under the parameters
`(32768, 8, 1)` yields a 32-byte key. -/
theorem keystore_round_trip (E : Env) (seed password salt iv : Bytes)
    (hseed : seed.length = 32) (hiv : iv.length = 12)
    (hb64 : ∀ b, E.b64dec (E.b64enc b) = b)
    (hjson : ∀ ks, E.unmarshalKeystore (E.marshalKeystore ks) = .ok ks)
    (hgcm : ∀ key nonce plaintext,
      E.gcmOpen key nonce (E.gcmSeal key nonce plaintext) = some plaintext)
    (hscrypt : ∀ pw s, ∃ key, E.scrypt pw s 32768 8 1 = some key ∧ key.length = 32) :
    ∃ keystoreJSON,
      EncryptKey E (E.b64enc seed) password salt iv = some (keystoreJSON, none) ∧
      DecryptKey E keystoreJSON password = some (E.b64enc seed, none) := by
  obtain ⟨key, hkey, hlen⟩ := hscrypt password salt
  have hnew : newGCM (E.scrypt password salt 32768 8 1) = some key := by
    simp [newGCM, hkey, hlen]
  refine ⟨E.marshalKeystore
    { Address := PublicKeyToAddress E (E.ed25519Public seed)
      Crypto :=
        { Cipher := ascii "aes-256-gcm"
          CipherText := E.b64enc (E.gcmSeal key iv seed)
          IV := E.b64enc iv
          Kdf := ascii "scrypt"
          N := 32768
          R := 8
          P := 1
          Salt := E.b64enc salt } }, ?_, ?_⟩
  · simp only [EncryptKey, hb64, hseed, if_true, hnew]
  · simp only [DecryptKey, hjson, hb64, hnew, hiv, if_true, hgcm]

theorem sampleEnv_json (ks : Keystore) :
    sampleEnv.unmarshalKeystore (sampleEnv.marshalKeystore ks) = .ok ks := by
  simp only [sampleEnv, Encodable.encodek]
  rfl

theorem sampleEnv_gcm (key nonce plaintext : Bytes) :
    sampleEnv.gcmOpen key nonce (sampleEnv.gcmSeal key nonce plaintext) = some plaintext := by
  show (if (key ++ nonce).isPrefixOf (key ++ nonce ++ plaintext) = true then
      some ((key ++ nonce ++ plaintext).drop (key ++ nonce).length) else none) = some plaintext
  have hp : (key ++ nonce).isPrefixOf (key ++ nonce ++ plaintext) = true :=
    List.isPrefixOf_iff_prefix.2 (List.prefix_append _ _)
  rw [if_pos hp, List.drop_left]

theorem sampleEnv_scrypt (pw s : Bytes) :
    ∃ key, sampleEnv.scrypt pw s 32768 8 1 = some key ∧ key.length = 32 := by
  refine ⟨_, rfl, ?_⟩
  simp only [List.length_take, List.length_append, List.length_replicate]
  omega

/-- Witness of C10 on the key and password of `TestOSM15_KeystoreFlow`, for the zero
salt and the zero nonce. -/
theorem keystore_round_trip_witness :
    testSeed.length = 32 ∧
    ∃ keystoreJSON,
      EncryptKey sampleEnv (sampleEnv.b64enc testSeed) (ascii "octra-secure-123")
        (List.replicate 32 0) (List.replicate 12 0) = some (keystoreJSON, none) ∧
      DecryptKey sampleEnv keystoreJSON (ascii "octra-secure-123")
        = some (sampleEnv.b64enc testSeed, none) :=
  ⟨by decide,
   keystore_round_trip sampleEnv testSeed (ascii "octra-secure-123")
    (List.replicate 32 0) (List.replicate 12 0) (by decide) (by decide) (fun _ => rfl)
    sampleEnv_json sampleEnv_gcm sampleEnv_scrypt⟩

/-- Witness of C9: under the sample environment the empty signature over the mail
record does not verify, and `GetSignerAddress` answers "invalid signature". -/
theorem GetSignerAddress_fails_closed_witness :
    VerifyTypedData sampleEnv 2 (mailData (ascii "AppA")) [] testSeed = some (false, none) ∧
    GetSignerAddress sampleEnv 2 (mailData (ascii "AppA")) [] testSeed
      = some ([], some (ascii "invalid signature")) :=
  ⟨by decide,
   (GetSignerAddress_fails_closed sampleEnv 2 (mailData (ascii "AppA")) [] testSeed).1 none
    (by decide)⟩

/-! ## Unfolding `encodeValue` and `hashStruct` -/

theorem encodeValue_array_of_nonslice (E : Env) (fuel : Nat) (typeName : Bytes) (value : Value)
    (types : Dict) (hsuffix : hasSuffix typeName (ascii "[]") = true)
    (hvalue : ∀ xs, value ≠ Value.slice xs) :
    encodeValue E (fuel + 1) typeName value types
      = some (.error (ascii "expected slice for type " ++ typeName)) := by
  unfold encodeValue
  rw [if_pos hsuffix]
  cases value with
  | slice xs => exact absurd rfl (hvalue xs)
  | _ => rfl

theorem encodeValue_array_of_slice (E : Env) (fuel : Nat) (typeName : Bytes) (xs : List Value)
    (types : Dict) (hsuffix : hasSuffix typeName (ascii "[]") = true) :
    encodeValue E (fuel + 1) typeName (Value.slice xs) types
      = match writeAll
          (xs.map fun x => encodeValue E fuel (typeName.take (typeName.length - 2)) x types)
          [] with
        | none => none
        | some (.error err) => some (.error err)
        | some (.ok buf) => some (.ok (E.sha256 buf)) := by
  conv_lhs => unfold encodeValue
  rw [if_pos hsuffix]

theorem encodeValue_struct (E : Env) (fuel : Nat) (typeName : Bytes) (value : Value)
    (types : Dict) (hsuffix : hasSuffix typeName (ascii "[]") = false)
    (hkey : types.has typeName = true) :
    encodeValue E (fuel + 1) typeName value types
      = hashStruct E fuel typeName value.asMap types := by
  conv_lhs => unfold encodeValue
  simp only [hsuffix, hkey, if_true, Bool.false_eq_true, if_false]
  rfl

theorem encodeValue_primitive (E : Env) (fuel : Nat) (typeName : Bytes) (value : Value)
    (types : Dict) (hsuffix : hasSuffix typeName (ascii "[]") = false)
    (hkey : types.has typeName = false) :
    encodeValue E (fuel + 1) typeName value types
      = some (.ok (E.sha256 (primitiveData E typeName value))) := by
  conv_lhs => unfold encodeValue
  simp only [hsuffix, hkey, Bool.false_eq_true, if_false]

theorem hashStruct_eq (E : Env) (fuel : Nat) (typeName : Bytes) (data : Object) (types : Dict) :
    hashStruct E fuel typeName data types
      = match writeAll
          ((types.members typeName).map fun member =>
            encodeValue E fuel member.Ty (data.get member.Name) types)
          (E.sha256 (encodeType E typeName types)) with
        | none => none
        | some (.error err) => some (.error err)
        | some (.ok buf) => some (.ok (E.sha256 buf)) := rfl

/-! ## The write loop -/

theorem writeAll_eq_ok (l : List Res) (buf r : Bytes) :
    writeAll l buf = some (.ok r) ↔
      ∃ hs : List Bytes, l = hs.map (fun h => some (.ok h)) ∧ r = buf ++ hs.flatten := by
  induction l generalizing buf with
  | nil =>
    simp only [writeAll, Option.some.injEq, Except.ok.injEq]
    constructor
    · intro h; exact ⟨[], rfl, by simp [h]⟩
    · rintro ⟨hs, h1, h2⟩
      cases hs with
      | nil => simp [h2]
      | cons a t => simp at h1
  | cons x rest ih =>
    match x with
    | none =>
      simp only [writeAll]
      constructor
      · intro h; cases h
      · rintro ⟨hs, h1, _⟩
        cases hs <;> simp at h1
    | some (.error e) =>
      simp only [writeAll]
      constructor
      · intro h; cases h
      · rintro ⟨hs, h1, _⟩
        cases hs <;> simp at h1
    | some (.ok b) =>
      simp only [writeAll, ih]
      constructor
      · rintro ⟨hs, h1, h2⟩
        exact ⟨b :: hs, by simp [h1], by simp [h2, List.append_assoc]⟩
      · rintro ⟨hs, h1, h2⟩
        cases hs with
        | nil => simp at h1
        | cons a t =>
          simp only [List.map_cons, List.cons.injEq, Option.some.injEq, Except.ok.injEq] at h1
          obtain ⟨rfl, rfl⟩ := h1
          exact ⟨t, rfl, by simp [h2, List.append_assoc]⟩

/-! ## A type that refers to itself -/

theorem encodeValue_node_none (E : Env) :
    ∀ fuel, encodeValue E fuel (ascii "Node") Value.null (workingTypes nodeData.Types) = none
  | 0 => rfl
  | fuel + 1 => by
    rw [encodeValue_struct E fuel _ _ _ (by decide) (by decide), hashStruct_eq]
    have hm : (workingTypes nodeData.Types).members (ascii "Node")
        = [⟨ascii "next", ascii "Node"⟩] := by decide
    rw [hm]
    have hv : Object.get (Value.asMap Value.null) (ascii "next") = Value.null := rfl
    simp only [List.map_cons, List.map_nil, hv, encodeValue_node_none E fuel, writeAll]

theorem hashStruct_node_none (E : Env) (fuel : Nat) :
    hashStruct E fuel (ascii "Node") [] (workingTypes nodeData.Types) = none := by
  rw [hashStruct_eq]
  have hm : (workingTypes nodeData.Types).members (ascii "Node")
      = [⟨ascii "next", ascii "Node"⟩] := by decide
  rw [hm]
  have hv : Object.get [] (ascii "next") = Value.null := rfl
  simp only [List.map_cons, List.map_nil, hv, encodeValue_node_none E fuel, writeAll]

/-! ## Hashing the domain -/

theorem workingTypes_has (types : Option Dict) (k : Bytes) (hk : k ≠ ascii "TypedDomain") :
    (workingTypes types).has k = (types.getD []).has k := by
  unfold workingTypes
  rw [Dict.has_set, if_neg hk]

theorem workingTypes_members_domain (types : Option Dict) :
    (workingTypes types).members (ascii "TypedDomain") = typedDomainMembers := by
  unfold workingTypes
  rw [Dict.members_set, if_pos rfl]

theorem workingTypes_idem (types : Option Dict) :
    workingTypes (some (workingTypes types)) = workingTypes types := by
  unfold workingTypes Dict.set
  simp [List.filter_cons, List.filter_filter]

/-- The domain hash when neither `string` nor `uint256` is a key of the dictionary. -/
theorem hashStruct_domain (E : Env) (fuel : Nat) (domain : TypedDomain) (types : Dict)
    (hm : types.members (ascii "TypedDomain") = typedDomainMembers)
    (hs : types.has (ascii "string") = false) (hu : types.has (ascii "uint256") = false) :
    hashStruct E (fuel + 1) (ascii "TypedDomain") domain.ToMap types
      = some (.ok (E.sha256 (E.sha256 (encodeType E (ascii "TypedDomain") types)
          ++ E.sha256 domain.Name ++ E.sha256 domain.Version
          ++ E.sha256 (formatInt domain.ChainID)))) := by
  rw [hashStruct_eq, hm]
  have h1 : Object.get domain.ToMap (ascii "name") = Value.str domain.Name := by
    simp [Object.get, TypedDomain.ToMap, List.lookup_cons]
  have h2 : Object.get domain.ToMap (ascii "version") = Value.str domain.Version := by
    have : (ascii "version" == ascii "name") = false := by decide
    simp [Object.get, TypedDomain.ToMap, List.lookup_cons, this]
  have h3 : Object.get domain.ToMap (ascii "chainId") = Value.int domain.ChainID := by
    have : (ascii "chainId" == ascii "name") = false := by decide
    have : (ascii "chainId" == ascii "version") = false := by decide
    simp [Object.get, TypedDomain.ToMap, List.lookup_cons, *]
  have p1 : ∀ v, primitiveData E (ascii "string") (Value.str v) = v := by
    intro v; simp [primitiveData, Value.asString]
  have p3 : primitiveData E (ascii "uint256") (Value.int domain.ChainID)
      = formatInt domain.ChainID := by
    have a : ascii "uint256" ≠ ascii "string" := by decide
    have b : ascii "uint256" ≠ ascii "address" := by decide
    simp [primitiveData, a, b, sprintV]
  simp only [typedDomainMembers, List.map_cons, List.map_nil, h1, h2, h3,
    encodeValue_primitive E fuel (ascii "string") _ types (by decide) hs,
    encodeValue_primitive E fuel (ascii "uint256") _ types (by decide) hu, writeAll, p1, p3,
    List.append_assoc]

/-! ## Failure handling -/

/-- C4, at the failing input `mismatchData`: hashing the message fails inside
`encodeValue` with "expected slice for type string[]", yet `HashTypedData` returns a
digest with a nil error (the digest of the signing body over the domain hash alone), and
`SignTypedData` returns a signature with a nil error. -/
theorem HashTypedData_drops_encoding_error (E : Env) (fuel : Nat) :
    hashStruct E (fuel + 1) mismatchData.PrimaryType mismatchData.Message
        (workingTypes mismatchData.Types)
      = some (.error (ascii "expected slice for type string[]")) ∧
    (∃ domainHash,
      hashStruct E (fuel + 1) (ascii "TypedDomain") mismatchData.Domain.ToMap
        (workingTypes mismatchData.Types) = some (.ok domainHash) ∧
      HashTypedData E (fuel + 1) mismatchData
        = some { digest := E.sha256 (signingBody (domainHash ++ []))
                 err := none
                 callerTypes := some (workingTypes mismatchData.Types) }) ∧
    (∃ sig, SignTypedData sampleEnv (fuel + 1) mismatchData testSeed = some (sig, none)) := by
  have hmsg : ∀ E : Env, hashStruct E (fuel + 1) mismatchData.PrimaryType mismatchData.Message
        (workingTypes mismatchData.Types)
      = some (.error (ascii "expected slice for type string[]")) := by
    intro E
    rw [hashStruct_eq]
    have hm : (workingTypes mismatchData.Types).members mismatchData.PrimaryType
        = [⟨ascii "items", ascii "string[]"⟩] := by decide
    have hv : Object.get mismatchData.Message (ascii "items") = Value.str (ascii "oops") := rfl
    rw [hm]
    simp only [List.map_cons, List.map_nil, hv]
    rw [encodeValue_array_of_nonslice E fuel _ _ _ (by decide) (by intro xs h; cases h)]
    rfl
  have hdom := fun (E : Env) => hashStruct_domain E fuel mismatchData.Domain
    (workingTypes mismatchData.Types) (workingTypes_members_domain _) (by decide) (by decide)
  have hhash : ∀ E : Env, ∃ domainHash,
      hashStruct E (fuel + 1) (ascii "TypedDomain") mismatchData.Domain.ToMap
        (workingTypes mismatchData.Types) = some (.ok domainHash) ∧
      HashTypedData E (fuel + 1) mismatchData
        = some { digest := E.sha256 (signingBody (domainHash ++ []))
                 err := none
                 callerTypes := some (workingTypes mismatchData.Types) } := by
    intro E
    refine ⟨_, hdom E, ?_⟩
    rw [HashTypedData_eq_some]
    exact ⟨_, _, hdom E, hmsg E, rfl⟩
  refine ⟨hmsg E, hhash E, ?_⟩
  obtain ⟨domainHash, -, hh⟩ := hhash sampleEnv
  have hseed : (sampleEnv.b64dec testSeed).length = 32 := by decide
  refine ⟨sampleEnv.b64enc (sampleEnv.ed25519Sign (sampleEnv.b64dec testSeed)
    (sampleEnv.sha256 (signingBody (domainHash ++ [])))), ?_⟩
  unfold SignTypedData
  rw [hh]
  simp only [hseed, if_true]

/-- C5, counterexample: under the dictionary that declares the record type `A` with one
string member, `encodeValue` of type `A` on the string "hello" (not a mapping) returns
what hashing the empty mapping returns, a hash and no error, and no fuel makes it
return an error. -/
theorem encodeValue_record_of_string_no_error :
    encodeValue sampleEnv 2 (ascii "A") (Value.str (ascii "hello")) recordADict
      = hashStruct sampleEnv 1 (ascii "A") [] recordADict ∧
    (∃ h, encodeValue sampleEnv 2 (ascii "A") (Value.str (ascii "hello")) recordADict
      = some (.ok h)) ∧
    ¬ ∃ fuel err, encodeValue sampleEnv fuel (ascii "A") (Value.str (ascii "hello")) recordADict
      = some (.error err) := by
  refine ⟨rfl, ⟨_, rfl⟩, ?_⟩
  rintro ⟨fuel, err, h⟩
  cases fuel with
  | zero => cases h
  | succ fuel =>
    rw [encodeValue_struct _ _ _ _ _ (by decide) (by decide), hashStruct_eq] at h
    have hm : Dict.members recordADict (ascii "A") = [⟨ascii "name", ascii "string"⟩] := by
      decide
    rw [hm] at h
    cases fuel with
    | zero => cases h
    | succ fuel =>
      simp only [List.map_cons, List.map_nil,
        encodeValue_primitive sampleEnv fuel (ascii "string") _ recordADict (by decide)
          (by decide), writeAll] at h
      cases h

/-- C5, amended: for every dictionary, `encodeValue` returns the error
"expected slice for type T" whenever the declared type `T` ends in "[]" and the value
is not a sequence. -/
theorem encodeValue_rejects_non_sequence (E : Env) (fuel : Nat) (typeName : Bytes)
    (value : Value) (types : Dict) (hsuffix : hasSuffix typeName (ascii "[]") = true)
    (hvalue : ∀ xs, value ≠ Value.slice xs) :
    encodeValue E (fuel + 1) typeName value types
      = some (.error (ascii "expected slice for type " ++ typeName)) :=
  encodeValue_array_of_nonslice E fuel typeName value types hsuffix hvalue

/-- Witness of C5 amended: type `string[]` on the string "oops". -/
theorem encodeValue_rejects_non_sequence_witness :
    hasSuffix (ascii "string[]") (ascii "[]") = true ∧
    encodeValue sampleEnv 1 (ascii "string[]") (Value.str (ascii "oops")) []
      = some (.error (ascii "expected slice for type " ++ ascii "string[]")) :=
  ⟨by decide,
   encodeValue_rejects_non_sequence sampleEnv 0 (ascii "string[]") (Value.str (ascii "oops")) []
    (by decide) (by intro xs h; cases h)⟩

/-! ## Records on which hashing never returns -/

/-- C8, at the failing input `nodeData` (a type that refers to itself, the member
absent from the message): whatever the primitives and whatever the fuel,
`HashTypedData` does not return, so no digest is produced for this record. -/
theorem HashTypedData_never_returns_on_nodeData (E : Env) (fuel : Nat) :
    HashTypedData E fuel nodeData = none := by
  rw [HashTypedData_eq_none]
  exact Or.inr (hashStruct_node_none E fuel)

/-- C1, at the failing input `nodeData`: neither `SignTypedData` nor
`VerifyTypedData` returns on this record, whatever the key, the signature and the
fuel, so the round trip does not yield `(true, nil)`. -/
theorem sign_verify_never_return_on_nodeData (E : Env) (fuel : Nat)
    (privateKeyB64 signatureB64 publicKeyB64 : Bytes) :
    SignTypedData E fuel nodeData privateKeyB64 = none ∧
    VerifyTypedData E fuel nodeData signatureB64 publicKeyB64 = none := by
  have h : HashTypedData E fuel nodeData = none := by
    rw [HashTypedData_eq_none]
    exact Or.inr (hashStruct_node_none E fuel)
  simp [SignTypedData, VerifyTypedData, h]

/-- Round trip on every record on which `HashTypedData` returns: the signature made
under a 32-byte seed verifies under the public key of that seed, also when the record
is passed again with the dictionary as the first call left it. -/
theorem sign_verify_of_hash_returns (E : Env) (fuel : Nat) (data : TypedData) (seed : Bytes)
    (h : HashOutcome) (hret : HashTypedData E fuel data = some h) (hseed : seed.length = 32)
    (hb64 : ∀ b, E.b64dec (E.b64enc b) = b)
    (hed : ∀ s message, s.length = 32 → (E.ed25519Public s).length = 32 ∧
      E.ed25519Verify (E.ed25519Public s) message (E.ed25519Sign s message) = true) :
    ∃ sig, SignTypedData E fuel data (E.b64enc seed) = some (sig, none) ∧
      VerifyTypedData E fuel data sig (E.b64enc (E.ed25519Public seed)) = some (true, none) ∧
      VerifyTypedData E fuel { data with Types := h.callerTypes } sig
        (E.b64enc (E.ed25519Public seed)) = some (true, none) := by
  have herr := HashTypedData_err E fuel data h hret
  have hret2 : HashTypedData E fuel { data with Types := h.callerTypes } = some h := by
    obtain ⟨dr, mr, h1, h2, h3⟩ := (HashTypedData_eq_some E fuel data h).1 hret
    rw [HashTypedData_eq_some]
    have hw : workingTypes h.callerTypes = workingTypes data.Types := by
      rw [h3]
      cases hT : data.Types with
      | none => rfl
      | some m => exact workingTypes_idem (some m)
    refine ⟨dr, mr, ?_, ?_, ?_⟩
    · simpa [hw] using h1
    · simpa [hw] using h2
    · rw [h3]
      simp only [hw]
      cases hT : data.Types with
      | none => simp
      | some m => simp [workingTypes_idem (some m)]
  refine ⟨E.b64enc (E.ed25519Sign seed h.digest), ?_, ?_, ?_⟩
  · simp only [SignTypedData, hret, herr, hb64, hseed, if_true]
  · simp only [VerifyTypedData, hret, herr, hb64, (hed seed h.digest hseed).1,
      (hed seed h.digest hseed).2, if_true]
  · simp only [VerifyTypedData, hret2, herr, hb64, (hed seed h.digest hseed).1,
      (hed seed h.digest hseed).2, if_true]

/-! ## Schema gaps -/

theorem encodeType_of_not_has (E : Env) (typeName : Bytes) (types : Dict)
    (hkey : types.has typeName = false) :
    encodeType E typeName types = typeName ++ ascii "()" := by
  have hdeps : findDependencies typeName types [] = [] := by
    simp [findDependencies, findDependenciesAux, hkey]
  have hrange : E.mapRange [] = [] := List.Perm.eq_nil (E.mapRange_perm [])
  have hmem : types.members typeName = [] := by
    unfold Dict.has at hkey
    unfold Dict.members
    cases hl : types.lookup typeName with
    | none => rfl
    | some ms => rw [hl] at hkey; cases hkey
  have hfmt : formatMainType typeName types = typeName ++ ascii "()" := by
    unfold formatMainType
    rw [hmem]
    have h1 : List.intercalate (ascii ",") ([] : List Bytes) = [] := rfl
    have h2 : ascii "(" ++ ascii ")" = ascii "()" := by decide
    simp [List.append_assoc, h1, h2]
  simp [encodeType, hdeps, hrange, sortStrings, hfmt]

/-- C6, counterexample: on `ghostData`, whose primary type is not a key of the
dictionary, and on `flagData`, whose member has the unknown type `bool`,
`HashTypedData` returns a digest and a nil error; the message hash itself is computed
without error in both. -/
theorem HashTypedData_accepts_bad_schema :
    (HashTypedData sampleEnv 1 ghostData).map HashOutcome.err = some none ∧
    hashStruct sampleEnv 1 ghostData.PrimaryType ghostData.Message (workingTypes ghostData.Types)
      = some (.ok (sampleEnv.sha256 (sampleEnv.sha256 (ascii "Ghost()")))) ∧
    (HashTypedData sampleEnv 1 flagData).map HashOutcome.err = some none ∧
    hashStruct sampleEnv 1 flagData.PrimaryType flagData.Message (workingTypes flagData.Types)
      = some (.ok (sampleEnv.sha256
          (sampleEnv.sha256 (ascii "Msg(bool flag)")
            ++ sampleEnv.sha256 (sampleEnv.jsonMarshal (Value.bool true))))) := by
  decide

/-- C6, amended: no schema check is made.  A type name that is not a key of the
dictionary is hashed by `hashStruct` as a record without members, giving
`sha256(sha256(name ++ "()"))` and no error whatever the message; a member type that
is not "[]"-suffixed, not a key of the dictionary and not one of `string`, `address`,
`uint256`, `int`, `chainId` is encoded as `sha256(json.Marshal(value))` and no error. -/
theorem schema_is_not_checked (E : Env) (fuel : Nat) (types : Dict)
    (primaryType : Bytes) (data : Object) (typeName : Bytes) (value : Value)
    (hprimary : types.has primaryType = false)
    (hsuffix : hasSuffix typeName (ascii "[]") = false)
    (hkey : types.has typeName = false)
    (hunknown : typeName ∉
      [ascii "string", ascii "address", ascii "uint256", ascii "int", ascii "chainId"]) :
    hashStruct E fuel primaryType data types
      = some (.ok (E.sha256 (E.sha256 (primaryType ++ ascii "()")))) ∧
    encodeValue E (fuel + 1) typeName value types
      = some (.ok (E.sha256 (E.jsonMarshal value))) := by
  constructor
  · have hmem : types.members primaryType = [] := by
      unfold Dict.has at hprimary
      unfold Dict.members
      cases hl : types.lookup primaryType with
      | none => rfl
      | some ms => rw [hl] at hprimary; cases hprimary
    rw [hashStruct_eq, hmem, encodeType_of_not_has E primaryType types hprimary]
    rfl
  · rw [encodeValue_primitive E fuel typeName value types hsuffix hkey]
    simp only [List.mem_cons, List.mem_singleton, not_or, List.not_mem_nil, or_false] at hunknown
    obtain ⟨h1, h2, h3, h4, h5⟩ := hunknown
    simp [primitiveData, h1, h2, h3, h4, h5]

/-- Witness of C6 amended: the primary type `Ghost` and the member type `bool` under the
dictionary of `flagData`. -/
theorem schema_is_not_checked_witness :
    hashStruct sampleEnv 0 (ascii "Ghost") ghostData.Message (workingTypes flagData.Types)
      = some (.ok (sampleEnv.sha256 (sampleEnv.sha256 (ascii "Ghost" ++ ascii "()")))) ∧
    encodeValue sampleEnv 1 (ascii "bool") (Value.bool true) (workingTypes flagData.Types)
      = some (.ok (sampleEnv.sha256 (sampleEnv.jsonMarshal (Value.bool true)))) :=
  schema_is_not_checked sampleEnv 0 (workingTypes flagData.Types) (ascii "Ghost")
    ghostData.Message (ascii "bool") (Value.bool true) (by decide) (by decide) (by decide)
    (by decide)

/-! ## The dictionary of the caller -/

/-- C7, counterexample: after `HashTypedData` on the mail record of the test, the
dictionary the caller passed holds the entry `TypedDomain` next to `Mail`, while it held
`Mail` alone before the call. -/
theorem HashTypedData_mutates_caller_types :
    (mailData (ascii "AppA")).Types
      = some [(ascii "Mail", [⟨ascii "content", ascii "string"⟩])] ∧
    (HashTypedData sampleEnv 2 (mailData (ascii "AppA"))).map HashOutcome.callerTypes
      = some (some [(ascii "TypedDomain", typedDomainMembers),
                    (ascii "Mail", [⟨ascii "content", ascii "string"⟩])]) := by
  decide

/-- C7, amended: when `HashTypedData` returns on a record with a non-nil dictionary,
that dictionary afterwards maps `TypedDomain` to the members
`(name string, version string, chainId uint256)`, whatever it held under that key
before, and maps every other name to what it mapped it to before the call. -/
theorem HashTypedData_callerTypes (E : Env) (fuel : Nat) (data : TypedData) (types : Dict)
    (h : HashOutcome) (htypes : data.Types = some types)
    (hret : HashTypedData E fuel data = some h) :
    ∃ after, h.callerTypes = some after ∧
      after.lookup (ascii "TypedDomain") = some typedDomainMembers ∧
      ∀ name, name ≠ ascii "TypedDomain" → after.lookup name = types.lookup name := by
  obtain ⟨dr, mr, -, -, h3⟩ := (HashTypedData_eq_some E fuel data h).1 hret
  refine ⟨workingTypes data.Types, ?_, ?_, ?_⟩
  · rw [h3, htypes]; rfl
  · unfold workingTypes
    rw [Dict.lookup_set, if_pos rfl]
  · intro name hname
    unfold workingTypes
    rw [Dict.lookup_set, if_neg hname, htypes]
    rfl

/-- Witness of C7 amended on the mail record of the test. -/
theorem HashTypedData_callerTypes_witness :
    ∃ h after, HashTypedData sampleEnv 2 (mailData (ascii "AppA")) = some h ∧
      h.callerTypes = some after ∧
      after.lookup (ascii "TypedDomain") = some typedDomainMembers ∧
      ∀ name, name ≠ ascii "TypedDomain" →
        after.lookup name
          = List.lookup name [(ascii "Mail", [⟨ascii "content", ascii "string"⟩])] := by
  obtain ⟨h, hh⟩ := Option.isSome_iff_exists.1
    (show (HashTypedData sampleEnv 2 (mailData (ascii "AppA"))).isSome = true by decide)
  obtain ⟨after, h1, h2, h3⟩ := HashTypedData_callerTypes sampleEnv 2 (mailData (ascii "AppA"))
    [(ascii "Mail", [⟨ascii "content", ascii "string"⟩])] h rfl hh
  exact ⟨h, after, hh, h1, h2, h3⟩

/-! ## The assumption on the hash -/

theorem CollisionFree.of_fixed_length (H : Bytes → Bytes) (n : Nat)
    (hinj : Function.Injective H) (hlen : ∀ x, (H x).length = n) : CollisionFree H :=
  ⟨hinj, fun a b _ _ h => (List.append_inj h (by rw [hlen, hlen])).1⟩

theorem frameHash_sep : ∀ a b s t, frameHash a ++ s = frameHash b ++ t → a = b
  | [], [], _, _, _ => rfl
  | [], _ :: _, _, _, h => by simp [frameHash] at h
  | _ :: _, [], _, _, h => by simp [frameHash] at h
  | x :: a, y :: b, s, t, h => by
    simp only [frameHash, List.cons_append, List.cons.injEq, true_and] at h
    rw [h.1, frameHash_sep a b s t h.2]

theorem frameHash_collisionFree : CollisionFree frameHash :=
  ⟨fun a b h => frameHash_sep a b [] [] (by rw [h]),
   fun a b s t h => by rw [frameHash_sep a b s t h]⟩

theorem sampleEnv_collisionFree : CollisionFree sampleEnv.sha256 := frameHash_collisionFree

theorem CollisionFree.append_cancel {H : Bytes → Bytes} (hcf : CollisionFree H)
    (a b s t : Bytes) (h : H a ++ s = H b ++ t) : a = b ∧ s = t := by
  have h1 := hcf.sep a b s t h
  rw [h1] at h
  exact ⟨hcf.inj h1, List.append_cancel_left h⟩

/-- Concatenations of equally many hash outputs coincide only if the outputs do. -/
theorem flatten_hash_inj {H : Bytes → Bytes} (hcf : CollisionFree H) :
    ∀ hs1 hs2 : List Bytes, hs1.length = hs2.length →
      (∀ h ∈ hs1, ∃ x, h = H x) → (∀ h ∈ hs2, ∃ x, h = H x) →
      hs1.flatten = hs2.flatten → hs1 = hs2
  | [], [], _, _, _, _ => rfl
  | [], _ :: _, hl, _, _, _ => by simp at hl
  | _ :: _, [], hl, _, _, _ => by simp at hl
  | a :: r1, b :: r2, hl, h1, h2, hf => by
    obtain ⟨x, rfl⟩ := h1 a (List.mem_cons_self _ _)
    obtain ⟨y, rfl⟩ := h2 b (List.mem_cons_self _ _)
    simp only [List.flatten_cons] at hf
    obtain ⟨hxy, hrest⟩ := hcf.append_cancel x y _ _ hf
    subst hxy
    have := flatten_hash_inj hcf r1 r2 (by simpa using hl)
      (fun h hh => h1 h (List.mem_cons_of_mem _ hh))
      (fun h hh => h2 h (List.mem_cons_of_mem _ hh)) hrest
    rw [this]

/-! ## The signing body determines the payload -/

theorem decimalRev_digits : ∀ fuel n b, b ∈ decimalRev fuel n → 48 ≤ b
  | 0, _, b, h => by simp [decimalRev] at h
  | fuel + 1, n, b, h => by
    unfold decimalRev at h
    split at h
    · simp only [List.mem_singleton] at h; omega
    · simp only [List.mem_cons] at h
      rcases h with h | h
      · omega
      · exact decimalRev_digits fuel _ b h

theorem formatNat_no_newline (n : Nat) : 10 ∉ formatNat n := by
  intro h
  unfold formatNat at h
  have := decimalRev_digits (n + 1) n 10 (List.mem_reverse.1 h)
  omega

theorem split_at_newline : ∀ (a b s t : Bytes), 10 ∉ a → 10 ∉ b →
    a ++ 10 :: s = b ++ 10 :: t → a = b ∧ s = t
  | [], [], _, _, _, _, h => by simpa using h
  | [], y :: b, _, _, _, hb, h => by
    simp only [List.nil_append, List.cons_append, List.cons.injEq] at h
    exact absurd (by rw [h.1]; exact List.mem_cons_self _ _) hb
  | x :: a, [], _, _, ha, _, h => by
    simp only [List.nil_append, List.cons_append, List.cons.injEq] at h
    exact absurd (by rw [← h.1]; exact List.mem_cons_self _ _) ha
  | x :: a, y :: b, s, t, ha, hb, h => by
    simp only [List.cons_append, List.cons.injEq] at h
    obtain ⟨h1, h2⟩ := split_at_newline a b s t
      (fun hm => ha (List.mem_cons_of_mem _ hm)) (fun hm => hb (List.mem_cons_of_mem _ hm)) h.2
    exact ⟨by rw [h.1, h1], h2⟩

theorem signingBody_injective (p1 p2 : Bytes) (h : signingBody p1 = signingBody p2) :
    p1 = p2 := by
  unfold signingBody at h
  simp only [List.append_assoc] at h
  have h1 := List.append_cancel_left h
  simp only [List.singleton_append] at h1
  have h2 := List.cons.inj h1
  exact (split_at_newline _ _ _ _ (formatNat_no_newline _) (formatNat_no_newline _) h2.2).2

/-! ## Domain isolation -/

theorem hashStruct_domain_zero (E : Env) (domain : TypedDomain) (types : Dict)
    (hm : types.members (ascii "TypedDomain") = typedDomainMembers) :
    hashStruct E 0 (ascii "TypedDomain") domain.ToMap types = none := by
  rw [hashStruct_eq, hm]
  rfl

theorem HashTypedData_congr_domain (E : Env) (fuel : Nat) (dataA dataB : TypedData)
    (htypes : dataA.Types = dataB.Types) (hprimary : dataA.PrimaryType = dataB.PrimaryType)
    (hmessage : dataA.Message = dataB.Message)
    (hdomain :
      hashStruct E fuel (ascii "TypedDomain") dataA.Domain.ToMap (workingTypes dataA.Types)
        = hashStruct E fuel (ascii "TypedDomain") dataB.Domain.ToMap (workingTypes dataB.Types)) :
    HashTypedData E fuel dataA = HashTypedData E fuel dataB := by
  unfold HashTypedData
  rw [htypes] at hdomain
  simp only [htypes, hprimary, hmessage, hdomain]

set_option maxRecDepth 100000 in
/-- C2, counterexample: when the dictionary declares a record type named `string`, the
records under the domain names `AppA` and `AppB` get the same digest (the domain name
is read as a mapping and contributes nothing); the same happens when the dictionary
declares a type named `uint256` with an array member (the domain hash fails and is
dropped). -/
theorem domain_names_collide_under_shadowed_primitive :
    ascii "AppA" ≠ ascii "AppB" ∧
    (HashTypedData sampleEnv 2 (shadowData (ascii "string") [] (ascii "AppA"))).isSome = true ∧
    HashTypedData sampleEnv 2 (shadowData (ascii "string") [] (ascii "AppA"))
      = HashTypedData sampleEnv 2 (shadowData (ascii "string") [] (ascii "AppB")) ∧
    (HashTypedData sampleEnv 2
      (shadowData (ascii "uint256") [⟨ascii "limbs", ascii "uint64[]"⟩] (ascii "AppA"))).isSome
      = true ∧
    HashTypedData sampleEnv 2
      (shadowData (ascii "uint256") [⟨ascii "limbs", ascii "uint64[]"⟩] (ascii "AppA"))
      = HashTypedData sampleEnv 2
      (shadowData (ascii "uint256") [⟨ascii "limbs", ascii "uint64[]"⟩] (ascii "AppB")) := by
  refine ⟨by decide, by decide, ?_, by decide, ?_⟩
  · exact HashTypedData_congr_domain _ _ _ _ rfl rfl rfl (by decide)
  · exact HashTypedData_congr_domain _ _ _ _ rfl rfl rfl (by decide)

/-- C2, amended: assuming SHA-256 is collision-free, two records with the same
dictionary, primary type and message whose domain names differ (their versions and
chain ids equal or not), over a dictionary that declares no type named `string` or
`uint256`, never get the same digest: `HashTypedData` returns on the one exactly when it
returns on the other, and the digests it returns differ. -/
theorem domain_isolation (E : Env) (hcf : CollisionFree E.sha256) (fuel : Nat)
    (dataA dataB : TypedData)
    (htypes : dataA.Types = dataB.Types) (hprimary : dataA.PrimaryType = dataB.PrimaryType)
    (hmessage : dataA.Message = dataB.Message)
    (hname : dataA.Domain.Name ≠ dataB.Domain.Name)
    (hstring : (dataA.Types.getD []).has (ascii "string") = false)
    (huint : (dataA.Types.getD []).has (ascii "uint256") = false) :
    (HashTypedData E fuel dataA).isSome = (HashTypedData E fuel dataB).isSome ∧
    ∀ hA hB, HashTypedData E fuel dataA = some hA → HashTypedData E fuel dataB = some hB →
      hA.digest ≠ hB.digest := by
  have hs : (workingTypes dataA.Types).has (ascii "string") = false := by
    rw [workingTypes_has _ _ (by decide)]; exact hstring
  have hu : (workingTypes dataA.Types).has (ascii "uint256") = false := by
    rw [workingTypes_has _ _ (by decide)]; exact huint
  have hmsg : hashStruct E fuel dataB.PrimaryType dataB.Message (workingTypes dataB.Types)
      = hashStruct E fuel dataA.PrimaryType dataA.Message (workingTypes dataA.Types) := by
    rw [htypes, hprimary, hmessage]
  cases fuel with
  | zero =>
    have hA : HashTypedData E 0 dataA = none :=
      (HashTypedData_eq_none E 0 dataA).2
        (Or.inl (hashStruct_domain_zero E _ _ (workingTypes_members_domain _)))
    have hB : HashTypedData E 0 dataB = none :=
      (HashTypedData_eq_none E 0 dataB).2
        (Or.inl (hashStruct_domain_zero E _ _ (workingTypes_members_domain _)))
    rw [hA, hB]
    exact ⟨rfl, fun _ _ h => by cases h⟩
  | succ fuel =>
    have hdA := hashStruct_domain E fuel dataA.Domain (workingTypes dataA.Types)
      (workingTypes_members_domain _) hs hu
    have hdB := hashStruct_domain E fuel dataB.Domain (workingTypes dataB.Types)
      (workingTypes_members_domain _) (htypes ▸ hs) (htypes ▸ hu)
    constructor
    · cases hm : hashStruct E (fuel + 1) dataA.PrimaryType dataA.Message
          (workingTypes dataA.Types) with
      | none =>
        rw [(HashTypedData_eq_none E _ dataA).2 (Or.inr hm),
          (HashTypedData_eq_none E _ dataB).2 (Or.inr (hmsg.trans hm))]
      | some mr =>
        have h1 := (HashTypedData_eq_some E _ dataA _).2 ⟨_, mr, hdA, hm, rfl⟩
        have h2 := (HashTypedData_eq_some E _ dataB _).2 ⟨_, mr, hdB, hmsg.trans hm, rfl⟩
        rw [h1, h2]
        rfl
    · intro hA hB hretA hretB heq
      obtain ⟨drA, mrA, h1, h2, h3⟩ := (HashTypedData_eq_some E _ dataA hA).1 hretA
      obtain ⟨drB, mrB, h4, h5, h6⟩ := (HashTypedData_eq_some E _ dataB hB).1 hretB
      rw [hdA] at h1
      rw [hdB] at h4
      rw [hmsg, h2] at h5
      cases h1
      cases h4
      cases h5
      rw [h3, h6] at heq
      simp only [Except.bytes] at heq
      have hbody := signingBody_injective _ _ (hcf.inj heq)
      have hdom := hcf.inj (List.append_cancel_right hbody)
      rw [htypes] at hdom
      simp only [List.append_assoc] at hdom
      have hrest := List.append_cancel_left hdom
      exact hname (hcf.append_cancel _ _ _ _ hrest).1

/-- Witness of C2 amended: the mail record of `TestOSM15_DomainIsolation` under the
domain names `AppA` and `AppB`; both digests are returned and they differ. -/
theorem domain_isolation_witness :
    (HashTypedData sampleEnv 1 (mailData (ascii "AppA"))).isSome = true ∧
    ((HashTypedData sampleEnv 1 (mailData (ascii "AppA"))).isSome
      = (HashTypedData sampleEnv 1 (mailData (ascii "AppB"))).isSome ∧
    ∀ hA hB, HashTypedData sampleEnv 1 (mailData (ascii "AppA")) = some hA →
      HashTypedData sampleEnv 1 (mailData (ascii "AppB")) = some hB →
      hA.digest ≠ hB.digest) :=
  ⟨by decide,
   domain_isolation sampleEnv sampleEnv_collisionFree 1 (mailData (ascii "AppA"))
    (mailData (ascii "AppB")) rfl rfl rfl (by decide) (by decide) (by decide)⟩

/-! ## Paths into a message -/

theorem Object.get_set (data : Object) (name k : Bytes) (value : Value) :
    (data.set name value).get k = if k = name then value else data.get k := by
  unfold Object.set Object.get
  by_cases h : k = name
  · subst h; simp [List.lookup_cons]
  · have hk : (k == name) = false := by simpa using h
    have hf : ∀ l : Object, (l.filter fun entry => entry.1 != name).lookup k = l.lookup k := by
      intro l
      induction l with
      | nil => rfl
      | cons e rest ih =>
        obtain ⟨a, b⟩ := e
        by_cases ha : a = name
        · subst ha
          simp [List.filter_cons, List.lookup_cons, hk, ih]
        · have ha2 : (a != name) = true := by simpa using ha
          simp only [List.filter_cons, ha2, if_true, List.lookup_cons, ih]
    simp [List.lookup_cons, hk, h, hf]

/-! ## Successful encodings are hash outputs -/

theorem hashStruct_eq_ok (E : Env) (fuel : Nat) (typeName : Bytes) (data : Object)
    (types : Dict) (r : Bytes) :
    hashStruct E fuel typeName data types = some (.ok r) ↔
      ∃ buf, writeAll
          ((types.members typeName).map fun member =>
            encodeValue E fuel member.Ty (data.get member.Name) types)
          (E.sha256 (encodeType E typeName types)) = some (.ok buf) ∧
        r = E.sha256 buf := by
  rw [hashStruct_eq]
  generalize writeAll _ _ = w
  match w with
  | none => simp
  | some (.error e) => simp
  | some (.ok buf) =>
    simp only [Option.some.injEq, Except.ok.injEq, exists_eq_left']
    exact eq_comm

theorem encodeValue_slice_eq_ok (E : Env) (fuel : Nat) (typeName : Bytes) (xs : List Value)
    (types : Dict) (hsuffix : hasSuffix typeName (ascii "[]") = true) (r : Bytes) :
    encodeValue E (fuel + 1) typeName (Value.slice xs) types = some (.ok r) ↔
      ∃ buf, writeAll
          (xs.map fun x => encodeValue E fuel (typeName.take (typeName.length - 2)) x types)
          [] = some (.ok buf) ∧
        r = E.sha256 buf := by
  rw [encodeValue_array_of_slice E fuel typeName xs types hsuffix]
  generalize writeAll _ _ = w
  match w with
  | none => simp
  | some (.error e) => simp
  | some (.ok buf) =>
    simp only [Option.some.injEq, Except.ok.injEq, exists_eq_left']
    exact eq_comm

theorem encodeValue_ok_range (E : Env) (fuel : Nat) (typeName : Bytes) (value : Value)
    (types : Dict) (r : Bytes) (h : encodeValue E fuel typeName value types = some (.ok r)) :
    ∃ x, r = E.sha256 x := by
  cases fuel with
  | zero => cases h
  | succ fuel =>
    by_cases hsuffix : hasSuffix typeName (ascii "[]") = true
    · by_cases hv : ∃ xs, value = Value.slice xs
      · obtain ⟨xs, rfl⟩ := hv
        obtain ⟨buf, -, hr⟩ := (encodeValue_slice_eq_ok E fuel typeName xs types hsuffix r).1 h
        exact ⟨buf, hr⟩
      · rw [encodeValue_array_of_nonslice E fuel typeName value types hsuffix
          (fun xs hx => hv ⟨xs, hx⟩)] at h
        cases h
    · have hsuffix : hasSuffix typeName (ascii "[]") = false := by simpa using hsuffix
      by_cases hkey : types.has typeName = true
      · rw [encodeValue_struct E fuel typeName value types hsuffix hkey] at h
        obtain ⟨buf, -, hr⟩ := (hashStruct_eq_ok E fuel typeName _ types r).1 h
        exact ⟨buf, hr⟩
      · have hkey : types.has typeName = false := by simpa using hkey
        rw [encodeValue_primitive E fuel typeName value types hsuffix hkey] at h
        cases h
        exact ⟨_, rfl⟩

/-- Two write loops over equally many encodings, started from the same buffer, fill
the same bytes only if the encodings coincide one by one. -/
theorem writeAll_inj {H : Bytes → Bytes} (hcf : CollisionFree H) (l1 l2 : List Res)
    (buf r1 r2 : Bytes) (hlen : l1.length = l2.length)
    (hr1 : ∀ h, some (.ok h) ∈ l1 → ∃ x, h = H x)
    (hr2 : ∀ h, some (.ok h) ∈ l2 → ∃ x, h = H x)
    (h1 : writeAll l1 buf = some (.ok r1)) (h2 : writeAll l2 buf = some (.ok r2))
    (heq : r1 = r2) : l1 = l2 := by
  obtain ⟨hs1, rfl, rfl⟩ := (writeAll_eq_ok l1 buf r1).1 h1
  obtain ⟨hs2, rfl, rfl⟩ := (writeAll_eq_ok l2 buf r2).1 h2
  have hf := List.append_cancel_left heq
  have := flatten_hash_inj hcf hs1 hs2 (by simpa using hlen)
    (fun h hh => hr1 h (List.mem_map.2 ⟨h, hh, rfl⟩))
    (fun h hh => hr2 h (List.mem_map.2 ⟨h, hh, rfl⟩)) hf
  rw [this]

theorem Value.follow_nil (v : Value) : v.follow [] = some v := by
  cases v <;> rfl

theorem Value.follow_field (kvs : Object) (name : Bytes) (rest : List Step) :
    (Value.map kvs).follow (.field name :: rest) = (Object.get kvs name).follow rest := rfl

theorem Value.follow_index (xs : List Value) (i : Nat) (rest : List Step) :
    (Value.slice xs).follow (.index i :: rest)
      = match xs[i]? with
        | some x => x.follow rest
        | none => none := rfl

theorem Value.follow_field_some (v : Value) (name : Bytes) (rest : List Step) (old : Value)
    (h : v.follow (.field name :: rest) = some old) : ∃ kvs, v = Value.map kvs := by
  cases v with
  | map kvs => exact ⟨kvs, rfl⟩
  | _ => cases h

theorem Value.follow_index_some (v : Value) (i : Nat) (rest : List Step) (old : Value)
    (h : v.follow (.index i :: rest) = some old) : ∃ xs, v = Value.slice xs := by
  cases v with
  | slice xs => exact ⟨xs, rfl⟩
  | _ => cases h

theorem Value.replace_nil (new v : Value) : v.replace new [] = new := by
  cases v <;> rfl

theorem Value.replace_field (new : Value) (kvs : Object) (name : Bytes) (rest : List Step) :
    (Value.map kvs).replace new (.field name :: rest)
      = Value.map (Object.set kvs name ((Object.get kvs name).replace new rest)) := rfl

theorem Value.replace_index (new : Value) (xs : List Value) (i : Nat) (rest : List Step) :
    (Value.slice xs).replace new (.index i :: rest)
      = Value.slice (xs.set i ((xs.getD i Value.null).replace new rest)) := rfl

/-! ## Tamper sensitivity -/

/-- If storing `x` under the key `name` changes the encoding of one member of that
name, it changes the struct hash. -/
theorem hashStruct_tamper (E : Env) (hcf : CollisionFree E.sha256) (types : Dict) (fuel : Nat)
    (typeName : Bytes) (data : Object) (name : Bytes) (x : Value) (member : TypedMember)
    (hmember : (types.members typeName).find? (fun m => m.Name == name) = some member)
    (hsub : ∀ a b, encodeValue E fuel member.Ty (data.get name) types = some (.ok a) →
      encodeValue E fuel member.Ty x types = some (.ok b) → a ≠ b)
    (r1 r2 : Bytes) (h1 : hashStruct E fuel typeName data types = some (.ok r1))
    (h2 : hashStruct E fuel typeName (data.set name x) types = some (.ok r2)) : r1 ≠ r2 := by
  intro heq
  obtain ⟨buf1, hw1, rfl⟩ := (hashStruct_eq_ok E fuel typeName data types r1).1 h1
  obtain ⟨buf2, hw2, rfl⟩ := (hashStruct_eq_ok E fuel typeName _ types r2).1 h2
  have hbuf := hcf.inj heq
  have hrange : ∀ (d : Object) (h : Bytes),
      some (.ok h) ∈ (types.members typeName).map
        (fun m => encodeValue E fuel m.Ty (d.get m.Name) types) → ∃ y, h = E.sha256 y := by
    intro d h hh
    obtain ⟨m, -, hm⟩ := List.mem_map.1 hh
    exact encodeValue_ok_range E fuel _ _ types h hm
  have hlists := writeAll_inj hcf _ _ _ buf1 buf2 (by simp) (hrange data) (hrange _) hw1 hw2 hbuf
  have hmem := List.mem_of_find?_eq_some hmember
  have hname : member.Name = name := by
    have := List.find?_some hmember
    simpa using this
  have hpoint := (List.map_inj_left.1 hlists) member hmem
  simp only [hname, Object.get_set, if_true] at hpoint
  obtain ⟨hs, hl, -⟩ := (writeAll_eq_ok _ _ buf1).1 hw1
  have hin : encodeValue E fuel member.Ty (data.get name) types
      ∈ hs.map fun h => (some (.ok h) : Res) := by
    rw [← hl]
    exact List.mem_map.2 ⟨member, hmem, by rw [hname]⟩
  obtain ⟨a, -, ha⟩ := List.mem_map.1 hin
  exact hsub a a ha.symm (hpoint ▸ ha.symm) rfl

/-- Replacing a primitive part of a value changes the encoding of the value. -/
theorem encodeValue_tamper (E : Env) (hcf : CollisionFree E.sha256) (types : Dict)
    (leafType : Bytes) (old new : Value)
    (hleafsuffix : hasSuffix leafType (ascii "[]") = false)
    (hleafkey : types.has leafType = false)
    (hdiff : primitiveData E leafType old ≠ primitiveData E leafType new) :
    ∀ (path : List Step) (fuel : Nat) (typeName : Bytes) (value : Value) (r1 r2 : Bytes),
      typeAt types typeName path = some leafType → value.follow path = some old →
      encodeValue E fuel typeName value types = some (.ok r1) →
      encodeValue E fuel typeName (value.replace new path) types = some (.ok r2) → r1 ≠ r2
  | [], fuel, typeName, value, r1, r2, ht, hv, h1, h2 => by
    simp only [typeAt, Option.some.injEq] at ht
    rw [Value.follow_nil] at hv
    cases hv
    subst ht
    cases fuel with
    | zero => cases h1
    | succ fuel =>
      rw [Value.replace_nil] at h2
      rw [encodeValue_primitive E fuel _ _ types hleafsuffix hleafkey] at h1
      rw [encodeValue_primitive E fuel _ _ types hleafsuffix hleafkey] at h2
      cases h1
      cases h2
      exact fun h => hdiff (hcf.inj h)
  | .field name :: rest, fuel, typeName, value, r1, r2, ht, hv, h1, h2 => by
    simp only [typeAt] at ht
    split at ht
    · cases ht
    · rename_i hsuffix
      have hsuffix : hasSuffix typeName (ascii "[]") = false := by simpa using hsuffix
      split at ht
      · rename_i member hmember
        obtain ⟨kvs, rfl⟩ := Value.follow_field_some _ _ _ _ hv
        · rw [Value.follow_field] at hv
          rw [Value.replace_field] at h2
          cases fuel with
          | zero => cases h1
          | succ fuel =>
            have hkey : types.has typeName = true := by
              unfold Dict.has
              unfold Dict.members at hmember
              cases hl : types.lookup typeName with
              | none => rw [hl] at hmember; simp at hmember
              | some ms => rfl
            rw [encodeValue_struct E fuel _ _ types hsuffix hkey] at h1 h2
            simp only [Value.asMap] at h1 h2
            exact hashStruct_tamper E hcf types fuel typeName kvs name _ member hmember
              (fun a b ha hb =>
                encodeValue_tamper E hcf types leafType old new hleafsuffix hleafkey hdiff
                  rest fuel member.Ty _ a b ht hv ha hb)
              r1 r2 h1 h2
      · cases ht
  | .index i :: rest, fuel, typeName, value, r1, r2, ht, hv, h1, h2 => by
    simp only [typeAt] at ht
    split at ht
    · rename_i hsuffix
      obtain ⟨xs, rfl⟩ := Value.follow_index_some _ _ _ _ hv
      · rw [Value.follow_index] at hv
        rw [Value.replace_index] at h2
        cases hx : xs[i]? with
        | none => rw [hx] at hv; cases hv
        | some x =>
          rw [hx] at hv
          simp only at hv
          have hxd : xs.getD i Value.null = x := by
            rw [List.getD_eq_getElem?_getD, hx]; rfl
          rw [hxd] at h2
          cases fuel with
          | zero => cases h1
          | succ fuel =>
            intro heq
            obtain ⟨buf1, hw1, rfl⟩ :=
              (encodeValue_slice_eq_ok E fuel typeName xs types hsuffix r1).1 h1
            obtain ⟨buf2, hw2, rfl⟩ :=
              (encodeValue_slice_eq_ok E fuel typeName _ types hsuffix r2).1 h2
            have hbuf := hcf.inj heq
            have hrange : ∀ (ys : List Value) (h : Bytes),
                some (.ok h) ∈ ys.map
                  (fun y => encodeValue E fuel (typeName.take (typeName.length - 2)) y types) →
                ∃ y, h = E.sha256 y := by
              intro ys h hh
              obtain ⟨m, -, hm⟩ := List.mem_map.1 hh
              exact encodeValue_ok_range E fuel _ _ types h hm
            have hlists := writeAll_inj hcf _ _ _ buf1 buf2 (by simp) (hrange xs) (hrange _)
              hw1 hw2 hbuf
            have hi : i < xs.length := (List.getElem?_eq_some.1 hx).1
            have hpoint := congrArg (fun l => l[i]?) hlists
            simp only [List.getElem?_map, hx, List.getElem?_set_self hi, Option.map_some',
              Option.some.injEq] at hpoint
            obtain ⟨hs, hl, -⟩ := (writeAll_eq_ok _ _ buf1).1 hw1
            have hin : encodeValue E fuel (typeName.take (typeName.length - 2)) x types
                ∈ hs.map fun h => (some (.ok h) : Res) := by
              rw [← hl]
              exact List.mem_map.2 ⟨x, List.mem_iff_getElem?.2 ⟨i, hx⟩, rfl⟩
            obtain ⟨a, -, ha⟩ := List.mem_map.1 hin
            exact encodeValue_tamper E hcf types leafType old new hleafsuffix hleafkey hdiff
              rest fuel _ x a a ht hv ha.symm (hpoint ▸ ha.symm) rfl
    · cases ht

theorem Res.isOk_iff (r : Res) : r.isOk = true ↔ ∃ h, r = some (.ok h) := by
  match r with
  | none => simp [Res.isOk]
  | some (.error e) => simp [Res.isOk]
  | some (.ok h) => simp [Res.isOk]

theorem HashTypedData_congr_message (E : Env) (fuel : Nat) (dataA dataB : TypedData)
    (htypes : dataA.Types = dataB.Types) (hprimary : dataA.PrimaryType = dataB.PrimaryType)
    (hdomain : dataA.Domain = dataB.Domain)
    (hmessage :
      hashStruct E fuel dataA.PrimaryType dataA.Message (workingTypes dataA.Types)
        = hashStruct E fuel dataB.PrimaryType dataB.Message (workingTypes dataB.Types)) :
    HashTypedData E fuel dataA = HashTypedData E fuel dataB := by
  unfold HashTypedData
  rw [htypes, hprimary] at hmessage
  simp only [htypes, hprimary, hdomain, hmessage]

theorem hashStruct_congr (E : Env) (fuel : Nat) (typeName : Bytes) (d1 d2 : Object) (types : Dict)
    (h : ∀ member ∈ types.members typeName,
      encodeValue E fuel member.Ty (d1.get member.Name) types
        = encodeValue E fuel member.Ty (d2.get member.Name) types) :
    hashStruct E fuel typeName d1 types = hashStruct E fuel typeName d2 types := by
  rw [hashStruct_eq, hashStruct_eq, List.map_inj_left.2 h]

/-- C3 amended: assuming SHA-256 is collision-free, for every record, every member
`name` of the primary type and every path from the value of that member through nested
records and arrays to a part whose declared type is a primitive (not "[]"-suffixed,
not a key of the dictionary), replacing that part by a value whose bytes under that
primitive type differ changes the digest, provided the message is hashed without error
before and after: `HashTypedData` returns on the one record exactly when it returns on
the other, and the digests it returns differ. -/
theorem tamper_sensitivity (E : Env) (hcf : CollisionFree E.sha256) (fuel : Nat)
    (data : TypedData) (name : Bytes) (rest : List Step) (member : TypedMember)
    (leafType : Bytes) (old new : Value)
    (hmember : ((workingTypes data.Types).members data.PrimaryType).find?
      (fun m => m.Name == name) = some member)
    (htype : typeAt (workingTypes data.Types) member.Ty rest = some leafType)
    (hold : (data.Message.get name).follow rest = some old)
    (hleafsuffix : hasSuffix leafType (ascii "[]") = false)
    (hleafkey : (workingTypes data.Types).has leafType = false)
    (hdiff : primitiveData E leafType old ≠ primitiveData E leafType new)
    (hok1 : (hashStruct E fuel data.PrimaryType data.Message
      (workingTypes data.Types)).isOk = true)
    (hok2 : (hashStruct E fuel data.PrimaryType
      (data.Message.set name ((data.Message.get name).replace new rest))
      (workingTypes data.Types)).isOk = true) :
    (HashTypedData E fuel data).isSome
      = (HashTypedData E fuel
          { data with
            Message := data.Message.set name ((data.Message.get name).replace new rest) }).isSome ∧
    ∀ h1 h2, HashTypedData E fuel data = some h1 →
      HashTypedData E fuel
        { data with
          Message := data.Message.set name ((data.Message.get name).replace new rest) }
        = some h2 →
      h1.digest ≠ h2.digest := by
  obtain ⟨m1, hm1⟩ := (Res.isOk_iff _).1 hok1
  obtain ⟨m2, hm2⟩ := (Res.isOk_iff _).1 hok2
  have hne : m1 ≠ m2 :=
    hashStruct_tamper E hcf _ fuel data.PrimaryType data.Message name _ member hmember
      (fun a b ha hb =>
        encodeValue_tamper E hcf _ leafType old new hleafsuffix hleafkey hdiff rest fuel
          member.Ty _ a b htype hold ha hb)
      m1 m2 hm1 hm2
  constructor
  · rcases Option.eq_none_or_eq_some (hashStruct E fuel (ascii "TypedDomain")
        data.Domain.ToMap (workingTypes data.Types)) with hd | ⟨dr, hd⟩
    · rw [(HashTypedData_eq_none E fuel data).2 (Or.inl hd),
        (HashTypedData_eq_none E fuel
          { data with
            Message := data.Message.set name ((data.Message.get name).replace new rest) }).2
          (Or.inl hd)]
    · rw [(HashTypedData_eq_some E fuel data _).2 ⟨dr, _, hd, hm1, rfl⟩,
        (HashTypedData_eq_some E fuel
          { data with
            Message := data.Message.set name ((data.Message.get name).replace new rest) }
          _).2 ⟨dr, _, hd, hm2, rfl⟩]
      rfl
  · intro h1 h2 hret1 hret2 heq
    obtain ⟨dr1, mr1, hd1, hmr1, rfl⟩ := (HashTypedData_eq_some E fuel data h1).1 hret1
    obtain ⟨dr2, mr2, hd2, hmr2, rfl⟩ := (HashTypedData_eq_some E fuel _ h2).1 hret2
    simp only at hd2 hmr2
    rw [hd1] at hd2
    rw [hm1] at hmr1
    rw [hm2] at hmr2
    cases hd2
    cases hmr1
    cases hmr2
    simp only [Except.bytes] at heq
    exact hne (List.append_cancel_left (signingBody_injective _ _ (hcf.inj heq)))

/-- Witness of C3 amended: in the wallet record of the test, changing the amount of the
first asset from 1000 to 1001 changes the digest. -/
theorem tamper_sensitivity_witness :
    ((walletData 1000).Message.get (ascii "assets")).follow amountPath
      = some (Value.int 1000) ∧
    (HashTypedData sampleEnv 3 (walletData 1000)).isSome = true ∧
    ((HashTypedData sampleEnv 3 (walletData 1000)).isSome
      = (HashTypedData sampleEnv 3 (walletTampered (Value.int 1001))).isSome ∧
    ∀ h1 h2, HashTypedData sampleEnv 3 (walletData 1000) = some h1 →
      HashTypedData sampleEnv 3 (walletTampered (Value.int 1001)) = some h2 →
      h1.digest ≠ h2.digest) :=
  ⟨rfl, by decide,
   tamper_sensitivity sampleEnv sampleEnv_collisionFree 3 (walletData 1000) (ascii "assets")
    amountPath ⟨ascii "assets", ascii "Asset[]"⟩ (ascii "uint256") (Value.int 1000)
    (Value.int 1001) (by decide) (by decide) rfl (by decide) (by decide) (by decide)
    (by decide) (by decide)⟩

theorem encodeValue_slice_congr (E : Env) (fuel : Nat) (typeName : Bytes) (xs ys : List Value)
    (types : Dict) (hsuffix : hasSuffix typeName (ascii "[]") = true)
    (h : (xs.map fun x => encodeValue E fuel (typeName.take (typeName.length - 2)) x types)
      = ys.map fun y => encodeValue E fuel (typeName.take (typeName.length - 2)) y types) :
    encodeValue E (fuel + 1) typeName (Value.slice xs) types
      = encodeValue E (fuel + 1) typeName (Value.slice ys) types := by
  rw [encodeValue_array_of_slice E fuel typeName xs types hsuffix,
    encodeValue_array_of_slice E fuel typeName ys types hsuffix, h]

theorem encodeValue_struct_congr (E : Env) (fuel : Nat) (typeName : Bytes) (v w : Value)
    (types : Dict) (hsuffix : hasSuffix typeName (ascii "[]") = false)
    (hkey : types.has typeName = true)
    (h : ∀ member ∈ types.members typeName,
      encodeValue E fuel member.Ty (v.asMap.get member.Name) types
        = encodeValue E fuel member.Ty (w.asMap.get member.Name) types) :
    encodeValue E (fuel + 1) typeName v types = encodeValue E (fuel + 1) typeName w types := by
  rw [encodeValue_struct E fuel typeName v types hsuffix hkey,
    encodeValue_struct E fuel typeName w types hsuffix hkey]
  exact hashStruct_congr E fuel typeName _ _ types h

theorem encodeValue_primitive_congr (E : Env) (fuel : Nat) (typeName : Bytes) (v w : Value)
    (types : Dict) (hsuffix : hasSuffix typeName (ascii "[]") = false)
    (hkey : types.has typeName = false)
    (h : primitiveData E typeName v = primitiveData E typeName w) :
    encodeValue E (fuel + 1) typeName v types = encodeValue E (fuel + 1) typeName w types := by
  rw [encodeValue_primitive E fuel typeName v types hsuffix hkey,
    encodeValue_primitive E fuel typeName w types hsuffix hkey, h]

/-- C3, counterexample: in the wallet record of the test, replacing the amount of the
first asset, the integer 1000, by the string "1000" (a different value) leaves the
outcome of `HashTypedData`, and so the digest, unchanged: both are hashed through
their `%v` rendering "1000". -/
theorem tampered_amount_keeps_digest :
    (∀ s, Value.int 1000 ≠ Value.str s) ∧
    ((walletData 1000).Message.get (ascii "assets")).follow amountPath
      = some (Value.int 1000) ∧
    (HashTypedData sampleEnv 3 (walletData 1000)).isSome = true ∧
    HashTypedData sampleEnv 3 (walletData 1000)
      = HashTypedData sampleEnv 3 (walletTampered (Value.str (ascii "1000"))) := by
  refine ⟨fun s h => (by cases h), rfl, (by decide), ?_⟩
  refine HashTypedData_congr_message _ _ _ _ rfl rfl rfl ?_
  refine hashStruct_congr _ _ _ _ _ _ ?_
  intro m hm
  have hmem : (workingTypes (walletData 1000).Types).members (walletData 1000).PrimaryType
      = [⟨ascii "owner", ascii "address"⟩, ⟨ascii "assets", ascii "Asset[]"⟩] := by decide
  rw [hmem] at hm
  simp only [List.mem_cons, List.mem_singleton, List.not_mem_nil, or_false] at hm
  rcases hm with rfl | rfl
  · rfl
  · refine encodeValue_slice_congr sampleEnv 2 (ascii "Asset[]")
      [Value.map [(ascii "name", Value.str (ascii "OCT")), (ascii "amount", Value.int 1000)],
       Value.map [(ascii "name", Value.str (ascii "GOLD")), (ascii "amount", Value.int 50)]]
      [Value.map [(ascii "amount", Value.str (ascii "1000")),
                  (ascii "name", Value.str (ascii "OCT"))],
       Value.map [(ascii "name", Value.str (ascii "GOLD")), (ascii "amount", Value.int 50)]]
      _ (by decide) ?_
    simp only [List.map_cons, List.map_nil, List.cons.injEq, and_true]
    refine encodeValue_struct_congr sampleEnv 1 _ _ _ _ (by decide) (by decide) ?_
    intro m hm
    have hmem2 : (workingTypes (walletData 1000).Types).members
        ((ascii "Asset[]").take ((ascii "Asset[]").length - 2))
        = [⟨ascii "name", ascii "string"⟩, ⟨ascii "amount", ascii "uint256"⟩] := by decide
    rw [hmem2] at hm
    simp only [List.mem_cons, List.mem_singleton, List.not_mem_nil, or_false] at hm
    rcases hm with rfl | rfl
    · rfl
    · exact encodeValue_primitive_congr sampleEnv 0 _ _ _ _ (by decide) (by decide) (by decide)

/-! ## More fuel does not change what a call returns -/

theorem writeAll_map_mono {α : Type} (f g : α → Res) :
    ∀ (l : List α) (buf : Bytes) (r : Except Bytes Bytes),
      (∀ a ∈ l, ∀ x, f a = some x → g a = some x) →
      writeAll (l.map f) buf = some r → writeAll (l.map g) buf = some r
  | [], _, _, _, h => h
  | a :: rest, buf, r, hfg, h => by
    simp only [List.map_cons] at h ⊢
    match hfa : f a with
    | none => rw [hfa] at h; cases h
    | some (.error e) =>
      rw [hfa] at h
      rw [hfg a (List.mem_cons_self _ _) _ hfa]
      exact h
    | some (.ok b) =>
      rw [hfa] at h
      rw [hfg a (List.mem_cons_self _ _) _ hfa]
      simp only [writeAll] at h ⊢
      exact writeAll_map_mono f g rest _ r (fun a' ha' => hfg a' (List.mem_cons_of_mem _ ha')) h

theorem encodeValue_mono (E : Env) (types : Dict) :
    ∀ (fuel : Nat) (typeName : Bytes) (value : Value) (r : Except Bytes Bytes),
      encodeValue E fuel typeName value types = some r →
      encodeValue E (fuel + 1) typeName value types = some r
  | 0, _, _, _, h => by cases h
  | fuel + 1, typeName, value, r, h => by
    by_cases hsuffix : hasSuffix typeName (ascii "[]") = true
    · by_cases hv : ∃ xs, value = Value.slice xs
      · obtain ⟨xs, rfl⟩ := hv
        rw [encodeValue_array_of_slice E _ typeName xs types hsuffix] at h ⊢
        have hstep := writeAll_map_mono
          (fun x => encodeValue E fuel (typeName.take (typeName.length - 2)) x types)
          (fun x => encodeValue E (fuel + 1) (typeName.take (typeName.length - 2)) x types)
          xs []
        match hw : writeAll (xs.map fun x =>
            encodeValue E fuel (typeName.take (typeName.length - 2)) x types) [] with
        | none => rw [hw] at h; cases h
        | some w =>
          rw [hw] at h
          rw [hstep w (fun a _ x hx => encodeValue_mono E types fuel _ a x hx) hw]
          exact h
      · rw [encodeValue_array_of_nonslice E _ typeName value types hsuffix
          (fun xs hx => hv ⟨xs, hx⟩)] at h ⊢
        exact h
    · have hsuffix : hasSuffix typeName (ascii "[]") = false := by simpa using hsuffix
      by_cases hkey : types.has typeName = true
      · rw [encodeValue_struct E _ typeName value types hsuffix hkey, hashStruct_eq] at h ⊢
        have hstep := writeAll_map_mono
          (fun member : TypedMember =>
            encodeValue E fuel member.Ty (value.asMap.get member.Name) types)
          (fun member : TypedMember =>
            encodeValue E (fuel + 1) member.Ty (value.asMap.get member.Name) types)
          (types.members typeName) (E.sha256 (encodeType E typeName types))
        match hw : writeAll ((types.members typeName).map fun member =>
            encodeValue E fuel member.Ty (value.asMap.get member.Name) types)
            (E.sha256 (encodeType E typeName types)) with
        | none => rw [hw] at h; cases h
        | some w =>
          rw [hw] at h
          rw [hstep w (fun a _ x hx => encodeValue_mono E types fuel _ _ x hx) hw]
          exact h
      · have hkey : types.has typeName = false := by simpa using hkey
        rw [encodeValue_primitive E _ typeName value types hsuffix hkey] at h ⊢
        exact h

theorem hashStruct_mono (E : Env) (fuel : Nat) (typeName : Bytes) (data : Object)
    (types : Dict) (r : Except Bytes Bytes)
    (h : hashStruct E fuel typeName data types = some r) :
    hashStruct E (fuel + 1) typeName data types = some r := by
  rw [hashStruct_eq] at h ⊢
  have hstep := writeAll_map_mono
    (fun member : TypedMember => encodeValue E fuel member.Ty (data.get member.Name) types)
    (fun member : TypedMember =>
      encodeValue E (fuel + 1) member.Ty (data.get member.Name) types)
    (types.members typeName) (E.sha256 (encodeType E typeName types))
  match hw : writeAll ((types.members typeName).map fun member =>
      encodeValue E fuel member.Ty (data.get member.Name) types)
      (E.sha256 (encodeType E typeName types)) with
  | none => rw [hw] at h; cases h
  | some w =>
    rw [hw] at h
    rw [hstep w (fun a _ x hx => encodeValue_mono E types fuel _ _ x hx) hw]
    exact h

/-- What `HashTypedData` returns does not depend on the fuel that lets it return. -/
theorem HashTypedData_mono (E : Env) (fuel : Nat) (data : TypedData) (h : HashOutcome)
    (hret : HashTypedData E fuel data = some h) : HashTypedData E (fuel + 1) data = some h := by
  obtain ⟨dr, mr, h1, h2, h3⟩ := (HashTypedData_eq_some E fuel data h).1 hret
  exact (HashTypedData_eq_some E (fuel + 1) data h).2
    ⟨dr, mr, hashStruct_mono E fuel _ _ _ dr h1, hashStruct_mono E fuel _ _ _ mr h2, h3⟩

/-! ## The order of `range` does not reach the type string -/

theorem sortStrings_perm (l1 l2 : List Bytes) (h : l1.Perm l2) :
    sortStrings l1 = sortStrings l2 := by
  unfold sortStrings
  exact List.eq_of_perm_of_sorted
    ((List.perm_insertionSort _ l1).trans (h.trans (List.perm_insertionSort _ l2).symm))
    (List.sorted_insertionSort _ l1) (List.sorted_insertionSort _ l2)

/-- The type string is the same under any two orders in which `range` may walk the
set of dependencies. -/
theorem encodeType_mapRange (E E' : Env) (primaryType : Bytes) (types : Dict) :
    encodeType E primaryType types = encodeType E' primaryType types := by
  unfold encodeType
  have hp : ((E.mapRange (findDependencies primaryType types [])).filter
        fun dep => dep != primaryType).Perm
      ((E'.mapRange (findDependencies primaryType types [])).filter
        fun dep => dep != primaryType) :=
    ((E.mapRange_perm _).trans (E'.mapRange_perm _).symm).filter _
  simp only [sortStrings_perm _ _ hp]

/-! ## The signing body -/

/-- C12: the signing body of `HashTypedData` (the constant, a newline, the decimal
length of the payload, a newline, the payload) is injective in the payload: two
different payloads give different bodies, and so do two different pairs of 32-byte
domain and message hashes. -/
theorem signingBody_unambiguous :
    (∀ p1 p2 : Bytes, p1 ≠ p2 → signingBody p1 ≠ signingBody p2) ∧
    (∀ d1 m1 d2 m2 : Bytes, d1.length = 32 → m1.length = 32 → d2.length = 32 →
      m2.length = 32 → (d1, m1) ≠ (d2, m2) →
      signingBody (d1 ++ m1) ≠ signingBody (d2 ++ m2)) := by
  constructor
  · intro p1 p2 hne h
    exact hne (signingBody_injective p1 p2 h)
  · intro d1 m1 d2 m2 hd1 _ hd2 _ hne h
    have hp := signingBody_injective _ _ h
    obtain ⟨h1, h2⟩ := List.append_inj hp (by rw [hd1, hd2])
    exact hne (by rw [h1, h2])

/-- Witness of C12: the payloads of 64 zero bytes and of 64 one bytes, as such and as
pairs of 32-byte halves. -/
theorem signingBody_unambiguous_witness :
    signingBody (List.replicate 64 0) ≠ signingBody (List.replicate 64 1) ∧
    signingBody (List.replicate 32 0 ++ List.replicate 32 0)
      ≠ signingBody (List.replicate 32 0 ++ List.replicate 32 1) :=
  ⟨signingBody_unambiguous.1 _ _ (by decide),
   signingBody_unambiguous.2 _ _ _ _ (by decide) (by decide) (by decide) (by decide)
    (by decide)⟩

/-- C19, counterexample: for the empty payload and for a 64-byte payload the body of
`HashTypedData` (format "%s\n%d\n%s", constant without newline) and the text of
`GetSigningText` (format "%s%d\n%s", constant ending with the newline) are the same
bytes. -/
theorem signing_conventions_agree_on_samples :
    signingBody [] = signingText [] ∧
    signingBody (List.replicate 64 7) = signingText (List.replicate 64 7) := by
  decide

/-- C19, amended: the two constructions are bit-compatible: for every payload, the body
built with format "%s\n%d\n%s" from the constant without newline and the text built
with format "%s%d\n%s" from the constant ending with the newline are the same bytes,
so the digests of the two are the same. -/
theorem signing_conventions_agree (E : Env) (payloadBinary : Bytes) :
    signingBody payloadBinary = signingText payloadBinary ∧
    E.sha256 (signingBody payloadBinary) = E.sha256 (signingText payloadBinary) := by
  have h : signingBody payloadBinary = signingText payloadBinary := by
    unfold signingBody signingText
    have hp : TypedPrefix ++ [10] = signingTextPrefix := by decide
    rw [hp]
  exact ⟨h, by rw [h]⟩

/-! ## Arrays -/

theorem map_eq_of_forall₂ (enc : Value → Res) :
    ∀ (xs : List Value) (hs : List Bytes),
      List.Forall₂ (fun x h => enc x = some (.ok h)) xs hs →
      xs.map enc = hs.map fun h => (some (.ok h) : Res)
  | _, _, .nil => rfl
  | _, _, .cons h rest => by
    simp only [List.map_cons, h, map_eq_of_forall₂ enc _ _ rest]

/-- C18: for a type name ending in "[]" and a sequence whose elements are encoded
successfully against the base type, `encodeValue` returns the hash of the
concatenation, in sequence order, of the encodings of the elements; for the empty
sequence it returns the hash of the empty byte string. -/
theorem array_encoding (E : Env) (fuel : Nat) (typeName : Bytes) (xs : List Value)
    (hs : List Bytes) (types : Dict) (hsuffix : hasSuffix typeName (ascii "[]") = true)
    (helems : List.Forall₂
      (fun x h => encodeValue E fuel (typeName.take (typeName.length - 2)) x types
        = some (.ok h)) xs hs) :
    encodeValue E (fuel + 1) typeName (Value.slice xs) types
      = some (.ok (E.sha256 hs.flatten)) ∧
    encodeValue E (fuel + 1) typeName (Value.slice []) types = some (.ok (E.sha256 [])) := by
  constructor
  · rw [encodeValue_slice_eq_ok E fuel typeName xs types hsuffix]
    refine ⟨hs.flatten, ?_, rfl⟩
    rw [writeAll_eq_ok]
    exact ⟨hs, map_eq_of_forall₂ _ xs hs helems, by simp⟩
  · rw [encodeValue_slice_eq_ok E fuel typeName [] types hsuffix]
    exact ⟨[], rfl, rfl⟩

/-- Witness of C18: the type `string[]` on the sequence of the strings "a" and "b". -/
theorem array_encoding_witness :
    encodeValue sampleEnv 2 (ascii "string[]")
        (Value.slice [Value.str (ascii "a"), Value.str (ascii "b")]) []
      = some (.ok (sampleEnv.sha256
          [sampleEnv.sha256 (ascii "a"), sampleEnv.sha256 (ascii "b")].flatten)) ∧
    encodeValue sampleEnv 2 (ascii "string[]") (Value.slice []) []
      = some (.ok (sampleEnv.sha256 [])) :=
  array_encoding sampleEnv 1 (ascii "string[]")
    [Value.str (ascii "a"), Value.str (ascii "b")]
    [sampleEnv.sha256 (ascii "a"), sampleEnv.sha256 (ascii "b")] [] (by decide)
    (.cons (by decide) (.cons (by decide) .nil))

/-! ## Errors of the keystore -/

/-- C11, counterexample: on an input that is not a JSON record, `DecryptKey` returns
the error of `json.Unmarshal`, which is not the error "invalid password". -/
theorem DecryptKey_returns_json_error :
    DecryptKey sampleEnv (ascii "not json") (ascii "octra-secure-123")
      = some ([], some (ascii "unexpected end of JSON input")) ∧
    ascii "unexpected end of JSON input" ≠ ascii "invalid password" :=
  ⟨rfl, by decide⟩

/-- C11, amended: whenever `DecryptKey` returns an error, the key it returns is empty
and the error is either the error of `json.Unmarshal` on the input (the input is not a
well-formed record) or, for an input that decodes to a record, exactly the error
"invalid password". -/
theorem DecryptKey_errors (E : Env) (keystoreJSON password key err : Bytes)
    (h : DecryptKey E keystoreJSON password = some (key, some err)) :
    key = [] ∧
    (E.unmarshalKeystore keystoreJSON = .error err ∨
      ((∃ ks, E.unmarshalKeystore keystoreJSON = .ok ks) ∧ err = ascii "invalid password")) := by
  unfold DecryptKey at h
  cases hu : E.unmarshalKeystore keystoreJSON with
  | error e =>
    rw [hu] at h
    simp only [Option.some.injEq, Prod.mk.injEq] at h
    exact ⟨h.1.symm, Or.inl (by rw [h.2])⟩
  | ok ks =>
    rw [hu] at h
    simp only at h
    split at h
    · cases h
    · split at h
      · split at h
        · simp only [Option.some.injEq, Prod.mk.injEq] at h
          exact ⟨h.1.symm, Or.inr ⟨⟨ks, rfl⟩, h.2.symm⟩⟩
        · simp at h
      · cases h

theorem DecryptKey_of_record (E : Env) (keystoreJSON password : Bytes) (ks : Keystore)
    (h : E.unmarshalKeystore keystoreJSON = .ok ks) :
    DecryptKey E keystoreJSON password
      = match newGCM (E.scrypt password (E.b64dec ks.Crypto.Salt) ks.Crypto.N ks.Crypto.R
          ks.Crypto.P) with
        | none => none
        | some gcm =>
          if (E.b64dec ks.Crypto.IV).length = 12 then
            match E.gcmOpen gcm (E.b64dec ks.Crypto.IV) (E.b64dec ks.Crypto.CipherText) with
            | none => some ([], some (ascii "invalid password"))
            | some seed => some (E.b64enc seed, none)
          else none := by
  unfold DecryptKey
  rw [h]

/-- Witness of C11 amended: the keystore record of the test opened with a wrong
password. -/
theorem DecryptKey_errors_witness :
    DecryptKey sampleEnv (sampleEnv.marshalKeystore sampleKeystore) (ascii "password-salah")
      = some ([], some (ascii "invalid password")) ∧
    ([] : Bytes) = [] ∧
    (sampleEnv.unmarshalKeystore (sampleEnv.marshalKeystore sampleKeystore)
        = .error (ascii "invalid password") ∨
      ((∃ ks, sampleEnv.unmarshalKeystore (sampleEnv.marshalKeystore sampleKeystore) = .ok ks) ∧
        ascii "invalid password" = ascii "invalid password")) :=
  have h : DecryptKey sampleEnv (sampleEnv.marshalKeystore sampleKeystore)
      (ascii "password-salah") = some ([], some (ascii "invalid password")) :=
    (DecryptKey_of_record sampleEnv _ _ sampleKeystore (sampleEnv_json sampleKeystore)).trans
      (by decide)
  ⟨h, DecryptKey_errors sampleEnv _ _ _ _ h⟩

/-! ## Members that the message lacks -/

theorem Object.get_of_lookup_none (data : Object) (name : Bytes)
    (h : data.lookup name = none) : data.get name = Value.null := by
  unfold Object.get
  rw [h]
  rfl

/-- A member of array type whose value is not a sequence keeps `hashStruct` from
succeeding, whatever the fuel. -/
theorem hashStruct_not_ok_of_array_member (E : Env) (fuel : Nat) (typeName : Bytes)
    (data : Object) (types : Dict) (member : TypedMember)
    (hmember : member ∈ types.members typeName)
    (hsuffix : hasSuffix member.Ty (ascii "[]") = true)
    (hvalue : ∀ xs, data.get member.Name ≠ Value.slice xs) (h : Bytes) :
    hashStruct E fuel typeName data types ≠ some (.ok h) := by
  intro hok
  obtain ⟨buf, hw, -⟩ := (hashStruct_eq_ok E fuel typeName data types h).1 hok
  obtain ⟨hs, hl, -⟩ := (writeAll_eq_ok _ _ buf).1 hw
  have hin : encodeValue E fuel member.Ty (data.get member.Name) types
      ∈ hs.map fun h => (some (.ok h) : Res) := by
    rw [← hl]
    exact List.mem_map.2 ⟨member, hmember, rfl⟩
  obtain ⟨a, -, ha⟩ := List.mem_map.1 hin
  cases fuel with
  | zero => cases ha
  | succ fuel =>
    rw [encodeValue_array_of_nonslice E fuel _ _ types hsuffix hvalue] at ha
    cases ha

theorem hashStruct_of_primitive_members (E : Env) (fuel : Nat) (typeName : Bytes)
    (data : Object) (types : Dict)
    (hprim : ∀ member ∈ types.members typeName,
      hasSuffix member.Ty (ascii "[]") = false ∧ types.has member.Ty = false) :
    hashStruct E (fuel + 1) typeName data types
      = some (.ok (E.sha256 (E.sha256 (encodeType E typeName types) ++
          ((types.members typeName).map fun member =>
            E.sha256 (primitiveData E member.Ty (data.get member.Name))).flatten))) := by
  rw [hashStruct_eq_ok]
  refine ⟨_, ?_, rfl⟩
  rw [writeAll_eq_ok]
  refine ⟨(types.members typeName).map fun member =>
    E.sha256 (primitiveData E member.Ty (data.get member.Name)), ?_, rfl⟩
  rw [List.map_map]
  apply List.map_congr_left
  intro member hm
  exact encodeValue_primitive E fuel _ _ types (hprim member hm).1 (hprim member hm).2

/-- C17, counterexample: the record type `Batch` declares the member `items` of type
`string[]`; on the empty mapping, which lacks the key `items`, `hashStruct` returns
the error "expected slice for type string[]", and no fuel makes it succeed. -/
theorem hashStruct_fails_on_missing_array_member :
    hashStruct sampleEnv 1 (ascii "Batch") [] batchDict
      = some (.error (ascii "expected slice for type string[]")) ∧
    ¬ ∃ fuel h, hashStruct sampleEnv fuel (ascii "Batch") [] batchDict = some (.ok h) := by
  refine ⟨by decide, ?_⟩
  rintro ⟨fuel, h, hok⟩
  exact hashStruct_not_ok_of_array_member sampleEnv fuel (ascii "Batch") [] batchDict
    ⟨ascii "items", ascii "string[]"⟩ (by decide) (by decide) (by intro xs hx; cases hx) h hok

/-- C17, amended: a declared member whose key the value map lacks is read as nil.  If
its declared type is a primitive (not "[]"-suffixed, not a key of the dictionary) its
encoding succeeds with the hash of the bytes of nil under that type; if its declared
type is a record type it is encoded as the empty mapping of that type; if its declared
type ends in "[]" its encoding fails with "expected slice for type …" and `hashStruct`
does not succeed.  When all declared members have primitive types, `hashStruct`
succeeds on every value map, whichever keys it lacks. -/
theorem hashStruct_on_missing_member (E : Env) (fuel : Nat) (types : Dict)
    (typeName : Bytes) (data : Object) (member : TypedMember)
    (hmember : member ∈ types.members typeName)
    (hmissing : data.lookup member.Name = none) :
    data.get member.Name = Value.null ∧
    (hasSuffix member.Ty (ascii "[]") = false → types.has member.Ty = false →
      encodeValue E (fuel + 1) member.Ty (data.get member.Name) types
        = some (.ok (E.sha256 (primitiveData E member.Ty Value.null)))) ∧
    (hasSuffix member.Ty (ascii "[]") = false → types.has member.Ty = true →
      encodeValue E (fuel + 1) member.Ty (data.get member.Name) types
        = hashStruct E fuel member.Ty [] types) ∧
    (hasSuffix member.Ty (ascii "[]") = true →
      encodeValue E (fuel + 1) member.Ty (data.get member.Name) types
        = some (.error (ascii "expected slice for type " ++ member.Ty)) ∧
      ∀ fuel' h, hashStruct E fuel' typeName data types ≠ some (.ok h)) ∧
    ((∀ m ∈ types.members typeName,
        hasSuffix m.Ty (ascii "[]") = false ∧ types.has m.Ty = false) →
      hashStruct E (fuel + 1) typeName data types
        = some (.ok (E.sha256 (E.sha256 (encodeType E typeName types) ++
            ((types.members typeName).map fun m =>
              E.sha256 (primitiveData E m.Ty (data.get m.Name))).flatten)))) := by
  have hnull := Object.get_of_lookup_none data member.Name hmissing
  refine ⟨hnull, ?_, ?_, ?_, ?_⟩
  · intro hs hk
    rw [hnull]
    exact encodeValue_primitive E fuel _ _ types hs hk
  · intro hs hk
    rw [hnull]
    exact encodeValue_struct E fuel _ _ types hs hk
  · intro hs
    have hv : ∀ xs, data.get member.Name ≠ Value.slice xs := by
      intro xs hx
      rw [hnull] at hx
      cases hx
    exact ⟨encodeValue_array_of_nonslice E fuel _ _ types hs hv,
      fun fuel' h =>
        hashStruct_not_ok_of_array_member E fuel' typeName data types member hmember hs hv h⟩
  · exact hashStruct_of_primitive_members E fuel typeName data types

/-- Witness of C17 amended: the record type `Asset` of the wallet dictionary on the
empty mapping, which lacks the key of the member `amount` of type `uint256`. -/
theorem hashStruct_on_missing_member_witness :
    encodeValue sampleEnv 1 (ascii "uint256") (Object.get [] (ascii "amount")) walletTypes
      = some (.ok (sampleEnv.sha256 (primitiveData sampleEnv (ascii "uint256") Value.null))) ∧
    (hashStruct sampleEnv 1 (ascii "Asset") [] walletTypes).isOk = true :=
  have h := hashStruct_on_missing_member sampleEnv 0 walletTypes (ascii "Asset") []
    ⟨ascii "amount", ascii "uint256"⟩ (by decide) rfl
  ⟨h.2.1 (by decide) (by decide), by
    rw [h.2.2.2.2 (by decide)]
    rfl⟩

/-! ## Type strings -/

theorem split_at_byte (c : Nat) : ∀ (a b s t : Bytes), c ∉ a → c ∉ b →
    a ++ c :: s = b ++ c :: t → a = b ∧ s = t
  | [], [], _, _, _, _, h => by simpa using h
  | [], y :: b, _, _, _, hb, h => by
    simp only [List.nil_append, List.cons_append, List.cons.injEq] at h
    exact absurd (by rw [h.1]; exact List.mem_cons_self _ _) hb
  | x :: a, [], _, _, ha, _, h => by
    simp only [List.nil_append, List.cons_append, List.cons.injEq] at h
    exact absurd (by rw [← h.1]; exact List.mem_cons_self _ _) ha
  | x :: a, y :: b, s, t, ha, hb, h => by
    simp only [List.cons_append, List.cons.injEq] at h
    obtain ⟨h1, h2⟩ := split_at_byte c a b s t
      (fun hm => ha (List.mem_cons_of_mem _ hm)) (fun hm => hb (List.mem_cons_of_mem _ hm)) h.2
    exact ⟨by rw [h.1, h1], h2⟩

theorem foldl_append_eq (f : Bytes → Bytes) :
    ∀ (l : List Bytes) (init : Bytes),
      l.foldl (fun sb dep => sb ++ f dep) init = init ++ (l.map f).flatten
  | [], init => by simp
  | a :: rest, init => by
    simp only [List.foldl_cons, List.map_cons, List.flatten_cons]
    rw [foldl_append_eq f rest, List.append_assoc]

/-- The type string is the rendering of the primary type followed by the renderings of
the sorted dependencies. -/
theorem encodeType_eq (E : Env) (primaryType : Bytes) (types : Dict) :
    encodeType E primaryType types
      = formatMainType primaryType types ++
        ((sortStrings ((E.mapRange (findDependencies primaryType types [])).filter
            fun dep => dep != primaryType)).map fun dep => formatMainType dep types).flatten := by
  unfold encodeType
  exact foldl_append_eq _ _ _

theorem formatMainType_head (name : Bytes) (types : Dict) :
    formatMainType name types
      = name ++ 40 :: ((ascii ",").intercalate
          ((types.members name).map fun member => member.Ty ++ ascii " " ++ member.Name)
          ++ ascii ")") := by
  unfold formatMainType
  have h : ascii "(" = [40] := by decide
  rw [h]
  simp only [List.append_assoc, List.singleton_append, List.cons_append, List.nil_append]

theorem encodeType_head (E : Env) (primaryType : Bytes) (types : Dict) :
    ∃ rest, encodeType E primaryType types = primaryType ++ 40 :: rest := by
  rw [encodeType_eq, formatMainType_head]
  exact ⟨_, by rw [List.append_assoc, List.cons_append]⟩

/-- C13, counterexample: in `twinDict` the distinct type names `A` and `A(C[] x)A` have
the same member list, their type strings are equal, and on the value map that holds
the empty sequence under `x` both struct hashes succeed and are equal. -/
theorem twin_types_share_type_string :
    ascii "A" ≠ ascii "A(C[] x)A" ∧
    twinDict.members (ascii "A") = twinDict.members (ascii "A(C[] x)A") ∧
    encodeType sampleEnv (ascii "A") twinDict
      = encodeType sampleEnv (ascii "A(C[] x)A") twinDict ∧
    (hashStruct sampleEnv 1 (ascii "A") [(ascii "x", Value.slice [])] twinDict).isOk = true ∧
    hashStruct sampleEnv 1 (ascii "A") [(ascii "x", Value.slice [])] twinDict
      = hashStruct sampleEnv 1 (ascii "A(C[] x)A") [(ascii "x", Value.slice [])] twinDict := by
  have henc : encodeType sampleEnv (ascii "A") twinDict
      = encodeType sampleEnv (ascii "A(C[] x)A") twinDict := by decide
  have hmem : twinDict.members (ascii "A") = twinDict.members (ascii "A(C[] x)A") := by decide
  refine ⟨by decide, hmem, henc, by decide, ?_⟩
  rw [hashStruct_eq, hashStruct_eq, hmem, henc]

/-- C13, amended: assuming SHA-256 is collision-free, for every dictionary and every
two distinct type names that do not contain the byte "(", the type strings differ,
and the struct hashes of the two types on a value map differ whenever both succeed
(whatever the member lists of the two types). -/
theorem type_identity_separation (E : Env) (hcf : CollisionFree E.sha256) (types : Dict)
    (nameA nameB : Bytes) (hA : 40 ∉ nameA) (hB : 40 ∉ nameB) (hne : nameA ≠ nameB) :
    encodeType E nameA types ≠ encodeType E nameB types ∧
    ∀ fuel data a b, hashStruct E fuel nameA data types = some (.ok a) →
      hashStruct E fuel nameB data types = some (.ok b) → a ≠ b := by
  have henc : encodeType E nameA types ≠ encodeType E nameB types := by
    intro h
    obtain ⟨ra, ha⟩ := encodeType_head E nameA types
    obtain ⟨rb, hb⟩ := encodeType_head E nameB types
    rw [ha, hb] at h
    exact hne (split_at_byte 40 _ _ _ _ hA hB h).1
  refine ⟨henc, ?_⟩
  intro fuel data a b hoka hokb hab
  obtain ⟨bufa, hwa, rfl⟩ := (hashStruct_eq_ok E fuel nameA data types a).1 hoka
  obtain ⟨bufb, hwb, rfl⟩ := (hashStruct_eq_ok E fuel nameB data types b).1 hokb
  obtain ⟨hsa, -, rfl⟩ := (writeAll_eq_ok _ _ bufa).1 hwa
  obtain ⟨hsb, -, rfl⟩ := (writeAll_eq_ok _ _ bufb).1 hwb
  exact henc (hcf.append_cancel _ _ _ _ (hcf.inj hab)).1

/-- Witness of C13 amended: the record types `Wallet` and `Asset` of the test. -/
theorem type_identity_separation_witness :
    encodeType sampleEnv (ascii "Wallet") walletTypes
      ≠ encodeType sampleEnv (ascii "Asset") walletTypes ∧
    ∀ fuel data a b, hashStruct sampleEnv fuel (ascii "Wallet") data walletTypes = some (.ok a) →
      hashStruct sampleEnv fuel (ascii "Asset") data walletTypes = some (.ok b) → a ≠ b :=
  type_identity_separation sampleEnv sampleEnv_collisionFree walletTypes (ascii "Wallet")
    (ascii "Asset") (by decide) (by decide) (by decide)

/-! ## The visited set and its measure -/

theorem Dict.has_iff_mem_keys (types : Dict) (name : Bytes) :
    types.has name = true ↔ name ∈ types.map Prod.fst := by
  unfold Dict.has
  induction types with
  | nil => simp
  | cons e rest ih =>
    obtain ⟨k, v⟩ := e
    by_cases h : name = k
    · subst h; simp [List.lookup_cons]
    · have hk : (name == k) = false := by simpa using h
      simp only [List.lookup_cons, hk, List.map_cons, List.mem_cons, h, false_or]
      exact ih

theorem unvisited_le_length (types : Dict) (found : List Bytes) :
    unvisited types found ≤ types.length := by
  unfold unvisited
  calc ((types.map Prod.fst).dedup.filter fun key => decide (key ∉ found)).length
      ≤ (types.map Prod.fst).dedup.length := List.length_filter_le _ _
    _ ≤ (types.map Prod.fst).length := (List.dedup_sublist _).length_le
    _ = types.length := List.length_map _ _

theorem unvisited_mono (types : Dict) (found found' : List Bytes)
    (h : ∀ x ∈ found, x ∈ found') : unvisited types found' ≤ unvisited types found := by
  unfold unvisited
  apply List.Sublist.length_le
  apply List.monotone_filter_right
  intro a ha
  simp only [decide_eq_true_eq] at ha ⊢
  exact fun hm => ha (h a hm)

theorem unvisited_cons_lt (types : Dict) (found : List Bytes) (name : Bytes)
    (hkey : types.has name = true) (hnew : name ∉ found) :
    unvisited types (name :: found) < unvisited types found := by
  unfold unvisited
  have hfilter : ((types.map Prod.fst).dedup.filter fun key => decide (key ∉ name :: found))
      = (((types.map Prod.fst).dedup.filter fun key => decide (key ∉ found)).filter
          fun key => decide (key ≠ name)) := by
    rw [List.filter_filter]
    apply List.filter_congr
    intro a _
    simp only [List.mem_cons, not_or, Bool.decide_and, ne_eq]
  rw [hfilter]
  apply List.length_filter_lt_length_iff_exists.2
  refine ⟨name, ?_, by simp⟩
  rw [List.mem_filter]
  exact ⟨List.mem_dedup.2 ((Dict.has_iff_mem_keys types name).1 hkey), by simpa using hnew⟩

/-! ## Reachability -/

theorem Reachable.has_source {types : Dict} {a b : Bytes} (h : Reachable types a b) :
    types.has a = true := by
  induction h with
  | start hk => exact hk
  | step _ _ _ _ ih => exact ih

theorem Reachable.has_target {types : Dict} {a b : Bytes} (h : Reachable types a b) :
    types.has b = true := by
  cases h with
  | start hk => exact hk
  | step _ _ _ hk => exact hk

theorem Reachable.trans {types : Dict} {a b c : Bytes} (hab : Reachable types a b)
    (hbc : Reachable types b c) : Reachable types a c := by
  induction hbc with
  | start _ => exact hab
  | step member _ hm hk ih => exact Reachable.step member ih hm hk

theorem Reachable.of_successor {types : Dict} {a w : Bytes} (ha : types.has a = true)
    (hw : w ∈ types.successors a) (hk : types.has w = true) : Reachable types a w := by
  unfold Dict.successors at hw
  obtain ⟨member, hm, rfl⟩ := List.mem_map.1 hw
  exact Reachable.step member (Reachable.start ha) hm hk

/-! ## The traversal -/

theorem findDependenciesRun_succ (types : Dict) (fuel : Nat) (name : Bytes)
    (found : List Bytes) :
    findDependenciesRun types (fuel + 1) name found
      = if name ∈ found then some found
        else if types.has name = true then
          (types.successors name).foldl
            (fun acc w => acc.bind fun found => findDependenciesRun types fuel w found)
            (some (name :: found))
        else some found := by
  conv_lhs => unfold findDependenciesRun
  unfold Dict.successors
  rw [List.foldl_map]

theorem findDependenciesAux_succ (types : Dict) (fuel : Nat) (name : Bytes)
    (found : List Bytes) :
    findDependenciesAux types (fuel + 1) name found
      = if name ∈ found then found
        else if types.has name = true then
          (types.successors name).foldl
            (fun found w => findDependenciesAux types fuel w found) (name :: found)
        else found := by
  conv_lhs => unfold findDependenciesAux
  unfold Dict.successors
  rw [List.foldl_map]

theorem fold_explores (types : Dict) (fuel : Nat)
    (ih : ∀ name found, unvisited types found < fuel →
      ∃ r, findDependenciesRun types fuel name found = some r ∧ Explored types found [name] r) :
    ∀ (ws found : List Bytes), unvisited types found < fuel →
      ∃ r, ws.foldl (fun acc w => acc.bind fun found => findDependenciesRun types fuel w found)
          (some found) = some r ∧ Explored types found ws r
  | [], found, _ =>
    ⟨found, rfl,
      { subset := fun _ hx => hx
        roots_mem := fun _ hw => absurd hw (List.not_mem_nil _)
        fresh_key := fun _ hu hn => absurd hu hn
        fresh_closed := fun _ hu hn => absurd hu hn
        fresh_reach := fun _ hu hn => absurd hu hn
        nodup := fun h => h }⟩
  | w :: ws, found, hfuel => by
    obtain ⟨r1, hrun1, e1⟩ := ih w found hfuel
    have hfuel1 : unvisited types r1 < fuel :=
      Nat.lt_of_le_of_lt (unvisited_mono types found r1 e1.subset) hfuel
    obtain ⟨r, hrun, e2⟩ := fold_explores types fuel ih ws r1 hfuel1
    refine ⟨r, ?_, ?_⟩
    · simp only [List.foldl_cons, Option.some_bind, hrun1]
      exact hrun
    · exact
        { subset := fun x hx => e2.subset x (e1.subset x hx)
          roots_mem := by
            intro w' hw' hk
            rcases List.mem_cons.1 hw' with rfl | hw'
            · exact e2.subset _ (e1.roots_mem _ (List.mem_singleton_self _) hk)
            · exact e2.roots_mem w' hw' hk
          fresh_key := by
            intro u hu hn
            by_cases hu1 : u ∈ r1
            · exact e1.fresh_key u hu1 hn
            · exact e2.fresh_key u hu hu1
          fresh_closed := by
            intro u hu hn w' hw' hk
            by_cases hu1 : u ∈ r1
            · exact e2.subset _ (e1.fresh_closed u hu1 hn w' hw' hk)
            · exact e2.fresh_closed u hu hu1 w' hw' hk
          fresh_reach := by
            intro u hu hn
            by_cases hu1 : u ∈ r1
            · obtain ⟨w0, hw0, hr⟩ := e1.fresh_reach u hu1 hn
              rw [List.mem_singleton] at hw0
              subst hw0
              exact ⟨w0, List.mem_cons_self _ _, hr⟩
            · obtain ⟨w0, hw0, hr⟩ := e2.fresh_reach u hu hu1
              exact ⟨w0, List.mem_cons_of_mem _ hw0, hr⟩
          nodup := fun h => e2.nodup (e1.nodup h) }

theorem run_explores (types : Dict) :
    ∀ (fuel : Nat) (name : Bytes) (found : List Bytes), unvisited types found < fuel →
      ∃ r, findDependenciesRun types fuel name found = some r ∧ Explored types found [name] r
  | 0, _, _, h => absurd h (Nat.not_lt_zero _)
  | fuel + 1, name, found, hfuel => by
    rw [findDependenciesRun_succ]
    by_cases hmem : name ∈ found
    · rw [if_pos hmem]
      exact ⟨found, rfl,
        { subset := fun _ hx => hx
          roots_mem := fun w hw _ => by rw [List.mem_singleton.1 hw]; exact hmem
          fresh_key := fun _ hu hn => absurd hu hn
          fresh_closed := fun _ hu hn => absurd hu hn
          fresh_reach := fun _ hu hn => absurd hu hn
          nodup := fun h => h }⟩
    · rw [if_neg hmem]
      by_cases hkey : types.has name = true
      · rw [if_pos hkey]
        have hlt := unvisited_cons_lt types found name hkey hmem
        obtain ⟨r, hrun, e⟩ := fold_explores types fuel (run_explores types fuel)
          (types.successors name) (name :: found) (by omega)
        refine ⟨r, hrun, ?_⟩
        exact
          { subset := fun x hx => e.subset x (List.mem_cons_of_mem _ hx)
            roots_mem := fun w hw _ => by
              rw [List.mem_singleton.1 hw]
              exact e.subset _ (List.mem_cons_self _ _)
            fresh_key := by
              intro u hu hn
              by_cases hun : u = name
              · rw [hun]; exact hkey
              · exact e.fresh_key u hu (fun h => (List.mem_cons.1 h).elim hun hn)
            fresh_closed := by
              intro u hu hn w hw hk
              by_cases hun : u = name
              · subst hun; exact e.roots_mem w hw hk
              · exact e.fresh_closed u hu (fun h => (List.mem_cons.1 h).elim hun hn) w hw hk
            fresh_reach := by
              intro u hu hn
              by_cases hun : u = name
              · exact ⟨name, List.mem_singleton_self _, by rw [hun]; exact Reachable.start hkey⟩
              · obtain ⟨w, hw, hr⟩ :=
                  e.fresh_reach u hu (fun h => (List.mem_cons.1 h).elim hun hn)
                exact ⟨name, List.mem_singleton_self _,
                  (Reachable.of_successor hkey hw hr.has_source).trans hr⟩
            nodup := fun h => e.nodup (List.nodup_cons.2 ⟨hmem, h⟩) }
      · rw [if_neg hkey]
        exact ⟨found, rfl,
          { subset := fun _ hx => hx
            roots_mem := fun w hw hk => by
              rw [List.mem_singleton.1 hw] at hk
              exact absurd hk hkey
            fresh_key := fun _ hu hn => absurd hu hn
            fresh_closed := fun _ hu hn => absurd hu hn
            fresh_reach := fun _ hu hn => absurd hu hn
            nodup := fun h => h }⟩

theorem fold_run_none (types : Dict) (fuel : Nat) (ws : List Bytes) :
    ws.foldl (fun acc w => acc.bind fun found => findDependenciesRun types fuel w found)
      none = none := by
  induction ws with
  | nil => rfl
  | cons w ws ih => simpa using ih

theorem run_eq_aux (types : Dict) :
    ∀ (fuel : Nat) (name : Bytes) (found r : List Bytes),
      findDependenciesRun types fuel name found = some r →
      findDependenciesAux types fuel name found = r
  | 0, _, _, _, h => by simp [findDependenciesRun] at h
  | fuel + 1, name, found, r, h => by
    rw [findDependenciesRun_succ] at h
    rw [findDependenciesAux_succ]
    by_cases hmem : name ∈ found
    · rw [if_pos hmem] at h ⊢
      exact Option.some.inj h
    · rw [if_neg hmem] at h ⊢
      by_cases hkey : types.has name = true
      · rw [if_pos hkey] at h ⊢
        have hfold : ∀ (ws : List Bytes) (acc r : List Bytes),
            ws.foldl (fun acc w => acc.bind fun found => findDependenciesRun types fuel w found)
              (some acc) = some r →
            ws.foldl (fun found w => findDependenciesAux types fuel w found) acc = r := by
          intro ws
          induction ws with
          | nil => intro acc r h; exact Option.some.inj h
          | cons w ws ih =>
            intro acc r h
            simp only [List.foldl_cons, Option.some_bind] at h ⊢
            rcases Option.eq_none_or_eq_some (findDependenciesRun types fuel w acc) with hn | ⟨r1, hs⟩
            · rw [hn, fold_run_none] at h
              exact absurd h (by simp)
            · rw [hs] at h
              rw [run_eq_aux types fuel w acc r1 hs]
              exact ih r1 r h
        exact hfold _ _ _ h
      · rw [if_neg hkey] at h ⊢
        exact Option.some.inj h

theorem findDependencies_run (types : Dict) (name : Bytes) (found : List Bytes) :
    ∃ r, findDependenciesRun types (types.length + 1) name found = some r ∧
      findDependencies name types found = r ∧ Explored types found [name] r := by
  obtain ⟨r, hrun, e⟩ := run_explores types (types.length + 1) name found
    (Nat.lt_succ_of_le (unvisited_le_length types found))
  exact ⟨r, hrun, run_eq_aux types _ name found r hrun, e⟩

theorem Explored.reach_mem {types : Dict} {name : Bytes} {r : List Bytes}
    (e : Explored types [] [name] r) {t : Bytes} (h : Reachable types name t) : t ∈ r := by
  induction h with
  | start hk => exact e.roots_mem name (List.mem_singleton_self _) hk
  | step member _ hm hk ih =>
    exact e.fresh_closed _ ih (List.not_mem_nil _) _
      (List.mem_map.2 ⟨member, hm, rfl⟩) hk

theorem Explored.mem_iff {types : Dict} {name : Bytes} {r : List Bytes}
    (e : Explored types [] [name] r) (t : Bytes) : t ∈ r ↔ Reachable types name t := by
  constructor
  · intro h
    obtain ⟨w, hw, hr⟩ := e.fresh_reach t h (List.not_mem_nil _)
    rw [List.mem_singleton.1 hw] at hr
    exact hr
  · exact e.reach_mem

/-- C14, amended: the dependency search from an empty visited set returns exactly the
names reached from the primary type through members whose array-stripped type name is a
key of the dictionary; every name returned is a key, none is returned twice, and the
primary type is returned exactly when it is a key: the search from a name that is not a
key returns the empty set. -/
theorem findDependencies_exact (types : Dict) (primaryType : Bytes) :
    (∀ t, t ∈ findDependencies primaryType types [] ↔ Reachable types primaryType t) ∧
    (∀ t ∈ findDependencies primaryType types [], types.has t = true) ∧
    (findDependencies primaryType types []).Nodup ∧
    (primaryType ∈ findDependencies primaryType types [] ↔ types.has primaryType = true) ∧
    (types.has primaryType = false → findDependencies primaryType types [] = []) := by
  obtain ⟨r, _, haux, e⟩ := findDependencies_run types primaryType []
  rw [haux]
  refine ⟨e.mem_iff, fun t ht => e.fresh_key t ht (List.not_mem_nil _),
    e.nodup List.nodup_nil, ?_, ?_⟩
  · rw [e.mem_iff]
    exact ⟨Reachable.has_source, Reachable.start⟩
  · intro hno
    apply List.eq_nil_iff_forall_not_mem.2
    intro t ht
    have := ((e.mem_iff t).1 ht).has_source
    rw [hno] at this
    exact absurd this (by simp)

/-- Claim C15: the dependency search terminates on every finite dictionary, cyclic or
not: a name already visited is not expanded again, every expansion adds a key that was
not visited and so lowers the number of unvisited keys, which is at most the size of
the dictionary; with nesting depth bounded by the size of the dictionary plus one the
search returns, and what it returns is the value of `findDependencies`. -/
theorem findDependencies_terminates (types : Dict) (primaryType : Bytes)
    (found : List Bytes) :
    (∃ r, findDependenciesRun types (types.length + 1) primaryType found = some r ∧
      findDependencies primaryType types found = r) ∧
    (∀ fuel, primaryType ∈ found →
      findDependenciesRun types (fuel + 1) primaryType found = some found) ∧
    (types.has primaryType = true → primaryType ∉ found →
      unvisited types (primaryType :: found) < unvisited types found) ∧
    unvisited types found ≤ types.length := by
  refine ⟨?_, ?_, unvisited_cons_lt types found primaryType, unvisited_le_length types found⟩
  · obtain ⟨r, hrun, haux, _⟩ := findDependencies_run types primaryType found
    exact ⟨r, hrun, haux⟩
  · intro fuel hmem
    rw [findDependenciesRun_succ, if_pos hmem]

/-- The search of `findDependenciesRun` on `twinDict`, whose types `A` and `C` refer to
each other: the instance of claim C15 on a cyclic dictionary. -/
theorem findDependencies_terminates_witness :
    (∃ r, findDependenciesRun twinDict (twinDict.length + 1) (ascii "A") [] = some r ∧
      findDependencies (ascii "A") twinDict [] = r) ∧
    (∀ fuel, ascii "A" ∈ ([] : List Bytes) →
      findDependenciesRun twinDict (fuel + 1) (ascii "A") [] = some []) ∧
    (twinDict.has (ascii "A") = true → ascii "A" ∉ ([] : List Bytes) →
      unvisited twinDict (ascii "A" :: []) < unvisited twinDict []) ∧
    unvisited twinDict [] ≤ twinDict.length :=
  findDependencies_terminates twinDict (ascii "A") []

/-! ## The canonical type string -/

theorem intercalate_eq_renderMembers :
    ∀ members : List TypedMember,
      (ascii ",").intercalate (members.map fun member => member.Ty ++ ascii " " ++ member.Name)
        = renderMembers members
  | [] => rfl
  | [member] => by simp [List.intercalate, renderMembers]
  | member :: next :: rest => by
    have ih := intercalate_eq_renderMembers (next :: rest)
    simp only [List.intercalate, List.map_cons, List.intersperse, List.flatten_cons] at ih ⊢
    rw [renderMembers, ← ih]
    simp only [List.append_assoc]
    · intro h; cases h

theorem formatMainType_eq_renderType (name : Bytes) (types : Dict) :
    formatMainType name types = renderType name (types.members name) := by
  unfold formatMainType renderType
  rw [intercalate_eq_renderMembers]

/-- Claim C16: the type string is the rendering of the primary type followed by the
renderings of the other reachable types, in strictly ascending lexicographic order of
their names (so each exactly once); a type is rendered as its name, "(", its members in
declared order each as type, blank, name, joined by "," with no trailing separator,
")". -/
theorem encodeType_canonical (E : Env) (primaryType : Bytes) (types : Dict) :
    ∃ deps : List Bytes,
      deps.Sorted (fun a b => a < b) ∧
      (∀ t, t ∈ deps ↔ (Reachable types primaryType t ∧ t ≠ primaryType)) ∧
      encodeType E primaryType types
        = renderType primaryType (types.members primaryType) ++
          (deps.map fun t => renderType t (types.members t)).flatten := by
  obtain ⟨r, _, haux, e⟩ := findDependencies_run types primaryType []
  refine ⟨sortStrings ((E.mapRange (findDependencies primaryType types [])).filter
      fun dep => dep != primaryType), ?_, ?_, ?_⟩
  · have hsorted : (sortStrings ((E.mapRange (findDependencies primaryType types [])).filter
        fun dep => dep != primaryType)).Sorted (fun a b => a ≤ b) :=
      List.sorted_insertionSort _ _
    have hnodup : (sortStrings ((E.mapRange (findDependencies primaryType types [])).filter
        fun dep => dep != primaryType)).Nodup := by
      unfold sortStrings
      rw [(List.perm_insertionSort _ _).nodup_iff]
      apply List.Nodup.filter
      rw [(E.mapRange_perm _).nodup_iff, haux]
      exact e.nodup List.nodup_nil
    exact hsorted.lt_of_le hnodup
  · intro t
    unfold sortStrings
    rw [List.mem_insertionSort, List.mem_filter, (E.mapRange_perm _).mem_iff, haux, e.mem_iff]
    simp
  · rw [encodeType_eq, formatMainType_eq_renderType]
    congr 2
    apply List.map_congr_left
    intro t _
    exact formatMainType_eq_renderType t types

/-- Witness of C14 amended: the instance on the cyclic dictionary `twinDict`, searched
from `C`. -/
theorem findDependencies_exact_witness :
    (∀ t, t ∈ findDependencies (ascii "C") twinDict [] ↔ Reachable twinDict (ascii "C") t) ∧
    (∀ t ∈ findDependencies (ascii "C") twinDict [], twinDict.has t = true) ∧
    (findDependencies (ascii "C") twinDict []).Nodup ∧
    (ascii "C" ∈ findDependencies (ascii "C") twinDict [] ↔ twinDict.has (ascii "C") = true) ∧
    (twinDict.has (ascii "C") = false → findDependencies (ascii "C") twinDict [] = []) :=
  findDependencies_exact twinDict (ascii "C")

/-- C14, counterexample: `Ghost` and `string` are not keys of the wallet dictionary of
the test; the search from either returns the empty set, so the primary type is not in
the result. -/
theorem findDependencies_omits_undeclared_primaryType :
    walletTypes.has (ascii "Ghost") = false ∧
    findDependencies (ascii "Ghost") walletTypes [] = [] ∧
    ascii "Ghost" ∉ findDependencies (ascii "Ghost") walletTypes [] ∧
    walletTypes.has (ascii "string") = false ∧
    findDependencies (ascii "string") walletTypes [] = [] ∧
    ascii "string" ∉ findDependencies (ascii "string") walletTypes [] := by
  decide

/-! ## JSON export and import -/

theorem readN_append : ∀ (s rest : List Nat), readN s.length (s ++ rest) = some (s, rest)
  | [], _ => rfl
  | t :: s, rest => by
    show (readN s.length (s ++ rest)).map (fun r => (t :: r.1, r.2)) = some (t :: s, rest)
    rw [readN_append s rest]
    rfl

set_option maxRecDepth 100000 in
/-- The sample codec reads its text of the signed transfer record back with the amount
as a `float64`. -/
theorem sampleJSON_millionSigned (sig : Bytes) :
    sampleJSON.unmarshal (writeBytes sig ++ millionSigned.write)
      = .ok { Data := millionSigned.viaJSON, Signature := sig } := by
  show (match readBytes (sig.length :: (sig ++ _)) with
    | none => _
    | some (signature, tokens) => _) = _
  have hread : ∀ rest, readBytes (sig.length :: (sig ++ rest)) = some (sig, rest) :=
    fun rest => readN_append sig rest
  rw [hread]
  rfl

/-- The struct hash of a transfer message under the working dictionary of
`millionData`: the amount enters through its `%v` rendering. -/
theorem hashStruct_transfer (E : Env) (fuel : Nat) (amount : Value) :
    hashStruct E (fuel + 1) (ascii "Transfer") [(ascii "amount", amount)]
        (workingTypes millionData.Types)
      = some (.ok (E.sha256
          (E.sha256 (encodeType E (ascii "Transfer") (workingTypes millionData.Types))
            ++ E.sha256 (sprintV E amount)))) := by
  have hmem : (workingTypes millionData.Types).members (ascii "Transfer")
      = [⟨ascii "amount", ascii "uint256"⟩] := by decide
  rw [hashStruct_of_primitive_members E fuel _ _ _ (by
    intro member hm
    rw [hmem, List.mem_singleton] at hm
    subst hm
    exact ⟨by decide, by decide⟩)]
  have a : ascii "uint256" ≠ ascii "string" := by decide
  have b : ascii "uint256" ≠ ascii "address" := by decide
  simp [hmem, primitiveData, a, b, Object.get, List.lookup_cons]

/-- The digest of a transfer record whose dictionary is that of `millionData`, before
or after `HashTypedData` has stored the `"TypedDomain"` entry in it: the domain hash is
the same for every amount. -/
theorem HashTypedData_transfer (E : Env) (fuel : Nat) :
    ∃ domainHash, ∀ (types : Option Dict) (amount : Value),
      workingTypes types = workingTypes millionData.Types →
      HashTypedData E (fuel + 1)
          { millionData with Types := types, Message := [(ascii "amount", amount)] }
        = some
          { digest := E.sha256 (signingBody (domainHash ++ E.sha256
              (E.sha256 (encodeType E (ascii "Transfer") (workingTypes millionData.Types))
                ++ E.sha256 (sprintV E amount))))
            err := none
            callerTypes := types.map fun _ => workingTypes millionData.Types } := by
  refine ⟨E.sha256 (E.sha256 (encodeType E (ascii "TypedDomain")
          (workingTypes millionData.Types))
          ++ E.sha256 millionData.Domain.Name ++ E.sha256 millionData.Domain.Version
          ++ E.sha256 (formatInt millionData.Domain.ChainID)), ?_⟩
  intro types amount htypes
  have hd := hashStruct_domain E fuel millionData.Domain (workingTypes millionData.Types)
    (by decide) (by decide) (by decide)
  have hm := hashStruct_transfer E fuel amount
  refine (HashTypedData_eq_some E (fuel + 1) _ _).2
    ⟨.ok (E.sha256 (E.sha256 (encodeType E (ascii "TypedDomain")
          (workingTypes millionData.Types))
          ++ E.sha256 millionData.Domain.Name ++ E.sha256 millionData.Domain.Version
          ++ E.sha256 (formatInt millionData.Domain.ChainID))),
     .ok (E.sha256
          (E.sha256 (encodeType E (ascii "Transfer") (workingTypes millionData.Types))
            ++ E.sha256 (sprintV E amount))), ?_, ?_, ?_⟩
  · show hashStruct E (fuel + 1) (ascii "TypedDomain") millionData.Domain.ToMap
      (workingTypes types) = _
    rw [htypes]
    exact hd
  · show hashStruct E (fuel + 1) (ascii "Transfer") [(ascii "amount", amount)]
      (workingTypes types) = _
    rw [htypes]
    exact hm
  · show _ = HashOutcome.mk _ _ (types.map fun _ => workingTypes types)
    rw [htypes]
    rfl

theorem transfer_digest_ne (E : Env) (hcf : CollisionFree E.sha256) (domainHash typeHash : Bytes) :
    E.sha256 (signingBody (domainHash ++ E.sha256
        (typeHash ++ E.sha256 (sprintV E (Value.int 1000000)))))
      ≠ E.sha256 (signingBody (domainHash ++ E.sha256
        (typeHash ++ E.sha256 (sprintV E (Value.float (Float64.ofInt 1000000)))))) := by
  intro h
  have h1 := List.append_cancel_left (signingBody_injective _ _ (hcf.inj h))
  have h2 := hcf.inj (List.append_cancel_left (hcf.inj h1))
  have hrender : formatInt 1000000 ≠ formatFloat (Float64.ofInt 1000000) := by decide
  exact hrender h2

theorem sampleEnv_ed25519 (s message : Bytes) (hs : s.length = 32) :
    (sampleEnv.ed25519Public s).length = 32 ∧
      sampleEnv.ed25519Verify (sampleEnv.ed25519Public s) message
        (sampleEnv.ed25519Sign s message) = true := by
  refine ⟨hs, ?_⟩
  show (s ++ message == s ++ message) = true
  exact beq_self_eq_true _

theorem sampleEnv_ed25519_binding (s m1 m2 : Bytes) (_ : s.length = 32) (hne : m1 ≠ m2) :
    sampleEnv.ed25519Verify (sampleEnv.ed25519Public s) m2 (sampleEnv.ed25519Sign s m1)
      = false := by
  show (s ++ m1 == s ++ m2) = false
  rw [beq_eq_false_iff_ne]
  exact fun h => hne (List.append_cancel_left h)

/-- C20: the JSON round trip rejects a valid signature.  For the transfer record with
the integer amount 1000000, under every environment whose hash is collision-free, whose
base64 decodes what it encodes and whose signatures verify on the signed digest and on
no other, and for every 32-byte seed: `SignTypedData` returns a signature and leaves
the record as `millionSigned`; `VerifyTypedData` accepts that signature on the record in
memory; but for every JSON codec that reads the exported text back with the amount as
the `float64` 1000000 (as `encoding/json` does for an `interface{}`), `VerifyFromJSON`
answers `false` with a nil error, whether the record was exported before or after the
call of `SignTypedData` stored the domain type in its map. -/
theorem json_round_trip_rejects_integer_amount (E : Env) (fuel : Nat) (seed : Bytes)
    (hcf : CollisionFree E.sha256)
    (hb64 : ∀ b, E.b64dec (E.b64enc b) = b)
    (hed : ∀ s message, s.length = 32 → (E.ed25519Public s).length = 32 ∧
      E.ed25519Verify (E.ed25519Public s) message (E.ed25519Sign s message) = true)
    (hbind : ∀ s m1 m2, s.length = 32 → m1 ≠ m2 →
      E.ed25519Verify (E.ed25519Public s) m2 (E.ed25519Sign s m1) = false)
    (hseed : seed.length = 32) :
    sprintV E (Value.int 1000000) = ascii "1000000" ∧
    sprintV E (Value.float (Float64.ofInt 1000000)) = ascii "1e+06" ∧
    ∃ sig,
      SignTypedData E (fuel + 1) millionData (E.b64enc seed) = some (sig, none) ∧
      (HashTypedData E (fuel + 1) millionData).map (fun h => h.callerTypes)
        = some millionSigned.Types ∧
      VerifyTypedData E (fuel + 1) millionSigned sig (E.b64enc (E.ed25519Public seed))
        = some (true, none) ∧
      ∀ (J : JSONCodec) (exported : TypedData) (payloadJSON : Bytes),
        exported = millionData ∨ exported = millionSigned →
        ExportToJSON J exported sig = .ok payloadJSON →
        J.unmarshal payloadJSON = .ok { Data := exported.viaJSON, Signature := sig } →
        VerifyFromJSON E J (fuel + 1) payloadJSON (E.b64enc (E.ed25519Public seed))
          = some (false, none) := by
  obtain ⟨domainHash, hhash⟩ := HashTypedData_transfer E fuel
  have h1 : HashTypedData E (fuel + 1) millionData = some _ :=
    hhash millionData.Types (Value.int 1000000) rfl
  have h2 : HashTypedData E (fuel + 1) millionSigned = some _ :=
    hhash millionSigned.Types (Value.int 1000000) (workingTypes_idem _)
  have h3 : HashTypedData E (fuel + 1) millionData.viaJSON = some _ :=
    hhash millionData.Types (Value.float (Float64.ofInt 1000000)) rfl
  have h4 : HashTypedData E (fuel + 1) millionSigned.viaJSON = some _ :=
    hhash millionSigned.Types (Value.float (Float64.ofInt 1000000)) (workingTypes_idem _)
  have hne := transfer_digest_ne E hcf domainHash
    (E.sha256 (encodeType E (ascii "Transfer") (workingTypes millionData.Types)))
  have hpk : (E.ed25519Public seed).length = 32 := (hed seed [] hseed).1
  have hint : formatInt 1000000 = ascii "1000000" := by decide
  have hfloat : formatFloat (Float64.ofInt 1000000) = ascii "1e+06" := by decide
  refine ⟨hint, hfloat,
    E.b64enc (E.ed25519Sign seed (E.sha256 (signingBody (domainHash ++ E.sha256
      (E.sha256 (encodeType E (ascii "Transfer") (workingTypes millionData.Types))
        ++ E.sha256 (sprintV E (Value.int 1000000))))))), ?_, ?_, ?_, ?_⟩
  · simp only [SignTypedData, h1, hb64, hseed, if_true]
  · rw [h1]; rfl
  · simp only [VerifyTypedData, h2, hb64, hpk, (hed seed _ hseed).2, if_true]
  · intro J exported payloadJSON hexported _ hdecode
    unfold VerifyFromJSON
    rw [hdecode]
    rcases hexported with rfl | rfl
    · simp only [VerifyTypedData, h3, hb64, hpk, if_true,
        hbind seed _ _ hseed hne]
    · simp only [VerifyTypedData, h4, hb64, hpk, if_true,
        hbind seed _ _ hseed hne]

/-- Witness of C20 under the sample environment and the sample codec: the signature
made in memory under the seed of the test is valid for the record in memory, and the
text that `ExportToJSON` writes for the signed record is rejected by
`VerifyFromJSON`. -/
theorem json_round_trip_rejects_integer_amount_witness :
    ∃ sig,
      SignTypedData sampleEnv 1 millionData (sampleEnv.b64enc testSeed) = some (sig, none) ∧
      VerifyTypedData sampleEnv 1 millionSigned sig
        (sampleEnv.b64enc (sampleEnv.ed25519Public testSeed)) = some (true, none) ∧
      ∃ payloadJSON,
        ExportToJSON sampleJSON millionSigned sig = .ok payloadJSON ∧
        VerifyFromJSON sampleEnv sampleJSON 1 payloadJSON
          (sampleEnv.b64enc (sampleEnv.ed25519Public testSeed)) = some (false, none) := by
  obtain ⟨_, _, sig, hsign, _, hverify, hjson⟩ :=
    json_round_trip_rejects_integer_amount sampleEnv 0 testSeed sampleEnv_collisionFree
      (fun _ => rfl) sampleEnv_ed25519 sampleEnv_ed25519_binding (by decide)
  exact ⟨sig, hsign, hverify, writeBytes sig ++ millionSigned.write, rfl,
    hjson sampleJSON millionSigned (writeBytes sig ++ millionSigned.write) (Or.inr rfl) rfl
      (sampleJSON_millionSigned sig)⟩

set_option maxRecDepth 100000 in
/-- The sample codec reads its text of the signed record of the test back as it was. -/
theorem sampleJSON_helloSigned (sig : Bytes) :
    sampleJSON.unmarshal (writeBytes sig ++ helloSigned.write)
      = .ok { Data := helloSigned, Signature := sig } := by
  show (match readBytes (sig.length :: (sig ++ _)) with
    | none => _
    | some (signature, tokens) => _) = _
  have hread : ∀ rest, readBytes (sig.length :: (sig ++ rest)) = some (sig, rest) :=
    fun rest => readN_append sig rest
  rw [hread]
  rfl

/-- The flow of `TestOSM15_JSONFlowAndSigner` under the sample environment and the
sample codec: the record has no number in its message, the exported text is read back
as the record itself, and `VerifyFromJSON` accepts the signature. -/
theorem VerifyFromJSON_accepts_helloData :
    helloSigned.viaJSON = helloSigned ∧
    ∃ sig,
      SignTypedData sampleEnv 1 helloData (sampleEnv.b64enc testSeed) = some (sig, none) ∧
      ∃ payloadJSON,
        ExportToJSON sampleJSON helloSigned sig = .ok payloadJSON ∧
        VerifyFromJSON sampleEnv sampleJSON 1 payloadJSON
          (sampleEnv.b64enc (sampleEnv.ed25519Public testSeed)) = some (true, none) := by
  refine ⟨rfl, ?_⟩
  obtain ⟨h, hret⟩ := Option.isSome_iff_exists.1
    (show (HashTypedData sampleEnv 1 helloData).isSome = true by decide)
  have hcaller : h.callerTypes = helloSigned.Types := by
    obtain ⟨_, _, _, _, rfl⟩ := (HashTypedData_eq_some sampleEnv 1 helloData h).1 hret
    rfl
  obtain ⟨sig, hsign, _, hverify⟩ := sign_verify_of_hash_returns sampleEnv 1 helloData testSeed
    h hret (by decide) (fun _ => rfl) (fun s message hs => sampleEnv_ed25519 s message hs)
  rw [hcaller] at hverify
  refine ⟨sig, hsign, writeBytes sig ++ helloSigned.write, rfl, ?_⟩
  unfold VerifyFromJSON
  rw [sampleJSON_helloSigned]
  exact hverify

/-! ## Message keys that the type does not declare -/

/-- Claim C21: the struct hash reads the value map only under the member names declared
for the type.  Two value maps that agree under every declared member name have the
same struct hash (the same outcome of `hashStruct`, at every nesting bound); storing a
value under a key that the type does not declare leaves the struct hash as it was; and
two records that differ only in their messages, the messages agreeing under every
member name declared for the primary type, have the same outcome of `HashTypedData`,
digest included. -/
theorem undeclared_fields_not_authenticated (E : Env) (fuel : Nat) (typeName : Bytes)
    (types : Dict) :
    (∀ v1 v2 : Object,
      (∀ member ∈ types.members typeName, v1.get member.Name = v2.get member.Name) →
      hashStruct E fuel typeName v1 types = hashStruct E fuel typeName v2 types) ∧
    (∀ (v : Object) (key : Bytes) (value : Value),
      (∀ member ∈ types.members typeName, member.Name ≠ key) →
      hashStruct E fuel typeName (v.set key value) types = hashStruct E fuel typeName v types) ∧
    (∀ (domain : TypedDomain) (callerTypes : Option Dict) (v1 v2 : Object),
      workingTypes callerTypes = types →
      (∀ member ∈ types.members typeName, v1.get member.Name = v2.get member.Name) →
      HashTypedData E fuel ⟨domain, callerTypes, typeName, v1⟩
        = HashTypedData E fuel ⟨domain, callerTypes, typeName, v2⟩) := by
  have hagree : ∀ v1 v2 : Object,
      (∀ member ∈ types.members typeName, v1.get member.Name = v2.get member.Name) →
      hashStruct E fuel typeName v1 types = hashStruct E fuel typeName v2 types := by
    intro v1 v2 h
    apply hashStruct_congr
    intro member hm
    rw [h member hm]
  refine ⟨hagree, ?_, ?_⟩
  · intro v key value hkey
    apply hagree
    intro member hm
    rw [Object.get_set, if_neg (hkey member hm)]
  · intro domain callerTypes v1 v2 htypes h
    apply HashTypedData_congr_message E fuel ⟨domain, callerTypes, typeName, v1⟩
      ⟨domain, callerTypes, typeName, v2⟩ rfl rfl rfl
    show hashStruct E fuel typeName v1 (workingTypes callerTypes)
      = hashStruct E fuel typeName v2 (workingTypes callerTypes)
    rw [htypes]
    exact hagree v1 v2 h

/-- The instance of claim C21 on the mail record of the test: with the undeclared key
`memo` added to the message, `HashTypedData` returns the digest it returns without. -/
theorem undeclared_fields_not_authenticated_witness :
    (HashTypedData sampleEnv 2 (mailData (ascii "AppA"))).isSome = true ∧
    HashTypedData sampleEnv 2 { mailData (ascii "AppA") with Message := mailMessageWithMemo }
      = HashTypedData sampleEnv 2 (mailData (ascii "AppA")) := by
  refine ⟨by decide, ?_⟩
  · refine (undeclared_fields_not_authenticated sampleEnv 2 (ascii "Mail")
      (workingTypes (mailData (ascii "AppA")).Types)).2.2 _ _ _ _ rfl ?_
    have hmem : (workingTypes (mailData (ascii "AppA")).Types).members (ascii "Mail")
        = [⟨ascii "content", ascii "string"⟩] := by decide
    intro member hm
    rw [hmem, List.mem_singleton] at hm
    subst hm
    rfl
/-! ## The signing text and the hashed body -/

theorem signingText_eq_signingBody (payloadBinary : Bytes) :
    signingText payloadBinary = signingBody payloadBinary := by
  unfold signingBody signingText
  have hp : TypedPrefix ++ [10] = signingTextPrefix := by decide
  rw [hp]

theorem hashedBody_eq_some (E : Env) (fuel : Nat) (data : TypedData) (body : Bytes) :
    hashedBody E fuel data = some body ↔
      ∃ domainRes messageRes,
        hashStruct E fuel (ascii "TypedDomain") data.Domain.ToMap (workingTypes data.Types)
          = some domainRes ∧
        hashStruct E fuel data.PrimaryType data.Message (workingTypes data.Types)
          = some messageRes ∧
        body = signingBody (Except.bytes domainRes ++ Except.bytes messageRes) := by
  unfold hashedBody
  dsimp only
  cases hashStruct E fuel (ascii "TypedDomain") data.Domain.ToMap (workingTypes data.Types) with
  | none => simp
  | some dr =>
    cases hashStruct E fuel data.PrimaryType data.Message (workingTypes data.Types) with
    | none => simp
    | some mr =>
      simp only [Option.some.injEq, exists_and_left, exists_eq_left']
      exact eq_comm

theorem GetSigningText_eq_some (E : Env) (fuel : Nat) (data : TypedData) (text : Bytes)
    (err : Option Bytes) :
    GetSigningText E fuel data = some (text, err) ↔
      ∃ domainRes messageRes,
        hashStruct E fuel (ascii "TypedDomain") data.Domain.ToMap (data.Types.getD [])
          = some domainRes ∧
        hashStruct E fuel data.PrimaryType data.Message (data.Types.getD [])
          = some messageRes ∧
        text = signingText (Except.bytes domainRes ++ Except.bytes messageRes) ∧
        err = none := by
  unfold GetSigningText
  dsimp only
  cases hashStruct E fuel (ascii "TypedDomain") data.Domain.ToMap (data.Types.getD []) with
  | none => simp
  | some dr =>
    cases hashStruct E fuel data.PrimaryType data.Message (data.Types.getD []) with
    | none => simp
    | some mr =>
      simp only [Option.some.injEq, Prod.mk.injEq, exists_and_left, exists_eq_left']
      constructor
      · rintro ⟨h1, h2⟩; exact ⟨h1.symm, h2.symm⟩
      · rintro ⟨h1, h2⟩; exact ⟨h1.symm, h2.symm⟩

/-- The digest that `HashTypedData` returns is the hash of `hashedBody`. -/
theorem HashTypedData_eq_hashedBody (E : Env) (fuel : Nat) (data : TypedData) :
    HashTypedData E fuel data
      = (hashedBody E fuel data).map fun body =>
          { digest := E.sha256 body
            err := none
            callerTypes := data.Types.map fun _ => workingTypes data.Types } := by
  unfold HashTypedData hashedBody
  dsimp only
  cases hashStruct E fuel (ascii "TypedDomain") data.Domain.ToMap (workingTypes data.Types) with
  | none => rfl
  | some dr =>
    cases hashStruct E fuel data.PrimaryType data.Message (workingTypes data.Types) with
    | none => rfl
    | some mr => rfl

theorem CollisionFree.ne_nil {H : Bytes → Bytes} (hcf : CollisionFree H) (x : Bytes) :
    H x ≠ [] := by
  intro h
  have hsep := hcf.sep x (0 :: x) (H (0 :: x)) [] (by rw [h]; simp)
  have hx := hcf.inj hsep
  have hlen := congrArg List.length hx
  simp at hlen

/-- The struct hash of a type without declared members, whatever the value map and the
nesting bound. -/
theorem hashStruct_of_no_members (E : Env) (fuel : Nat) (typeName : Bytes) (data : Object)
    (types : Dict) (hm : types.members typeName = []) :
    hashStruct E fuel typeName data types
      = some (.ok (E.sha256 (E.sha256 (encodeType E typeName types)))) := by
  rw [hashStruct_eq, hm]
  rfl

theorem Dict.members_of_not_has (types : Dict) (name : Bytes) (h : types.has name = false) :
    types.members name = [] := by
  unfold Dict.has at h
  unfold Dict.members
  cases hl : types.lookup name with
  | none => rfl
  | some ms => rw [hl] at h; cases h

/-- A successful struct hash is the hash of a buffer that starts with the type hash. -/
theorem hashStruct_ok_shape (E : Env) (fuel : Nat) (typeName : Bytes) (data : Object)
    (types : Dict) (r : Bytes) (h : hashStruct E fuel typeName data types = some (.ok r)) :
    ∃ more, r = E.sha256 (E.sha256 (encodeType E typeName types) ++ more) := by
  obtain ⟨buf, hw, rfl⟩ := (hashStruct_eq_ok E fuel typeName data types r).1 h
  obtain ⟨hs, _, rfl⟩ := (writeAll_eq_ok _ _ _).1 hw
  exact ⟨_, rfl⟩

theorem eq_of_append_paren (R : Bytes) :
    ∀ (T P : Bytes), 40 ∉ T → P ++ 40 :: R = T ++ [40, 41] → P = T ∧ R = [41]
  | [], [], _, h => by simpa using h
  | [], [p], _, h => by simp at h
  | [], p :: q :: P, _, h => by simp at h
  | t :: T, [], hT, h => by
    simp only [List.nil_append, List.cons_append, List.cons.injEq] at h
    exact absurd (by rw [← h.1]; exact List.mem_cons_self _ _) hT
  | t :: T, p :: P, hT, h => by
    simp only [List.cons_append, List.cons.injEq] at h
    obtain ⟨h1, h2⟩ := eq_of_append_paren R T P (fun hm => hT (List.mem_cons_of_mem _ hm)) h.2
    exact ⟨by rw [h.1, h1], h2⟩

/-- Under a dictionary that declares `TypedDomain` with the members that `HashTypedData`
stores, no type string is the string `TypedDomain()`. -/
theorem encodeType_ne_bare_domain (E : Env) (typeName : Bytes) (types : Dict)
    (hm : types.members (ascii "TypedDomain") = typedDomainMembers) :
    encodeType E typeName types ≠ ascii "TypedDomain()" := by
  intro h
  rw [encodeType_eq, formatMainType_head, List.append_assoc, List.cons_append] at h
  have hT : ascii "TypedDomain()" = ascii "TypedDomain" ++ [40, 41] := by decide
  rw [hT] at h
  obtain ⟨hname, hrest⟩ := eq_of_append_paren _ _ _ (by decide) h
  subst hname
  rw [hm] at hrest
  have hrender : (ascii ",").intercalate
      (typedDomainMembers.map fun member => member.Ty ++ ascii " " ++ member.Name)
      = ascii "string name,string version,uint256 chainId" := by decide
  have hs : ascii "string name,string version,uint256 chainId"
      = 115 :: ascii "tring name,string version,uint256 chainId" := by decide
  rw [hrender, hs] at hrest
  simp only [List.cons_append, List.cons.injEq] at hrest
  exact absurd hrest.1 (by decide)

/-- Without a `TypedDomain` key in the dictionary, the domain hash of `GetSigningText` is
the hash of the hash of the string `TypedDomain()`, whatever the domain. -/
theorem hashStruct_domain_of_not_has (E : Env) (fuel : Nat) (data : Object) (types : Dict)
    (hkey : types.has (ascii "TypedDomain") = false) :
    hashStruct E fuel (ascii "TypedDomain") data types
      = some (.ok (E.sha256 (E.sha256 (ascii "TypedDomain()")))) := by
  rw [hashStruct_of_no_members E fuel _ _ _ (Dict.members_of_not_has _ _ hkey),
    encodeType_of_not_has E _ _ hkey]
  rfl

theorem GetSigningText_congr_domain (E : Env) (fuel : Nat) (data : TypedData)
    (hkey : (data.Types.getD []).has (ascii "TypedDomain") = false)
    (domain1 domain2 : TypedDomain) :
    GetSigningText E fuel { data with Domain := domain1 }
      = GetSigningText E fuel { data with Domain := domain2 } := by
  unfold GetSigningText
  dsimp only
  rw [hashStruct_domain_of_not_has E fuel _ _ hkey, hashStruct_domain_of_not_has E fuel _ _ hkey]

theorem signingText_ne_hashedBody (E : Env) (hcf : CollisionFree E.sha256) (fuel : Nat)
    (data : TypedData) (hkey : (data.Types.getD []).has (ascii "TypedDomain") = false)
    (text body : Bytes) (err : Option Bytes)
    (ht : GetSigningText E fuel data = some (text, err))
    (hb : hashedBody E fuel data = some body) : text ≠ body := by
  obtain ⟨dG, mG, hdG, _, rfl, _⟩ := (GetSigningText_eq_some E fuel data text err).1 ht
  obtain ⟨dH, mH, hdH, hmH, rfl⟩ := (hashedBody_eq_some E fuel data body).1 hb
  rw [hashStruct_domain_of_not_has E fuel _ _ hkey] at hdG
  cases Option.some.inj hdG
  intro heq
  rw [signingText_eq_signingBody] at heq
  have hp := signingBody_injective _ _ heq
  have hW := workingTypes_members_domain data.Types
  cases dH with
  | ok x =>
    obtain ⟨more, rfl⟩ := hashStruct_ok_shape E fuel _ _ _ x hdH
    simp only [Except.bytes] at hp
    have h1 := (hcf.append_cancel _ _ _ _ hp).1
    have h2 := (hcf.append_cancel (ascii "TypedDomain()") _ [] more (by simpa using h1)).1
    exact encodeType_ne_bare_domain E _ _ hW h2.symm
  | error e =>
    cases mH with
    | error e2 =>
      simp only [Except.bytes, List.append_nil, List.append_eq_nil] at hp
      exact hcf.ne_nil _ hp.1
    | ok y =>
      obtain ⟨more, rfl⟩ := hashStruct_ok_shape E fuel _ _ _ y hmH
      simp only [Except.bytes, List.nil_append] at hp
      have h1 := (hcf.append_cancel _ _ _ [] (by simpa using hp)).1
      have h2 := (hcf.append_cancel (ascii "TypedDomain()") _ [] more (by simpa using h1)).1
      exact encodeType_ne_bare_domain E _ _ hW h2.symm

/-! ## Dictionaries with the same entries -/

theorem Dict.has_congr {t1 t2 : Dict} (h : ∀ k, t1.lookup k = t2.lookup k) (name : Bytes) :
    t1.has name = t2.has name := by
  unfold Dict.has
  rw [h]

theorem Dict.members_congr {t1 t2 : Dict} (h : ∀ k, t1.lookup k = t2.lookup k) (name : Bytes) :
    t1.members name = t2.members name := by
  unfold Dict.members
  rw [h]

theorem Reachable.congr {t1 t2 : Dict} (h : ∀ k, t1.lookup k = t2.lookup k) {a b : Bytes}
    (hr : Reachable t1 a b) : Reachable t2 a b := by
  induction hr with
  | start hk => exact Reachable.start (by rw [← Dict.has_congr h]; exact hk)
  | step member _ hm hk ih =>
    exact Reachable.step member ih (by rw [← Dict.members_congr h]; exact hm)
      (by rw [← Dict.has_congr h]; exact hk)

theorem findDependencies_perm_of_lookup {t1 t2 : Dict} (h : ∀ k, t1.lookup k = t2.lookup k)
    (name : Bytes) : (findDependencies name t1 []).Perm (findDependencies name t2 []) := by
  obtain ⟨r1, _, h1, e1⟩ := findDependencies_run t1 name []
  obtain ⟨r2, _, h2, e2⟩ := findDependencies_run t2 name []
  rw [h1, h2]
  apply (List.perm_ext_iff_of_nodup (e1.nodup List.nodup_nil) (e2.nodup List.nodup_nil)).2
  intro t
  rw [e1.mem_iff, e2.mem_iff]
  exact ⟨Reachable.congr h, Reachable.congr fun k => (h k).symm⟩

theorem formatMainType_congr_lookup {t1 t2 : Dict} (h : ∀ k, t1.lookup k = t2.lookup k)
    (name : Bytes) : formatMainType name t1 = formatMainType name t2 := by
  unfold formatMainType
  rw [Dict.members_congr h]

/-- The type string depends on the dictionary through its entries only. -/
theorem encodeType_congr_lookup (E : Env) {t1 t2 : Dict} (h : ∀ k, t1.lookup k = t2.lookup k)
    (name : Bytes) : encodeType E name t1 = encodeType E name t2 := by
  rw [encodeType_eq, encodeType_eq, formatMainType_congr_lookup h]
  have hp : ((E.mapRange (findDependencies name t1 [])).filter fun dep => dep != name).Perm
      ((E.mapRange (findDependencies name t2 [])).filter fun dep => dep != name) :=
    ((E.mapRange_perm _).trans
      ((findDependencies_perm_of_lookup h name).trans (E.mapRange_perm _).symm)).filter _
  rw [sortStrings_perm _ _ hp]
  congr 2
  apply List.map_congr_left
  intro dep _
  exact formatMainType_congr_lookup h dep

/-- The encoding of a value depends on the dictionary through its entries only. -/
theorem encodeValue_congr_lookup (E : Env) {t1 t2 : Dict}
    (h : ∀ k, t1.lookup k = t2.lookup k) :
    ∀ (fuel : Nat) (typeName : Bytes) (value : Value),
      encodeValue E fuel typeName value t1 = encodeValue E fuel typeName value t2
  | 0, _, _ => rfl
  | fuel + 1, typeName, value => by
    by_cases hsuffix : hasSuffix typeName (ascii "[]") = true
    · by_cases hv : ∃ xs, value = Value.slice xs
      · obtain ⟨xs, rfl⟩ := hv
        rw [encodeValue_array_of_slice E _ typeName xs t1 hsuffix,
          encodeValue_array_of_slice E _ typeName xs t2 hsuffix]
        have hmap : (xs.map fun x =>
              encodeValue E fuel (typeName.take (typeName.length - 2)) x t1)
            = xs.map fun x =>
              encodeValue E fuel (typeName.take (typeName.length - 2)) x t2 :=
          List.map_congr_left fun x _ => encodeValue_congr_lookup E h fuel _ x
        rw [hmap]
      · rw [encodeValue_array_of_nonslice E _ typeName value t1 hsuffix
            (fun xs hx => hv ⟨xs, hx⟩),
          encodeValue_array_of_nonslice E _ typeName value t2 hsuffix
            (fun xs hx => hv ⟨xs, hx⟩)]
    · have hsuffix : hasSuffix typeName (ascii "[]") = false := by simpa using hsuffix
      by_cases hkey : t1.has typeName = true
      · rw [encodeValue_struct E _ typeName value t1 hsuffix hkey,
          encodeValue_struct E _ typeName value t2 hsuffix
            (by rw [← Dict.has_congr h]; exact hkey),
          hashStruct_eq, hashStruct_eq, Dict.members_congr h, encodeType_congr_lookup E h]
        have hmap : ((t2.members typeName).map fun member =>
              encodeValue E fuel member.Ty (value.asMap.get member.Name) t1)
            = (t2.members typeName).map fun member =>
              encodeValue E fuel member.Ty (value.asMap.get member.Name) t2 :=
          List.map_congr_left fun member _ => encodeValue_congr_lookup E h fuel _ _
        rw [hmap]
      · have hkey : t1.has typeName = false := by simpa using hkey
        rw [encodeValue_primitive E _ typeName value t1 hsuffix hkey,
          encodeValue_primitive E _ typeName value t2 hsuffix
            (by rw [← Dict.has_congr h]; exact hkey)]

/-- The struct hash depends on the dictionary through its entries only. -/
theorem hashStruct_congr_lookup (E : Env) {t1 t2 : Dict} (h : ∀ k, t1.lookup k = t2.lookup k)
    (fuel : Nat) (typeName : Bytes) (data : Object) :
    hashStruct E fuel typeName data t1 = hashStruct E fuel typeName data t2 := by
  rw [hashStruct_eq, hashStruct_eq, Dict.members_congr h, encodeType_congr_lookup E h]
  have hmap : ((t2.members typeName).map fun member =>
        encodeValue E fuel member.Ty (data.get member.Name) t1)
      = (t2.members typeName).map fun member =>
        encodeValue E fuel member.Ty (data.get member.Name) t2 :=
    List.map_congr_left fun member _ => encodeValue_congr_lookup E h fuel _ _
  rw [hmap]

/-- When the dictionary already holds the entry that `HashTypedData` stores, the working
dictionary has the entries of the dictionary of the caller. -/
theorem workingTypes_lookup_of_domain (types : Option Dict)
    (hstd : (types.getD []).lookup (ascii "TypedDomain") = some typedDomainMembers)
    (k : Bytes) : (types.getD []).lookup k = (workingTypes types).lookup k := by
  unfold workingTypes
  rw [Dict.lookup_set]
  by_cases hk : k = ascii "TypedDomain"
  · rw [if_pos hk, hk, hstd]
  · rw [if_neg hk]

/-- When the dictionary already holds the entry that `HashTypedData` stores, the text of
`GetSigningText` is the body that `HashTypedData` hashes. -/
theorem GetSigningText_eq_hashedBody (E : Env) (fuel : Nat) (data : TypedData)
    (hstd : (data.Types.getD []).lookup (ascii "TypedDomain") = some typedDomainMembers) :
    GetSigningText E fuel data = (hashedBody E fuel data).map fun body => (body, none) := by
  unfold GetSigningText hashedBody
  dsimp only
  rw [hashStruct_congr_lookup E (workingTypes_lookup_of_domain data.Types hstd) fuel
      (ascii "TypedDomain"),
    hashStruct_congr_lookup E (workingTypes_lookup_of_domain data.Types hstd) fuel
      data.PrimaryType]
  cases hashStruct E fuel (ascii "TypedDomain") data.Domain.ToMap (workingTypes data.Types) with
  | none => rfl
  | some dr =>
    cases hashStruct E fuel data.PrimaryType data.Message (workingTypes data.Types) with
    | none => rfl
    | some mr =>
      simp only [Option.map_some', signingText_eq_signingBody]

/-! ## The signing text against the hashed body -/

theorem hashStruct_of_failing_head (E : Env) (fuel : Nat) (typeName : Bytes) (data : Object)
    (types : Dict) (member : TypedMember) (rest : List TypedMember) (e : Bytes)
    (hm : types.members typeName = member :: rest)
    (he : encodeValue E fuel member.Ty (data.get member.Name) types = some (.error e)) :
    hashStruct E fuel typeName data types = some (.error e) := by
  rw [hashStruct_eq, hm]
  simp only [List.map_cons, he]
  rfl

/-- Under a dictionary that declares `string` as a record type with the array member
`items`, a value that is not a mapping is rejected under the type `string`. -/
theorem encodeValue_shadowed_string (E : Env) (fuel : Nat) (value : Value) (types : Dict)
    (hm : types.members (ascii "string") = [⟨ascii "items", ascii "bytes[]"⟩])
    (hkey : types.has (ascii "string") = true) (hv : value.asMap = []) :
    encodeValue E (fuel + 2) (ascii "string") value types
      = some (.error (ascii "expected slice for type bytes[]")) := by
  rw [encodeValue_struct E _ _ value types (by decide) hkey, hv]
  apply hashStruct_of_failing_head E _ _ _ _ _ _ _ hm
  exact encodeValue_array_of_nonslice E fuel _ _ _ (by decide) (by intro xs h; cases h)

/-- On `otherDomainData` both domain hashes fail and are dropped and the message hashes
are the same, under every environment: the text of `GetSigningText` is the body that
`HashTypedData` hashes. -/
theorem otherDomainData_agreement (E : Env) (fuel : Nat) :
    (otherDomainData.Types.getD []).lookup (ascii "TypedDomain")
      = some [⟨ascii "label", ascii "string"⟩] ∧
    (otherDomainData.Types.getD []).lookup (ascii "TypedDomain") ≠ some typedDomainMembers ∧
    GetSigningText E (fuel + 2) otherDomainData
      = some (signingText (E.sha256 (E.sha256 (ascii "Msg()"))), none) ∧
    hashedBody E (fuel + 2) otherDomainData
      = some (signingText (E.sha256 (E.sha256 (ascii "Msg()")))) ∧
    (HashTypedData E (fuel + 2) otherDomainData).map (fun h => h.digest)
      = some (E.sha256 (signingText (E.sha256 (E.sha256 (ascii "Msg()"))))) := by
  have herr : ∀ types : Dict,
      types.members (ascii "string") = [⟨ascii "items", ascii "bytes[]"⟩] →
      types.has (ascii "string") = true →
      ∀ (member : TypedMember) (rest : List TypedMember),
        types.members (ascii "TypedDomain") = member :: rest → member.Ty = ascii "string" →
        (otherDomainData.Domain.ToMap.get member.Name).asMap = [] →
        hashStruct E (fuel + 2) (ascii "TypedDomain") otherDomainData.Domain.ToMap types
          = some (.error (ascii "expected slice for type bytes[]")) := by
    intro types hm hkey member rest hmd hty hv
    apply hashStruct_of_failing_head E _ _ _ _ _ _ _ hmd
    rw [hty]
    exact encodeValue_shadowed_string E fuel _ types hm hkey hv
  have hmsg : ∀ types : Dict, types.has (ascii "Msg") = false →
      hashStruct E (fuel + 2) (ascii "Msg") [] types
        = some (.ok (E.sha256 (E.sha256 (ascii "Msg()")))) := by
    intro types hkey
    rw [hashStruct_of_no_members E _ _ _ _ (Dict.members_of_not_has _ _ hkey),
      encodeType_of_not_has E _ _ hkey]
    rfl
  have hdG := herr (otherDomainData.Types.getD []) (by decide) (by decide)
    ⟨ascii "label", ascii "string"⟩ [] (by decide) rfl rfl
  have hdH := herr (workingTypes otherDomainData.Types) (by decide) (by decide)
    ⟨ascii "name", ascii "string"⟩ _ (workingTypes_members_domain _) rfl rfl
  have hmG := hmsg (otherDomainData.Types.getD []) (by decide)
  have hmH := hmsg (workingTypes otherDomainData.Types) (by decide)
  have hbody : hashedBody E (fuel + 2) otherDomainData
      = some (signingText (E.sha256 (E.sha256 (ascii "Msg()")))) :=
    (hashedBody_eq_some E _ _ _).2 ⟨_, _, hdH, hmH, signingText_eq_signingBody _⟩
  refine ⟨by decide, by decide, ?_, hbody, ?_⟩
  · exact (GetSigningText_eq_some E _ _ _ _).2 ⟨_, _, hdG, hmG, rfl, rfl⟩
  · rw [HashTypedData_eq_hashedBody, hbody]
    rfl

/-- C22, failing input: the dictionary of `otherDomainData` maps `TypedDomain` to a
single member `label` of type `string`, not to the members that `HashTypedData` stores,
and declares `string` as a record type with an array member.  Under the sample
environment both domain hashes fail with "expected slice for type bytes[]", both errors
are dropped, the message hashes are the same, and the text of `GetSigningText` is the
body that `HashTypedData` hashes, although the dictionary does not map `TypedDomain` to
the members `string name`, `string version`, `uint256 chainId`. -/
theorem signing_text_agrees_under_other_domain_declaration :
    (otherDomainData.Types.getD []).lookup (ascii "TypedDomain")
      = some [⟨ascii "label", ascii "string"⟩] ∧
    (otherDomainData.Types.getD []).lookup (ascii "TypedDomain") ≠ some typedDomainMembers ∧
    GetSigningText sampleEnv 2 otherDomainData
      = some (signingText (sampleEnv.sha256 (sampleEnv.sha256 (ascii "Msg()"))), none) ∧
    hashedBody sampleEnv 2 otherDomainData
      = some (signingText (sampleEnv.sha256 (sampleEnv.sha256 (ascii "Msg()")))) ∧
    (HashTypedData sampleEnv 2 otherDomainData).map (fun h => h.digest)
      = some (sampleEnv.sha256
          (signingText (sampleEnv.sha256 (sampleEnv.sha256 (ascii "Msg()"))))) :=
  otherDomainData_agreement sampleEnv 0

/-- For every record whose dictionary has no `TypedDomain` key, the
outcome of `GetSigningText` is the same for every domain; under a collision-free hash
the text it returns is not the body that `HashTypedData` hashes for that record, and
the hash of the text is not the digest.  For a record whose dictionary already maps
`TypedDomain` to the members `string name`, `string version`, `uint256 chainId`, the
text of `GetSigningText` is the body that `HashTypedData` hashes. -/
theorem GetSigningText_ignores_domain (E : Env) (hcf : CollisionFree E.sha256) (fuel : Nat)
    (data : TypedData) :
    ((data.Types.getD []).has (ascii "TypedDomain") = false →
      (∀ domain1 domain2 : TypedDomain,
        GetSigningText E fuel { data with Domain := domain1 }
          = GetSigningText E fuel { data with Domain := domain2 }) ∧
      (∀ text err body, GetSigningText E fuel data = some (text, err) →
        hashedBody E fuel data = some body → text ≠ body) ∧
      (∀ text err h, GetSigningText E fuel data = some (text, err) →
        HashTypedData E fuel data = some h → E.sha256 text ≠ h.digest)) ∧
    ((data.Types.getD []).lookup (ascii "TypedDomain") = some typedDomainMembers →
      GetSigningText E fuel data = (hashedBody E fuel data).map fun body => (body, none)) := by
  refine ⟨fun hkey => ⟨GetSigningText_congr_domain E fuel data hkey,
    fun text err body => signingText_ne_hashedBody E hcf fuel data hkey text body err, ?_⟩,
    GetSigningText_eq_hashedBody E fuel data⟩
  intro text err h ht hh heq
  rw [HashTypedData_eq_hashedBody] at hh
  rcases Option.eq_none_or_eq_some (hashedBody E fuel data) with hb | ⟨body, hb⟩
  · rw [hb] at hh; cases hh
  · rw [hb] at hh
    cases Option.some.inj hh
    exact signingText_ne_hashedBody E hcf fuel data hkey text body err ht hb (hcf.inj heq)

/-- The mail record of the test under the sample environment:
both calls return; as the test passes the record, without a `TypedDomain` key, the text
does not depend on the domain and is not the hashed body; with the dictionary as
`HashTypedData` leaves it, the text is the hashed body. -/
theorem GetSigningText_ignores_domain_witness :
    (GetSigningText sampleEnv 2 (mailData (ascii "AppA"))).isSome = true ∧
    (hashedBody sampleEnv 2 (mailData (ascii "AppA"))).isSome = true ∧
    ((∀ domain1 domain2 : TypedDomain,
        GetSigningText sampleEnv 2 { mailData (ascii "AppA") with Domain := domain1 }
          = GetSigningText sampleEnv 2 { mailData (ascii "AppA") with Domain := domain2 }) ∧
      (∀ text err body, GetSigningText sampleEnv 2 (mailData (ascii "AppA")) = some (text, err) →
        hashedBody sampleEnv 2 (mailData (ascii "AppA")) = some body → text ≠ body) ∧
      (∀ text err h, GetSigningText sampleEnv 2 (mailData (ascii "AppA")) = some (text, err) →
        HashTypedData sampleEnv 2 (mailData (ascii "AppA")) = some h →
        sampleEnv.sha256 text ≠ h.digest)) ∧
    GetSigningText sampleEnv 2
        { mailData (ascii "AppA") with
          Types := some (workingTypes (mailData (ascii "AppA")).Types) }
      = (hashedBody sampleEnv 2
        { mailData (ascii "AppA") with
          Types := some (workingTypes (mailData (ascii "AppA")).Types) }).map
        fun body => (body, none) :=
  ⟨by decide, by decide,
   (GetSigningText_ignores_domain sampleEnv sampleEnv_collisionFree 2
      (mailData (ascii "AppA"))).1 (by decide),
   (GetSigningText_ignores_domain sampleEnv sampleEnv_collisionFree 2
      { mailData (ascii "AppA") with
        Types := some (workingTypes (mailData (ascii "AppA")).Types) }).2 (by decide)⟩

/-! ## When the signing text is the hashed body -/

theorem flatten_hash_inj_any {H : Bytes → Bytes} (hcf : CollisionFree H) :
    ∀ hs1 hs2 : List Bytes,
      (∀ h ∈ hs1, ∃ x, h = H x) → (∀ h ∈ hs2, ∃ x, h = H x) →
      hs1.flatten = hs2.flatten → hs1 = hs2
  | [], [], _, _, _ => rfl
  | [], b :: r2, _, h2, hf => by
    obtain ⟨y, rfl⟩ := h2 b (List.mem_cons_self _ _)
    simp only [List.flatten_nil, List.flatten_cons] at hf
    exact absurd (List.append_eq_nil.1 hf.symm).1 (hcf.ne_nil y)
  | a :: r1, [], h1, _, hf => by
    obtain ⟨x, rfl⟩ := h1 a (List.mem_cons_self _ _)
    simp only [List.flatten_nil, List.flatten_cons] at hf
    exact absurd (List.append_eq_nil.1 hf).1 (hcf.ne_nil x)
  | a :: r1, b :: r2, h1, h2, hf => by
    obtain ⟨x, rfl⟩ := h1 a (List.mem_cons_self _ _)
    obtain ⟨y, rfl⟩ := h2 b (List.mem_cons_self _ _)
    simp only [List.flatten_cons] at hf
    obtain ⟨hxy, hrest⟩ := hcf.append_cancel x y _ _ hf
    subst hxy
    rw [flatten_hash_inj_any hcf r1 r2
      (fun h hh => h1 h (List.mem_cons_of_mem _ hh))
      (fun h hh => h2 h (List.mem_cons_of_mem _ hh)) hrest]

/-- A successful struct hash is the hash of the type hash followed by one hash for each
declared member. -/
theorem hashStruct_ok_parts (E : Env) (fuel : Nat) (typeName : Bytes) (data : Object)
    (types : Dict) (r : Bytes) (h : hashStruct E fuel typeName data types = some (.ok r)) :
    ∃ hs : List Bytes, hs.length = (types.members typeName).length ∧
      (∀ x ∈ hs, ∃ y, x = E.sha256 y) ∧
      r = E.sha256 (E.sha256 (encodeType E typeName types) ++ hs.flatten) := by
  obtain ⟨buf, hw, rfl⟩ := (hashStruct_eq_ok E fuel typeName data types r).1 h
  obtain ⟨hs, hmap, rfl⟩ := (writeAll_eq_ok _ _ _).1 hw
  refine ⟨hs, ?_, ?_, rfl⟩
  · have := congrArg List.length hmap
    simpa using this.symm
  · intro x hx
    have hmem : (some (.ok x) : Res) ∈ hs.map fun h => (some (.ok h) : Res) :=
      List.mem_map.2 ⟨x, hx, rfl⟩
    rw [← hmap] at hmem
    obtain ⟨member, _, hm⟩ := List.mem_map.1 hmem
    exact encodeValue_ok_range E fuel _ _ types x hm

/-- The type string of a type none of whose members refers to a key of the dictionary is
the rendering of the type alone. -/
theorem encodeType_of_leaf (E : Env) (typeName : Bytes) (types : Dict)
    (hleaf : ∀ member ∈ types.members typeName,
      types.has (trimSuffix member.Ty (ascii "[]")) = false) :
    encodeType E typeName types = formatMainType typeName types := by
  obtain ⟨r, _, haux, e⟩ := findDependencies_run types typeName []
  have hreach : ∀ t, Reachable types typeName t → t = typeName := by
    intro t ht
    induction ht with
    | start _ => rfl
    | step member _ hm hk ih =>
      rw [ih] at hm
      rw [hleaf member hm] at hk
      cases hk
  have hnil : ((E.mapRange (findDependencies typeName types [])).filter
      fun dep => dep != typeName) = [] := by
    rw [List.filter_eq_nil_iff]
    intro a ha
    rw [(E.mapRange_perm _).mem_iff, haux, e.mem_iff] at ha
    simp [hreach a ha]
  rw [encodeType_eq, hnil]
  simp [sortStrings]

theorem eq_of_append_open (R R' : Bytes) :
    ∀ (T P : Bytes), 40 ∉ T → 40 ∉ R' → P ++ 40 :: R = T ++ 40 :: R' → P = T ∧ R = R'
  | [], [], _, _, h => by simpa using h
  | [], p :: P, _, hR, h => by
    simp only [List.nil_append, List.cons_append, List.cons.injEq] at h
    exact absurd (by rw [← h.2]; simp) hR
  | t :: T, [], hT, _, h => by
    simp only [List.nil_append, List.cons_append, List.cons.injEq] at h
    exact absurd (by rw [← h.1]; exact List.mem_cons_self _ _) hT
  | t :: T, p :: P, hT, hR, h => by
    simp only [List.cons_append, List.cons.injEq] at h
    obtain ⟨h1, h2⟩ := eq_of_append_open R R' T P
      (fun hm => hT (List.mem_cons_of_mem _ hm)) hR h.2
    exact ⟨by rw [h.1, h1], h2⟩

/-- Three members whose rendering, closed by ")" and followed by any text, is the
rendering of the members that `HashTypedData` stores, are those members. -/
theorem members_of_domain_rendering (m1 m2 m3 : TypedMember) (D : Bytes)
    (h : m1.Ty ++ 32 :: (m1.Name ++ 44 :: (m2.Ty ++ 32 :: (m2.Name ++ 44 ::
        (m3.Ty ++ 32 :: (m3.Name ++ 41 :: D)))))
      = ascii "string name,string version,uint256 chainId)") :
    [m1, m2, m3] = typedDomainMembers ∧ D = [] := by
  have hS : ascii "string name,string version,uint256 chainId)"
      = ascii "string" ++ 32 :: (ascii "name" ++ 44 :: (ascii "string" ++ 32 ::
          (ascii "version" ++ 44 :: (ascii "uint256" ++ 32 :: (ascii "chainId" ++ 41 :: []))))) := by
    decide
  have c44 := congrArg (List.count 44) h
  have c32 := congrArg (List.count 32) h
  have c41 := congrArg (List.count 41) h
  have r44 : List.count 44 (ascii "string name,string version,uint256 chainId)") = 2 := by decide
  have r32 : List.count 32 (ascii "string name,string version,uint256 chainId)") = 3 := by decide
  have r41 : List.count 41 (ascii "string name,string version,uint256 chainId)") = 1 := by decide
  rw [r44] at c44
  rw [r32] at c32
  rw [r41] at c41
  simp only [List.count_append, List.count_cons, beq_iff_eq, Nat.reduceEqDiff, if_true,
    if_false, Nat.add_zero] at c44 c32 c41
  have n1 : (32 : Nat) ∉ m1.Ty := List.count_eq_zero.1 (by omega)
  have n2 : (44 : Nat) ∉ m1.Name := List.count_eq_zero.1 (by omega)
  have n3 : (32 : Nat) ∉ m2.Ty := List.count_eq_zero.1 (by omega)
  have n4 : (44 : Nat) ∉ m2.Name := List.count_eq_zero.1 (by omega)
  have n5 : (32 : Nat) ∉ m3.Ty := List.count_eq_zero.1 (by omega)
  have n6 : (41 : Nat) ∉ m3.Name := List.count_eq_zero.1 (by omega)
  rw [hS] at h
  obtain ⟨e1, h⟩ := split_at_byte 32 _ _ _ _ n1 (by decide) h
  obtain ⟨e2, h⟩ := split_at_byte 44 _ _ _ _ n2 (by decide) h
  obtain ⟨e3, h⟩ := split_at_byte 32 _ _ _ _ n3 (by decide) h
  obtain ⟨e4, h⟩ := split_at_byte 44 _ _ _ _ n4 (by decide) h
  obtain ⟨e5, h⟩ := split_at_byte 32 _ _ _ _ n5 (by decide) h
  obtain ⟨e6, h⟩ := split_at_byte 41 _ _ _ _ n6 (by decide) h
  refine ⟨?_, h⟩
  obtain ⟨a1, b1⟩ := m1
  obtain ⟨a2, b2⟩ := m2
  obtain ⟨a3, b3⟩ := m3
  simp only at e1 e2 e3 e4 e5 e6
  subst e1 e2 e3 e4 e5 e6
  rfl

/-- The type string of `TypedDomain` under the working dictionary, when the dictionary
declares neither `string` nor `uint256`. -/
theorem encodeType_domain_plain (E : Env) (types : Dict)
    (hm : types.members (ascii "TypedDomain") = typedDomainMembers)
    (hs : types.has (ascii "string") = false) (hu : types.has (ascii "uint256") = false) :
    encodeType E (ascii "TypedDomain") types
      = ascii "TypedDomain" ++
          40 :: ascii "string name,string version,uint256 chainId)" := by
  have hleaf : ∀ member ∈ types.members (ascii "TypedDomain"),
      types.has (trimSuffix member.Ty (ascii "[]")) = false := by
    intro member hmem
    rw [hm] at hmem
    simp only [typedDomainMembers, List.mem_cons, List.mem_singleton, List.not_mem_nil,
      or_false] at hmem
    have t1 : trimSuffix (ascii "string") (ascii "[]") = ascii "string" := by decide
    have t2 : trimSuffix (ascii "uint256") (ascii "[]") = ascii "uint256" := by decide
    rcases hmem with rfl | rfl | rfl
    · simpa [t1] using hs
    · simpa [t1] using hs
    · simpa [t2] using hu
  rw [encodeType_of_leaf E _ _ hleaf, formatMainType_head, hm]
  have hr : (ascii ",").intercalate
      (typedDomainMembers.map fun member => member.Ty ++ ascii " " ++ member.Name)
      ++ ascii ")" = ascii "string name,string version,uint256 chainId)" := by decide
  rw [hr]

/-- A struct hash under the dictionary of the caller that starts the same payload as the
domain hash of `HashTypedData` forces the dictionary to declare `TypedDomain` with the
members that `HashTypedData` stores. -/
theorem domain_declaration_of_hash (E : Env) (hcf : CollisionFree E.sha256) (fuel : Nat)
    (typeName : Bytes) (value : Object) (types : Dict) (y s t name version chainId : Bytes)
    (hy : hashStruct E fuel typeName value types = some (.ok y))
    (hp : y ++ s = E.sha256 (E.sha256 (ascii "TypedDomain" ++
            40 :: ascii "string name,string version,uint256 chainId)")
          ++ E.sha256 name ++ E.sha256 version ++ E.sha256 chainId) ++ t) :
    types.members (ascii "TypedDomain") = typedDomainMembers := by
  obtain ⟨hs, hlen, hrange, rfl⟩ := hashStruct_ok_parts E fuel typeName value types y hy
  have h1 := (hcf.append_cancel _ _ _ _ hp).1
  simp only [List.append_assoc] at h1
  obtain ⟨hts, hflat⟩ := hcf.append_cancel _ _ _ _ h1
  have hhs : hs = [E.sha256 name, E.sha256 version, E.sha256 chainId] := by
    apply flatten_hash_inj_any hcf _ _ hrange
    · intro h hh
      simp only [List.mem_cons, List.mem_singleton, List.not_mem_nil, or_false] at hh
      rcases hh with rfl | rfl | rfl
      · exact ⟨_, rfl⟩
      · exact ⟨_, rfl⟩
      · exact ⟨_, rfl⟩
    · simpa using hflat
  rw [hhs] at hlen
  rw [encodeType_eq, formatMainType_head, List.append_assoc, List.cons_append] at hts
  obtain ⟨hname, hrest⟩ := eq_of_append_open _ _ _ _ (by decide) (by decide) hts
  subst hname
  match hm : types.members (ascii "TypedDomain"), hlen with
  | [m1, m2, m3], _ =>
    rw [hm] at hrest
    have hform : (ascii ",").intercalate
        ([m1, m2, m3].map fun member => member.Ty ++ ascii " " ++ member.Name)
        = m1.Ty ++ 32 :: (m1.Name ++ 44 :: (m2.Ty ++ 32 :: (m2.Name ++ 44 ::
            (m3.Ty ++ 32 :: m3.Name)))) := by
      have a : ascii " " = [32] := by decide
      have b : ascii "," = [44] := by decide
      rw [a, b]
      simp [List.intercalate, List.intersperse]
    have hclose : ascii ")" = [41] := by decide
    rw [hform, hclose] at hrest
    simp only [List.append_assoc, List.cons_append, List.singleton_append,
      List.nil_append] at hrest
    exact (members_of_domain_rendering m1 m2 m3 _ hrest).1

/-- When the dictionary declares neither `string` nor `uint256`, so that no domain hash
of `HashTypedData` can fail, and the hash is collision-free: if `GetSigningText` and
`HashTypedData` both return and the text is the hashed body, then the dictionary maps
`TypedDomain` to the members `string name`, `string version`, `uint256 chainId`. -/
theorem signingText_eq_hashedBody_only_on_standard (E : Env) (hcf : CollisionFree E.sha256)
    (fuel : Nat) (data : TypedData)
    (hs : (data.Types.getD []).has (ascii "string") = false)
    (hu : (data.Types.getD []).has (ascii "uint256") = false)
    (text body : Bytes) (err : Option Bytes)
    (ht : GetSigningText E fuel data = some (text, err))
    (hb : hashedBody E fuel data = some body) (heq : text = body) :
    (data.Types.getD []).lookup (ascii "TypedDomain") = some typedDomainMembers := by
  have hWm := workingTypes_members_domain data.Types
  have hWs : (workingTypes data.Types).has (ascii "string") = false := by
    rw [workingTypes_has _ _ (by decide)]; exact hs
  have hWu : (workingTypes data.Types).has (ascii "uint256") = false := by
    rw [workingTypes_has _ _ (by decide)]; exact hu
  by_cases hkey : (data.Types.getD []).has (ascii "TypedDomain") = false
  · exact absurd heq (signingText_ne_hashedBody E hcf fuel data hkey text body err ht hb)
  · suffices hmem : (data.Types.getD []).members (ascii "TypedDomain") = typedDomainMembers by
      unfold Dict.has at hkey
      unfold Dict.members at hmem
      cases hl : (data.Types.getD []).lookup (ascii "TypedDomain") with
      | none => rw [hl] at hkey; simp at hkey
      | some ms => rw [hl] at hmem; simpa using hmem
    obtain ⟨dG, mG, hdG, hmG, rfl, _⟩ := (GetSigningText_eq_some E fuel data text err).1 ht
    obtain ⟨dH, mH, hdH, _, rfl⟩ := (hashedBody_eq_some E fuel data body).1 hb
    rw [signingText_eq_signingBody] at heq
    have hp := signingBody_injective _ _ heq
    cases fuel with
    | zero =>
      rw [hashStruct_domain_zero E data.Domain _ hWm] at hdH
      cases hdH
    | succ f =>
      rw [hashStruct_domain E f data.Domain _ hWm hWs hWu,
        encodeType_domain_plain E _ hWm hWs hWu] at hdH
      cases Option.some.inj hdH
      simp only [Except.bytes] at hp
      cases dG with
      | ok x =>
        simp only [Except.bytes] at hp
        exact domain_declaration_of_hash E hcf _ _ _ _ x _ _ _ _ _ hdG hp
      | error e =>
        cases mG with
        | error e2 =>
          simp only [Except.bytes, List.append_nil] at hp
          exact absurd (List.append_eq_nil.1 hp.symm).1 (hcf.ne_nil _)
        | ok y =>
          simp only [Except.bytes, List.nil_append] at hp
          exact domain_declaration_of_hash E hcf _ _ _ _ y [] _ _ _ _ hmG (by simpa using hp)

end OSM15
